import Mathlib

/-!
Verification development for the lazy-propagation interval aggregation engine:
the dense iterative tree (LazyPropSegtree) and the sparse pointer tree
(DynamicSegmentTree).  Both data structures are shallowly embedded below, with
machine arithmetic of the sparse tree modelled over Int (64-bit wrap made
explicit where the C++ computation can overflow) and the client-supplied
algebra (op, updVal, updLazy) kept as parameters.
-/

set_option maxHeartbeats 1000000
set_option maxRecDepth 100000
set_option linter.unusedSectionVars false

/-- Wrap an integer into the signed 64-bit range, modelling the overflow of
a C++ long long addition. -/
def wrap64 (x : Int) : Int := (x + 2 ^ 63) % 2 ^ 64 - 2 ^ 63

/-- The middle_ field computed by the DynamicSegmentTree constructor:
(start + end) / 2 in C++ semantics, i.e. 64-bit addition followed by
truncating division. -/
def llMid (s e : Int) : Int := Int.tdiv (wrap64 (s + e)) 2

/-- A node of the sparse DynamicSegmentTree.  The C++ node either has both
child pointers null or both set, so the embedding uses one constructor for
each of the two shapes.  Fields mirror start_, end_, middle_, value_, lazy_. -/
inductive SNode (T U : Type) where
  | base (start endI mid : Int) (value : T) (lazy : U)
  | split (start endI mid : Int) (value : T) (lazy : U) (left right : SNode T U)
deriving DecidableEq

namespace SNode

variable {T U : Type}

def start : SNode T U → Int
  | .base s _ _ _ _ => s
  | .split s _ _ _ _ _ _ => s

def endI : SNode T U → Int
  | .base _ e _ _ _ => e
  | .split _ e _ _ _ _ _ => e

def mid : SNode T U → Int
  | .base _ _ m _ _ => m
  | .split _ _ m _ _ _ _ => m

def value : SNode T U → T
  | .base _ _ _ v _ => v
  | .split _ _ _ v _ _ _ => v

def lazyTag : SNode T U → U
  | .base _ _ _ _ z => z
  | .split _ _ _ _ z _ _ => z

/-- Number of materialized nodes in the tree (the allocation counter used to
observe materialization). -/
def countNodes : SNode T U → Nat
  | .base _ _ _ _ _ => 1
  | .split _ _ _ _ _ a b => 1 + countNodes a + countNodes b

end SNode

section SparseOps

variable {T U : Type} [DecidableEq U]
variable (op : T → T → T) (idOp : T) (idUpd : U)
variable (updLazy : U → T → U → Int → Int → U × T)

/-- The node constructor: value_ is identityOp, lazy_ is identityUpdate,
middle_ is (start + end) / 2 and no children are materialized. -/
def smake (s e : Int) : SNode T U := .base s e (llMid s e) idOp idUpd

/-- Model of the call updLazy(child.lazy_, child.value_, u, child.start_,
child.end_): the client function overwrites the pending tag and the stored
aggregate of the child in place. -/
def pushTag (n : SNode T U) (u : U) : SNode T U :=
  match n with
  | .base s e m v z =>
      let p := updLazy z v u s e
      .base s e m p.2 p.1
  | .split s e m v z a b =>
      let p := updLazy z v u s e
      .split s e m p.2 p.1 a b

/-- DynamicSegmentTree::Propagate: materialize the two children when absent,
then, if the pending tag is not the identity, push it into both children and
clear it. -/
def sprop (n : SNode T U) : SNode T U :=
  match n with
  | .base s e m v z =>
      let a : SNode T U := smake idOp idUpd s m
      let b : SNode T U := smake idOp idUpd (m + 1) e
      if z = idUpd then .split s e m v z a b
      else .split s e m v idUpd (pushTag updLazy a z) (pushTag updLazy b z)
  | .split s e m v z a b =>
      if z = idUpd then .split s e m v z a b
      else .split s e m v idUpd (pushTag updLazy a z) (pushTag updLazy b z)

/-- DynamicSegmentTree::Query with an explicit recursion budget.  The C++
recursion is not structurally decreasing (Propagate materializes the children
that the call then recurses into), so the embedding takes fuel and returns
none when the budget is exhausted; the sprop result always has children, the
base fallback is unreachable. -/
def squery : Nat → SNode T U → Int → Int → Option (T × SNode T U)
  | 0, _, _, _ => none
  | f + 1, n, l, r =>
    if r < n.start ∨ n.endI < l then some (idOp, n)
    else if l ≤ n.start ∧ n.endI ≤ r then some (n.value, n)
    else
      match sprop idOp idUpd updLazy n with
      | .split s e m v z a b =>
          match squery f a l r with
          | none => none
          | some (va, a2) =>
            match squery f b l r with
            | none => none
            | some (vb, b2) => some (op va vb, .split s e m v z a2 b2)
      | .base _ _ _ _ _ => none

/-- DynamicSegmentTree::Update with an explicit recursion budget.  In the
fully covered case the code calls updLazy(lazy_, value_, v, start_, end_),
which is exactly pushTag; in the partial case it propagates, updates both
children and recombines value_ from the children. -/
def supdate : Nat → SNode T U → Int → Int → U → Option (SNode T U)
  | 0, _, _, _, _ => none
  | f + 1, n, l, r, v =>
    if r < n.start ∨ n.endI < l then some n
    else if l ≤ n.start ∧ n.endI ≤ r then some (pushTag updLazy n v)
    else
      match sprop idOp idUpd updLazy n with
      | .split s e m _ z a b =>
          match supdate f a l r v with
          | none => none
          | some a2 =>
            match supdate f b l r v with
            | none => none
            | some b2 => some (.split s e m (op a2.value b2.value) z a2 b2)
      | .base _ _ _ _ _ => none

/-- A Query call terminates on some recursion budget. -/
def SQueryTerminates (n : SNode T U) (l r : Int) : Prop :=
  ∃ f res, squery op idOp idUpd updLazy f n l r = some res

/-- An Update call terminates on some recursion budget. -/
def SUpdateTerminates (n : SNode T U) (l r : Int) (v : U) : Prop :=
  ∃ f res, supdate op idOp idUpd updLazy f n l r v = some res

end SparseOps

section SparseMinAssign

/-- Minimum of two integers, written out as the client lambda would be. -/
def intMin (a b : Int) : Int := if a ≤ b then a else b

/-- The large sentinel playing the role of plus infinity for the min
aggregate. -/
def INF : Int := 10 ^ 18

/-- Client updLazy for the min aggregate with assignment updates: an
incoming assignment overwrites both the pending tag and the stored
aggregate; the absent update (none) changes nothing. -/
def assignLazy (z : Option Int) (v : Int) (u : Option Int) (_s _e : Int) :
    Option Int × Int :=
  match u with
  | none => (z, v)
  | some x => (some x, x)

/-- The sparse tree over [0, 10^9] for the min/assignment scenario. -/
def c7Root : SNode Int (Option Int) := smake INF none 0 (10 ^ 9)

/-- State of the C7 scenario after Update(100, 200, 5). -/
def c7AfterUpd : Option (SNode Int (Option Int)) :=
  supdate intMin INF none assignLazy 64 c7Root 100 200 (some 5)

/-- Result and state of the C7 scenario after the following Query(0, 50). -/
def c7AfterQry : Option (Int × SNode Int (Option Int)) :=
  match c7AfterUpd with
  | none => none
  | some n => squery intMin INF none assignLazy 64 n 0 50

end SparseMinAssign

/-! ## The dense LazyPropSegtree -/

/-- State of a LazyPropSegtree object: size_, LOG_, the two identity
elements, and the tree_ and lazy_ vectors modelled as total maps on Nat
(reads outside the vector see the default; the C++ code only reads in
bounds on the executions the claims are about). -/
structure DState (T U : Type) where
  N : Nat
  LOG : Nat
  idOp : T
  idUpd : U
  t : Nat → T
  lz : Nat → U

/-- Pointwise map override, modelling one vector store. -/
def fupd {A : Type} (f : Nat → A) (i : Nat) (a : A) : Nat → A :=
  fun j => if j = i then a else f j

/-- Bit length with explicit fuel, so that the kernel can evaluate it. -/
def bitLenAux : Nat → Nat → Nat
  | 0, _ => 0
  | f + 1, n => if n = 0 then 0 else bitLenAux f (n / 2) + 1

/-- The bit length of n, i.e. 32 - __builtin_clz(n) for a 32-bit value:
bitLen 0 = 0, bitLen 5 = 3, bitLen 8 = 4. -/
def bitLen (n : Nat) : Nat := bitLenAux n n

section DenseOps

variable {T U : Type} [DecidableEq U]
variable (op : T → T → T) (updVal : T → U → T) (updLazy : U → U → U)

/-- One guarded body of the Propagate loop: if the tag of node i is not the
identity, push it into the aggregate and tag of both children and clear it.
The five stores are modelled sequentially, exactly as the C++ statements
execute. -/
def pushAt (s : DState T U) (i : Nat) : DState T U :=
  if s.lz i = s.idUpd then s
  else
    let t1 := fupd s.t (2 * i) (updVal (s.t (2 * i)) (s.lz i))
    let z1 := fupd s.lz (2 * i) (updLazy (s.lz (2 * i)) (s.lz i))
    let t2 := fupd t1 (2 * i + 1) (updVal (t1 (2 * i + 1)) (z1 i))
    let z2 := fupd z1 (2 * i + 1) (updLazy (z1 (2 * i + 1)) (z1 i))
    let z3 := fupd z2 i s.idUpd
    { s with t := t2, lz := z3 }

/-- The final step of Propagate: push the tag of node pos into the
aggregates of its two children (which are leaves, holding no tag slot)
and clear it. -/
def finalPush (s : DState T U) (p : Nat) : DState T U :=
  if s.lz p = s.idUpd then s
  else
    let t1 := fupd s.t (2 * p) (updVal (s.t (2 * p)) (s.lz p))
    let t2 := fupd t1 (2 * p + 1) (updVal (t1 (2 * p + 1)) (s.lz p))
    { s with t := t2, lz := fupd s.lz p s.idUpd }

/-- The for loop of Propagate: shift runs from LOG_ down to 2, pushing at
node pos >> shift. -/
def propDown (pos : Nat) : Nat → DState T U → DState T U
  | 0, s => s
  | 1, s => s
  | k + 2, s => propDown pos (k + 1) (pushAt updVal updLazy s (pos >>> (k + 2)))

/-- LazyPropSegtree::Propagate(pos). -/
def dpropagate (s : DState T U) (pos : Nat) : DState T U :=
  finalPush updVal (propDown updVal updLazy pos s.LOG s) (pos / 2)

/-- The bottom-up while loop of Query, with fuel (the loop halves right, so
fuel r + 1 is always enough). -/
def walkQ (t : Nat → T) : Nat → Nat → Nat → T → T → T
  | 0, _, _, aL, aR => op aL aR
  | f + 1, l, r, aL, aR =>
    if l < r then
      let aL2 := if l % 2 = 1 then op aL (t l) else aL
      let l2 := if l % 2 = 1 then l + 1 else l
      let aR2 := if r % 2 = 1 then op (t (r - 1)) aR else aR
      let r2 := if r % 2 = 1 then r - 1 else r
      walkQ t f (l2 / 2) (r2 / 2) aL2 aR2
    else op aL aR

/-- LazyPropSegtree::Query(left, right): returns the aggregate and the
mutated state (Propagate writes to the vectors). -/
def DQuery (s : DState T U) (l r : Nat) : T × DState T U :=
  let l0 := l + s.N
  let r0 := r + s.N
  let s1 := dpropagate updVal updLazy s l0
  let s2 := dpropagate updVal updLazy s1 (r0 - 1)
  (walkQ op s2.t (r0 + 1) l0 r0 s.idOp s.idOp, s2)

/-- The bottom-up while loop of Update: apply updVal to the aggregate and
updLazy to the tag of every boundary-covering node, with fuel. -/
def walkU : Nat → Nat → Nat → U → DState T U → DState T U
  | 0, _, _, _, s => s
  | f + 1, l, r, v, s =>
    if l < r then
      let s1 :=
        if l % 2 = 1 then
          { s with t := fupd s.t l (updVal (s.t l) v),
                   lz := fupd s.lz l (updLazy (s.lz l) v) }
        else s
      let l2 := if l % 2 = 1 then l + 1 else l
      let s2 :=
        if r % 2 = 1 then
          { s1 with t := fupd s1.t (r - 1) (updVal (s1.t (r - 1)) v),
                    lz := fupd s1.lz (r - 1) (updLazy (s1.lz (r - 1)) v) }
        else s1
      let r2 := if r % 2 = 1 then r - 1 else r
      walkU f (l2 / 2) (r2 / 2) v s2
    else s

/-- The while loop of recalculate_after_update, with fuel: recombine the
aggregate from the children and re-apply the pending tag, walking to the
root. -/
def recalcUp : Nat → Nat → DState T U → DState T U
  | 0, _, s => s
  | f + 1, pos, s =>
    if 0 < pos then
      let a := updVal (op (s.t (2 * pos)) (s.t (2 * pos + 1))) (s.lz pos)
      recalcUp f (pos / 2) { s with t := fupd s.t pos a }
    else s

/-- LazyPropSegtree::recalculate_after_update(pos). -/
def drecalc (s : DState T U) (pos : Nat) : DState T U :=
  recalcUp op updVal pos (pos / 2) s

/-- LazyPropSegtree::Update(left, right, value): boundary leaves first get
updVal applied directly, then the bottom-up walk tags covering nodes, then
the two recalculation passes run from the original boundary positions. -/
def DUpdate (s : DState T U) (l r : Nat) (v : U) : DState T U :=
  let l0 := l + s.N
  let r0 := r + s.N
  let s1 := if l0 % 2 = 1 then { s with t := fupd s.t l0 (updVal (s.t l0) v) } else s
  let l1 := if l0 % 2 = 1 then l0 + 1 else l0
  let s2 :=
    if r0 % 2 = 1 then { s1 with t := fupd s1.t (r0 - 1) (updVal (s1.t (r0 - 1)) v) }
    else s1
  let r1 := if r0 % 2 = 1 then r0 - 1 else r0
  let s3 := walkU updVal updLazy (r0 + 1) (l1 / 2) (r1 / 2) v s2
  let s4 := drecalc op updVal s3 l0
  drecalc op updVal s4 (r0 - 1)

/-- The bottom-up build loop of the range constructor, filling node i from
its children for i = N-1 down to 1. -/
def buildDown (s : DState T U) : Nat → DState T U
  | 0 => s
  | i + 1 => buildDown { s with t := fupd s.t (i + 1) (op (s.t (2 * (i + 1))) (s.t (2 * (i + 1) + 1))) } i

/-- The LazyPropSegtree range constructor: size_ and LOG_ = 32 - clz(size_)
(the bit length of size_), leaves copied to positions [N, 2N), internal
nodes built bottom-up, lazy_ all identity. -/
def denseOfList (xs : List T) (iO : T) (iU : U) : DState T U :=
  let n := xs.length
  let s0 : DState T U :=
    { N := n, LOG := bitLen n, idOp := iO, idUpd := iU,
      t := fun j => if n ≤ j ∧ j < 2 * n then xs.getD (j - n) iO else iO,
      lz := fun _ => iU }
  buildDown op s0 (n - 1)

/-- The LazyPropSegtree size constructor: LOG_ = 31 - clz(size_) (one less
than the bit length), all 2N aggregate slots set to identityOp and all tags
identity. -/
def denseOfSize (n : Nat) (iO : T) (iU : U) : DState T U :=
  { N := n, LOG := bitLen n - 1, idOp := iO, idUpd := iU,
    t := fun _ => iO, lz := fun _ => iU }

end DenseOps

/-! ## Concrete client algebras for the dense tree -/

/-- Integer addition client for sum aggregates and additive updates.  This
algebra satisfies the monoid laws, the identity law for updVal and the
compatibility law. -/
def addOp (a b : Int) : Int := a + b

/-- Scenario C2: dense sum/add tree built from [1,2,3,4,5]. -/
def c2Tree : DState Int Int := denseOfList addOp [1, 2, 3, 4, 5] 0 0

/-- Scenario C2, step 1: Query(1,4). -/
def c2Q1 : Int × DState Int Int := DQuery addOp addOp addOp c2Tree 1 4

/-- Scenario C2, step 2: Update(1,4,10). -/
def c2S2 : DState Int Int := DUpdate addOp addOp addOp c2Q1.2 1 4 10

/-- Scenario C2, step 3: Query(1,4) again. -/
def c2Q2 : Int × DState Int Int := DQuery addOp addOp addOp c2S2 1 4

/-- Scenario C2, step 4: Query(2,3). -/
def c2Q3 : Int × DState Int Int := DQuery addOp addOp addOp c2Q2.2 2 3

/-- The laws C1 and C2 assume of a client algebra, instantiated by the
integer sum/add client: combine is associative with identity idOp, the
update composition is associative with identity idUpd, updVal with the
identity update is the identity, and the compatibility law holds. -/
def SumAddLawful : Prop :=
  (∀ a b c : Int, addOp (addOp a b) c = addOp a (addOp b c)) ∧
  (∀ a : Int, addOp a 0 = a) ∧ (∀ a : Int, addOp 0 a = a) ∧
  (∀ a b c : Int, addOp (addOp a b) c = addOp a (addOp b c)) ∧
  (∀ t : Int, addOp t 0 = t) ∧
  (∀ (t : Int) (u1 u2 : Int), addOp (addOp t u1) u2 = addOp t (addOp u1 u2))

/-- Dense min/add scenarios: the aggregate is intMin with identity INF and
updates add an integer to every element.  This algebra satisfies every law
the specification states, including distributivity of the update over the
aggregate operation and commutativity of updates. -/
def minAddTree5 : DState Int Int := denseOfList intMin [1, 2, 3, 4, 5] INF 0

/-- Scenario C6: Query(3,5) on the fresh tree (observable value before the
empty update). -/
def c6Q0 : Int × DState Int Int := DQuery intMin addOp addOp minAddTree5 3 5

/-- Scenario C6: the empty update Update(0,0,10) (N + 0 = 5 is odd). -/
def c6S1 : DState Int Int := DUpdate intMin addOp addOp c6Q0.2 0 0 10

/-- Scenario C6: Query(3,5) after the empty update. -/
def c6Q1 : Int × DState Int Int := DQuery intMin addOp addOp c6S1 3 5

/-- Scenario C3/C4: dense min/add tree over [1,2,3,4]. -/
def minAddTree4 : DState Int Int := denseOfList intMin [1, 2, 3, 4] INF 0

/-- Scenario C3/C4: state after the full-range Update(0,4,5), which tags the
root node 1 with the pending update 5. -/
def c3S1 : DState Int Int := DUpdate intMin addOp addOp minAddTree4 0 4 5

/-- Scenario C3: state after the subsequent Update(0,1,3).  The boundary
paths of this call pass through node 1, whose tag is pending. -/
def c3S2 : DState Int Int := DUpdate intMin addOp addOp c3S1 0 1 3

/-- The update operation as the claim C3 describes it: first propagate
pending tags top-down along the two boundary root-to-leaf paths (exactly as
Query does), then run the bottom-up update walk.  Modelled from the claim
wording to compare with the code, which performs no propagation in Update. -/
def DUpdateClaimed (s : DState Int Int) (l r : Nat) (v : Int) : DState Int Int :=
  let s1 := dpropagate addOp addOp s (l + s.N)
  let s2 := dpropagate addOp addOp s1 (r + s.N - 1)
  DUpdate intMin addOp addOp s2 l r v

/-- Scenario C3 under the claimed propagate-first behavior. -/
def c3S2claimed : DState Int Int := DUpdateClaimed c3S1 0 1 3

/-- The laws assumed of the min/add client: combine associative with
identity INF, update composition associative with identity 0, updVal
identity, compatibility, distributivity of the update over the combine, and
commutativity of updates. -/
def MinAddLawful : Prop :=
  (∀ a b c : Int, intMin (intMin a b) c = intMin a (intMin b c)) ∧
  (∀ a : Int, a ≤ INF → intMin a INF = a) ∧
  (∀ a : Int, a ≤ INF → intMin INF a = a) ∧
  (∀ a b c : Int, addOp (addOp a b) c = addOp a (addOp b c)) ∧
  (∀ t : Int, addOp t 0 = t) ∧
  (∀ (t u1 u2 : Int), addOp (addOp t u1) u2 = addOp t (addOp u1 u2)) ∧
  (∀ (a b u : Int), addOp (intMin a b) u = intMin (addOp a u) (addOp b u)) ∧
  (∀ (t u1 u2 : Int), addOp (addOp t u1) u2 = addOp (addOp t u2) u1)

/-- Elementwise reference update over a half-open range [l, r), as the
O(N)-per-operation brute-force array applies it. -/
def refUpdate {T U : Type} (updVal : T → U → T) (f : Nat → T) (l r : Nat) (v : U) :
    Nat → T :=
  fun j => if l ≤ j ∧ j < r then updVal (f j) v else f j

/-- Brute-force reference query over a half-open range [l, r). -/
def refQueryD {T : Type} (op : T → T → T) (idOp : T) (f : Nat → T) (l r : Nat) : T :=
  ((List.range (r - l)).map (fun k => f (l + k))).foldr op idOp

/-- The reference array of scenario C2 before the update. -/
def c2Ref0 : Nat → Int := fun j => [1, 2, 3, 4, 5].getD j 0

/-- The reference array of scenario C2 after Update(1,4,10). -/
def c2Ref1 : Nat → Int := refUpdate addOp c2Ref0 1 4 10

/-- A sparse node shape on which the mutual recursion of Update, Query and
Propagate cannot terminate: the node covers [-1, 0] and its computed middle
is 0, so the materialized left child covers [-1, 0] again. -/
def BadShape {T U : Type} : SNode T U → Prop
  | .base s e m _ _ => s = -1 ∧ e = 0 ∧ m = 0
  | .split s e m _ _ a _ => s = -1 ∧ e = 0 ∧ m = 0 ∧ BadShape a

/-- The fresh sparse min/assignment tree over the domain [-1, 0]. -/
def c8Root : SNode Int (Option Int) := smake INF none (-1) 0

/-- Number of materialized nodes after the update of scenario C7. -/
def c7CountAfterUpd : Nat :=
  match c7AfterUpd with
  | none => 0
  | some n => n.countNodes

/-- Value returned by Query(0, 50) in scenario C7. -/
def c7QryVal : Int :=
  match c7AfterQry with
  | none => 0
  | some p => p.1

/-- Number of materialized nodes after Query(0, 50) in scenario C7. -/
def c7CountAfterQry : Nat :=
  match c7AfterQry with
  | none => 0
  | some p => p.2.countNodes

/-- The pair of children of a sparse node, when materialized. -/
def SNode.kids {T U : Type} : SNode T U → Option (SNode T U × SNode T U)
  | .base _ _ _ _ _ => none
  | .split _ _ _ _ _ a b => some (a, b)

/-- The per-node invariant of the dense tree: every internal node stores the
combination of its two children with its own pending tag applied on top.
This is what the stored aggregate actually reflects: the updates recorded at
the node or below, not those still pending at strict ancestors. -/
def DInv {T U : Type} (op : T → T → T) (updVal : T → U → T) (s : DState T U) : Prop :=
  ∀ i : Nat, 1 ≤ i → i < s.N → s.t i = updVal (op (s.t (2 * i)) (s.t (2 * i + 1))) (s.lz i)

/-! ## The algebra of a law-abiding sparse client, and the brute-force
reference the sparse tree is compared against -/

section SparseAlgebra

variable {T U : Type} [DecidableEq U]
variable (op : T → T → T) (idOp : T) (idUpd : U)
variable (comp : U → U → U) (app : U → Int → Int → T → T)

/-- The updLazy function of a law-abiding sparse client, assembled from the
two spec-level components: composeUpdate the incoming update into the tag
and applyUpdate it (position and length aware) onto the stored aggregate. -/
def mkUpdLazy : U → T → U → Int → Int → U × T :=
  fun z val v s e => (comp z v, app v s e val)

/-- Fold of op over f at count consecutive integers starting at l. -/
def rfold (f : Int → T) : Int → Nat → T
  | _, 0 => idOp
  | l, k + 1 => op (f l) (rfold f (l + 1) k)

/-- Brute-force reference query over the inclusive range [l, r]. -/
def refQueryS (f : Int → T) (l r : Int) : T :=
  rfold op idOp f l (r + 1 - l).toNat

/-- Brute-force elementwise reference update over the inclusive range
[l, r]. -/
def refUpdateS (f : Int → T) (l r : Int) (v : U) : Int → T :=
  fun j => if l ≤ j ∧ j ≤ r then app v j j (f j) else f j

/-- The abstract array a sparse node represents: its own pending tag applied
on top of what the children represent; an unmaterialized child stands for
all-identity leaves. -/
def sem : SNode T U → Int → T
  | .base _ _ _ _ z, j => app z j j idOp
  | .split _ _ m _ z a b, j => app z j j (if j ≤ m then sem a j else sem b j)

/-- Structural shape invariant of a sparse node with height certificate h:
the range is within the overflow-free nonnegative region, mid is as the
constructor computes it, the width is below 2^h, and materialized children
cover [start, mid] and [mid+1, end]. -/
def SShape : Nat → SNode T U → Prop
  | h, .base s e m _ _ =>
      0 ≤ s ∧ s ≤ e ∧ e < 2 ^ 62 ∧ m = llMid s e ∧ e - s < 2 ^ h
  | h, .split s e m _ _ a b =>
      0 ≤ s ∧ s ≤ e ∧ e < 2 ^ 62 ∧ m = llMid s e ∧ e - s < 2 ^ h ∧
      a.start = s ∧ a.endI = m ∧ b.start = m + 1 ∧ b.endI = e ∧
      SShape (h - 1) a ∧ SShape (h - 1) b

/-- Value soundness: every stored aggregate in the tree is the fold of the
array its node represents over the node range. -/
def ValSound : SNode T U → Prop
  | .base s e m v z =>
      v = refQueryS op idOp (sem idOp app (.base s e m v z)) s e
  | .split s e m v z a b =>
      v = refQueryS op idOp (sem idOp app (.split s e m v z a b)) s e ∧
      ValSound a ∧ ValSound b

/-- The full invariant the sparse operations preserve. -/
def SInv (h : Nat) (n : SNode T U) : Prop :=
  SShape h n ∧ ValSound op idOp app n

/-- The laws the specification states for the client algebra: combine is an
associative operation with identity idOp; composeUpdate is associative with
identity idUpd; applying the identity update changes nothing; the
compatibility law; and the split law that makes a position-aware update
application agree with elementwise application. -/
def SLaws : Prop :=
  (∀ a b c, op (op a b) c = op a (op b c)) ∧
  (∀ a, op a idOp = a) ∧
  (∀ a, op idOp a = a) ∧
  (∀ u1 u2 u3, comp (comp u1 u2) u3 = comp u1 (comp u2 u3)) ∧
  (∀ u, comp idUpd u = u) ∧
  (∀ u, comp u idUpd = u) ∧
  (∀ l r t, app idUpd l r t = t) ∧
  (∀ v1 v2 l r t, app v2 l r (app v1 l r t) = app (comp v1 v2) l r t) ∧
  (∀ v l m r t1 t2, l ≤ m → m < r →
    app v l r (op t1 t2) = op (app v l m t1) (app v (m + 1) r t2))

/-- One client call against the engine: a range update or a range query. -/
inductive SOp (U : Type) where
  | upd (l r : Int) (v : U)
  | qry (l r : Int)

/-- An operation is in bounds for the domain [S, E]. -/
def SOpInBounds (S E : Int) : SOp U → Prop
  | .upd l r _ => S ≤ l ∧ l ≤ r ∧ r ≤ E
  | .qry l r => S ≤ l ∧ l ≤ r ∧ r ≤ E

/-- Run a list of operations against the sparse tree, collecting the query
results, with recursion budget fuel per call. -/
def sparseRun (fuel : Nat) : SNode T U → List (SOp U) → Option (List T × SNode T U)
  | n, [] => some ([], n)
  | n, .upd l r v :: rest =>
      match supdate op idOp idUpd (mkUpdLazy comp app) fuel n l r v with
      | none => none
      | some n2 => sparseRun fuel n2 rest
  | n, .qry l r :: rest =>
      match squery op idOp idUpd (mkUpdLazy comp app) fuel n l r with
      | none => none
      | some (res, n2) =>
          match sparseRun fuel n2 rest with
          | none => none
          | some (outs, nf) => some (res :: outs, nf)

/-- Run the same operations against the brute-force reference array,
collecting the query results. -/
def refRunS (f : Int → T) : List (SOp U) → List T
  | [] => []
  | .upd l r v :: rest => refRunS (refUpdateS app f l r v) rest
  | .qry l r :: rest => refQueryS op idOp f l r :: refRunS f rest

end SparseAlgebra

/-- The left boundary index of the dense bottom-up walk at level k: the
ceiling of l0 / 2^k, computed the way the loop computes it (increment when
odd, then halve). -/
def ceilSeq (l0 : Nat) : Nat → Nat
  | 0 => l0
  | k + 1 => (ceilSeq l0 k + 1) / 2

/-- The right boundary index of the dense bottom-up walk at level k: the
floor of r0 / 2^k. -/
def floorSeq (r0 : Nat) : Nat → Nat
  | 0 => r0
  | k + 1 => floorSeq r0 k / 2

/-- The positions of the dense tree that can ever hold a non-identity lazy
tag: x carries a whole subtree of leaf slots, i.e. the interval
[x*2^k, (x+1)*2^k) fits inside the leaf region [N, 2N] for the level k at
which x was tagged. -/
def TagProp (N x : Nat) : Prop :=
  ∃ k, 1 ≤ k ∧ N ≤ x * 2 ^ k ∧ (x + 1) * 2 ^ k ≤ 2 * N

/-- Tag placement invariant of the dense tree: every internal slot holding a
non-identity tag satisfies TagProp. -/
def LzInv {T U : Type} (s : DState T U) : Prop :=
  ∀ x, x < s.N → s.lz x ≠ s.idUpd → TagProp s.N x

/-- The node equation at index i (the per-node form of the invariant). -/
def I1 {T U : Type} (op : T → T → T) (updVal : T → U → T) (s : DState T U) (i : Nat) :
    Prop :=
  s.t i = updVal (op (s.t (2 * i)) (s.t (2 * i + 1))) (s.lz i)

/-- The node equation holds at every internal index outside the excused set
X. -/
def DInvX {T U : Type} (op : T → T → T) (updVal : T → U → T) (s : DState T U)
    (X : Nat → Prop) : Prop :=
  ∀ i, 1 ≤ i → i < s.N → ¬ X i → I1 op updVal s i

/-- Strict ancestry in the heap indexing: i is obtained from p by at least
one halving. -/
def IsAnc (p i : Nat) : Prop := ∃ j, 1 ≤ j ∧ i = p >>> j

/-- The indices whose node equation an update pass may temporarily break:
the strict ancestors of the two boundary positions. -/
def BSet (l0 r0 : Nat) (i : Nat) : Prop := IsAnc l0 i ∨ IsAnc (r0 - 1) i

/-- The algebra laws the dense tree relies on: applying the identity update
changes nothing, updates compose through updLazy (the compatibility law),
the update distributes over the combine operation, and idOp is idempotent
under op. -/
def DLaws {T U : Type} (op : T → T → T) (updVal : T → U → T) (updLazy : U → U → U)
    (idOp : T) (idUpd : U) : Prop :=
  (∀ t, updVal t idUpd = t) ∧
  (∀ t u1 u2, updVal (updVal t u1) u2 = updVal t (updLazy u1 u2)) ∧
  (∀ a b u, updVal (op a b) u = op (updVal a u) (updVal b u)) ∧
  op idOp idOp = idOp

/-- One dense client call. -/
inductive DOp (U : Type) where
  | upd (l r : Nat) (v : U)
  | qry (l r : Nat)

/-- A dense call is in bounds and nonempty for size N. -/
def DOpInBounds (N : Nat) : DOp U → Prop
  | .upd l r _ => l < r ∧ r ≤ N
  | .qry l r => l < r ∧ r ≤ N

/-- A dense call is in bounds, possibly empty, for size N. -/
def DOpInBoundsW (N : Nat) : DOp U → Prop
  | .upd l r _ => l ≤ r ∧ r ≤ N
  | .qry l r => l ≤ r ∧ r ≤ N

section DenseRun

variable {T U : Type} [DecidableEq U]
variable (op : T → T → T) (updVal : T → U → T) (updLazy : U → U → U)

/-- Run a list of dense calls, threading the state and collecting query
results. -/
def denseRun : DState T U → List (DOp U) → List T × DState T U
  | s, [] => ([], s)
  | s, .upd l r v :: rest => denseRun (DUpdate op updVal updLazy s l r v) rest
  | s, .qry l r :: rest =>
      let p := DQuery op updVal updLazy s l r
      let q := denseRun p.2 rest
      (p.1 :: q.1, q.2)

end DenseRun

/-- The elementary covering-node write of the Update walk: apply updVal to
the aggregate and compose the update into the tag, at one index. -/
def tagWrite {T U : Type} (updVal : T → U → T) (updLazy : U → U → U)
    (s : DState T U) (w : Nat) (v : U) : DState T U :=
  { s with t := fupd s.t w (updVal (s.t w) v),
           lz := fupd s.lz w (updLazy (s.lz w) v) }

/-- The boundary-leaf pre-write of Update: apply updVal to one aggregate
slot, leaving the tags alone. -/
def tstore {T U : Type} (updVal : T → U → T) (s : DState T U) (w : Nat) (v : U) :
    DState T U :=
  { s with t := fupd s.t w (updVal (s.t w) v) }

/-- The halving chain from p down to the root: p itself and all its
ancestors. -/
def ChainFrom (p i : Nat) : Prop := ∃ j, i = p >>> j

/-- All strict ancestors of position q hold the identity tag. -/
def PathClear {T U : Type} (s : DState T U) (q : Nat) : Prop :=
  ∀ m, 1 ≤ m → 1 ≤ q >>> m → s.lz (q >>> m) = s.idUpd

/-- Replace only the LOG_ field of a dense state. -/
def setLOG {T U : Type} (s : DState T U) (L : Nat) : DState T U :=
  { s with LOG := L }

/-- Scenario for the constructor comparison: a min/add client over N = 2,
with one full-range update, one empty boundary query, one empty boundary
update, then an observation query. All four calls have 0 <= left <= right
<= N. -/
def c10Ops : List (DOp Int) :=
  [DOp.upd 0 2 (-2), DOp.qry 2 2, DOp.upd 2 2 3, DOp.qry 0 1]

/-- Query outputs of the scenario on the size-constructed tree. -/
def c10SizeRun : List Int :=
  (denseRun intMin addOp addOp (denseOfSize 2 INF 0) c10Ops).1

/-- Query outputs of the scenario on the tree built from two copies of the
identity element. -/
def c10ListRun : List Int :=
  (denseRun intMin addOp addOp (denseOfList intMin (List.replicate 2 INF) INF 0)
    c10Ops).1

/-!
## Theorems

Helper lemmas first, then one theorem per claim (with witnesses where the
statement carries hypotheses).
-/

theorem fupd_same {A : Type} (f : Nat → A) (i : Nat) (a : A) :
    fupd f i a i = a := by simp [fupd]

theorem fupd_other {A : Type} (f : Nat → A) (i j : Nat) (a : A) (h : j ≠ i) :
    fupd f i a j = f j := by simp [fupd, h]

/-- Truncating division of minus one by two is zero: this is the C++ result
for (start + end) / 2 on the domain with start = -1, end = 0. -/
theorem llMid_neg_one_zero : llMid (-1) 0 = 0 := by decide

theorem sumAddLawful : SumAddLawful := by
  refine ⟨?_, ?_, ?_, ?_, ?_, ?_⟩ <;> intros <;> simp [addOp] <;> ring

theorem minAddLawful : MinAddLawful := by
  refine ⟨?_, ?_, ?_, ?_, ?_, ?_, ?_, ?_⟩ <;> intros <;>
    simp only [intMin, addOp] <;> (try split_ifs) <;> omega

/-- C2: the claim asserts Query(1,4) == 39 after Update(1,4,10); the code
returns 29, because each covering node receives the additive update exactly
once regardless of how many leaves it spans, which undercounts a sum
aggregate. -/
theorem c2_counterexample : ¬ (c2Q1.1 = 9 ∧ c2Q2.1 = 39 ∧ c2Q3.1 = 13) := by
  decide

/-- C2 amended: with a sum aggregate and additive update, build from
[1,2,3,4,5]: Query(1,4) == 9; after Update(1,4,10), Query(1,4) == 29 (each
covering node absorbs the update once, so two-leaf node 3 undercounts by
10), and then Query(2,3) == 13 (the boundary leaf did receive the full
update, and the preceding query propagated the pending tags). -/
theorem c2_amended : c2Q1.1 = 9 ∧ c2Q2.1 = 29 ∧ c2Q3.1 = 13 := by decide

/-- C1 counterexample: the integer sum/add client satisfies the monoid and
compatibility laws, yet on the interleaved sequence Query(1,4),
Update(1,4,10), Query(1,4) the dense tree disagrees with the elementwise
reference array at the final step (29 versus 39). -/
theorem c1_counterexample :
    SumAddLawful ∧
    c2Q1.1 = refQueryD addOp 0 c2Ref0 1 4 ∧
    ¬ (c2Q2.1 = refQueryD addOp 0 c2Ref1 1 4) := by
  refine ⟨sumAddLawful, by decide, by decide⟩



/-- C6 counterexample: on the dense min/add tree over [1,2,3,4,5] (N = 5,
so N + 0 = 5 is odd), Query(3,5) returns 4; after the empty update
Update(0,0,10) the same query returns 14.  The empty update applied updVal
to leaf slot 5 and, after the decrement, to internal slot 4, corrupting
aggregates, so it does mutate observable state. -/
theorem c6_counterexample :
    MinAddLawful ∧ c6Q0.1 = 4 ∧ c6Q1.1 = 14 ∧ ¬ (c6Q1.1 = c6Q0.1) :=
  ⟨minAddLawful, by decide, by decide, by decide⟩

/-- C3 counterexample: on the dense min/add tree over [1,2,3,4], after
Update(0,4,5) node 1 carries the pending tag 5.  The claim says every
Update first propagates pending tags along both boundary root-to-leaf
paths, clearing them to idUpd before the bottom-up walk; node 1 lies on
both boundary paths of Update(0,1,3), and the walk of that call never tags
node 1 again, yet after the call its tag is still 5.  Under the claimed
propagate-first behavior (DUpdateClaimed) the tag would be 0. -/
theorem c3_counterexample :
    c3S1.lz 1 = 5 ∧ c3S2.lz 1 = 5 ∧ c3S2claimed.lz 1 = 0 ∧
    ¬ (c3S2.lz 1 = c3S2claimed.lz 1) := by
  refine ⟨by decide, by decide, by decide, by decide⟩

/-- C4 counterexample: the min/add algebra satisfies every stated law, yet
after Update(0,4,5) on the dense tree over [1,2,3,4], internal node 2
(covering indices 0 and 1) stores aggregate 1, while every update applied
so far to indices inside its range gives the reference aggregate
min(1+5, 2+5) = 6: the stored aggregate does not reflect the update that
was absorbed by the tag of its ancestor node 1. -/
theorem c4_counterexample :
    MinAddLawful ∧ c3S1.t 2 = 1 ∧
    refQueryD intMin INF (refUpdate addOp c2Ref0 0 4 5) 0 2 = 6 ∧
    ¬ (c3S1.t 2 = refQueryD intMin INF (refUpdate addOp c2Ref0 0 4 5) 0 2) :=
  ⟨minAddLawful, by decide, by decide, by decide⟩

/-- C7 counterexample: on the sparse min/assignment tree over [0, 10^9],
after Update(100,200,5) the structure holds 71 nodes; the query
Query(0,50), whose range is disjoint from every prior update, returns idOp
but materializes ten further nodes (81 total), necessarily below the
already-materialized immediate children of the root: querying does trigger
node materialization. -/
theorem c7_counterexample : ¬ (c7CountAfterQry = c7CountAfterUpd) := by decide

/-- C7 amended: the disjoint query returns idOp (the infinity sentinel of
the min algebra), but Propagate materializes both children of every
partially overlapped node along the descent, so the node count grows from
71 to 81: laziness of the sparse tree bounds materialization per operation,
it does not prevent materialization on queries. -/
theorem c7_amended :
    c7QryVal = INF ∧ c7CountAfterUpd = 71 ∧ c7CountAfterQry = 81 := by decide

/-- C9 counterexample: the sparse node over the domain [-1, 0] (start < end)
computes mid = (start + end) / 2 = 0 with C++ truncating division, so
start <= mid < end fails (mid = end), and the children materialized by
Propagate cover [-1, 0] and [1, 0]: the left child repeats the parent range
and the right child is empty, not a partition. -/
theorem c9_counterexample :
    (smake (0 : Int) (0 : Int) (-1) 0).start < (smake (0 : Int) (0 : Int) (-1) 0).endI ∧
    (smake (0 : Int) (0 : Int) (-1) 0).mid = 0 ∧
    ¬ ((smake (0 : Int) (0 : Int) (-1) 0).mid < (smake (0 : Int) (0 : Int) (-1) 0).endI) := by
  decide

theorem pushTag_badShape {T U : Type} (updLazy : U → T → U → Int → Int → U × T)
    (n : SNode T U) (u : U) (h : BadShape n) : BadShape (pushTag updLazy n u) := by
  cases n <;> simpa [pushTag, BadShape] using h

theorem badShape_start {T U : Type} (n : SNode T U) (h : BadShape n) :
    n.start = -1 := by
  cases n <;> simp [BadShape] at h <;> simp [SNode.start, h]

theorem badShape_endI {T U : Type} (n : SNode T U) (h : BadShape n) :
    n.endI = 0 := by
  cases n <;> simp [BadShape] at h <;> simp [SNode.endI, h]

theorem badShape_smake {T U : Type} (idOp : T) (idUpd : U) :
    BadShape (smake idOp idUpd (-1) 0) := by
  simp [smake, BadShape, llMid_neg_one_zero]

theorem sprop_badShape {T U : Type} [DecidableEq U] (idOp : T) (idUpd : U)
    (updLazy : U → T → U → Int → Int → U × T) (n : SNode T U) (h : BadShape n) :
    ∃ v z a b, sprop idOp idUpd updLazy n = SNode.split (-1) 0 0 v z a b ∧ BadShape a := by
  cases n with
  | base s e m v z =>
      obtain ⟨hs, he, hm⟩ := h
      subst hs; subst he; subst hm
      by_cases hz : z = idUpd
      · refine ⟨v, z, smake idOp idUpd (-1) 0, smake idOp idUpd (0 + 1) 0, ?_, ?_⟩
        · simp [sprop, hz]
        · exact badShape_smake idOp idUpd
      · refine ⟨v, idUpd, pushTag updLazy (smake idOp idUpd (-1) 0) z,
          pushTag updLazy (smake idOp idUpd (0 + 1) 0) z, ?_, ?_⟩
        · simp [sprop, hz]
        · exact pushTag_badShape updLazy _ _ (badShape_smake idOp idUpd)
  | split s e m v z a b =>
      obtain ⟨hs, he, hm, ha⟩ := h
      subst hs; subst he; subst hm
      by_cases hz : z = idUpd
      · exact ⟨v, z, a, b, by simp [sprop, hz], ha⟩
      · exact ⟨v, idUpd, pushTag updLazy a z, pushTag updLazy b z,
          by simp [sprop, hz], pushTag_badShape updLazy _ _ ha⟩

theorem supdate_badShape_none {T U : Type} [DecidableEq U] (op : T → T → T)
    (idOp : T) (idUpd : U) (updLazy : U → T → U → Int → Int → U × T) (v : U) :
    ∀ (f : Nat) (n : SNode T U), BadShape n →
      supdate op idOp idUpd updLazy f n (-1) (-1) v = none := by
  intro f
  induction f with
  | zero => intro n _; rfl
  | succ f ih =>
      intro n h
      obtain ⟨w, z, a, b, hp, ha⟩ := sprop_badShape idOp idUpd updLazy n h
      have hs := badShape_start n h
      have he := badShape_endI n h
      simp only [supdate, hs, he, hp]
      norm_num
      rw [ih a ha]

/-- C8 counterexample: the mutual recursion of Update, Query and Propagate
does not terminate for all long-long arguments.  On the sparse tree over
the domain [-1, 0] (a legal domain with start <= end), the in-range call
Update(-1, -1, 5) recurses forever: mid = (start + end) / 2 truncates to 0,
so the materialized left child covers [-1, 0] again and the partial-overlap
case descends into an identical subproblem.  No recursion budget suffices. -/
theorem c8_counterexample :
    ¬ SUpdateTerminates intMin INF (none : Option Int) assignLazy c8Root (-1) (-1) (some 5) := by
  rintro ⟨f, res, h⟩
  rw [supdate_badShape_none intMin INF none assignLazy (some 5) f c8Root] at h
  · exact Option.noConfusion h
  · simp [c8Root, smake, BadShape, llMid_neg_one_zero]

theorem fupd_self {A : Type} (f : Nat → A) (i : Nat) : fupd f i (f i) = f := by
  funext j
  by_cases h : j = i <;> simp [fupd, h]

theorem wrap64_of_range (x : Int) (h0 : -(2 ^ 63) ≤ x) (h1 : x < 2 ^ 63) :
    wrap64 x = x := by
  unfold wrap64
  omega

theorem tdiv2_eq_ediv2 (a : Int) (h : 0 ≤ a) : a.tdiv 2 = a / 2 := by
  obtain ⟨n, rfl⟩ := Int.eq_ofNat_of_zero_le h
  rfl

/-- C9 amended: for a sparse node over [s, e] with 0 <= s < e and no signed
overflow in s + e, the computed middle satisfies s <= mid < e and Propagate
materializes children covering exactly [s, mid] and [mid+1, e], which
partition [s, e]. -/
theorem c9_amended {T U : Type} [DecidableEq U] (idOp : T) (idUpd : U)
    (updLazy : U → T → U → Int → Int → U × T)
    (s e : Int) (h0 : 0 ≤ s) (hlt : s < e) (hov : s + e < 2 ^ 63) :
    s ≤ llMid s e ∧ llMid s e < e ∧
    sprop idOp idUpd updLazy (smake idOp idUpd s e) =
      SNode.split s e (llMid s e) idOp idUpd
        (smake idOp idUpd s (llMid s e)) (smake idOp idUpd (llMid s e + 1) e) ∧
    (∀ j : Int, (s ≤ j ∧ j ≤ e) ↔
      ((s ≤ j ∧ j ≤ llMid s e) ∨ (llMid s e + 1 ≤ j ∧ j ≤ e))) := by
  have hw : wrap64 (s + e) = s + e := wrap64_of_range _ (by omega) hov
  have hdiv : llMid s e = (s + e) / 2 := by
    unfold llMid
    rw [hw]
    exact tdiv2_eq_ediv2 _ (by omega)
  have hb1 : s ≤ llMid s e := by rw [hdiv]; omega
  have hb2 : llMid s e < e := by rw [hdiv]; omega
  refine ⟨hb1, hb2, ?_, ?_⟩
  · simp [sprop, smake]
  · intro j
    constructor <;> intro hj <;> omega

/-- C9 witness at the concrete domain [0, 9] with the min/assignment client. -/
theorem c9_witness :
    (0 : Int) ≤ llMid 0 9 ∧ llMid 0 9 < 9 ∧
    sprop INF (none : Option Int) assignLazy (smake INF none 0 9) =
      SNode.split 0 9 (llMid 0 9) INF none
        (smake INF none 0 (llMid 0 9)) (smake INF none (llMid 0 9 + 1) 9) := by
  have h := c9_amended INF (none : Option Int) assignLazy 0 9 (by decide) (by decide) (by decide)
  exact ⟨h.1, h.2.1, h.2.2.1⟩

/-- C5: the disjoint and fully-covered cases of the sparse Query and Update.
When the target range misses the node range, Query returns idOp and Update
returns the node unchanged.  When the target covers the node range, Query
returns the stored aggregate, and Update rewrites only the stored aggregate
and the pending tag through the single updLazy call (the model of applying
applyUpdate to the aggregate and composing the update into the tag), leaving
the children untouched and never recursing (one unit of recursion budget
suffices). -/
theorem c5_cases {T U : Type} [DecidableEq U] (op : T → T → T) (idOp : T) (idUpd : U)
    (updLazy : U → T → U → Int → Int → U × T) (n : SNode T U) (l r : Int) (v : U)
    (hn : n.start ≤ n.endI) (f : Nat) :
    ((r < n.start ∨ n.endI < l) →
      squery op idOp idUpd updLazy (f + 1) n l r = some (idOp, n) ∧
      supdate op idOp idUpd updLazy (f + 1) n l r v = some n) ∧
    (l ≤ n.start → n.endI ≤ r →
      squery op idOp idUpd updLazy (f + 1) n l r = some (n.value, n) ∧
      supdate op idOp idUpd updLazy (f + 1) n l r v = some (pushTag updLazy n v) ∧
      (pushTag updLazy n v).value = (updLazy n.lazyTag n.value v n.start n.endI).2 ∧
      (pushTag updLazy n v).lazyTag = (updLazy n.lazyTag n.value v n.start n.endI).1 ∧
      (pushTag updLazy n v).kids = n.kids ∧
      (pushTag updLazy n v).start = n.start ∧
      (pushTag updLazy n v).endI = n.endI) := by
  constructor
  · intro hd
    constructor
    · simp only [squery]
      rw [if_pos hd]
    · simp only [supdate]
      rw [if_pos hd]
  · intro h1 h2
    have hnd : ¬ (r < n.start ∨ n.endI < l) := by omega
    refine ⟨?_, ?_, ?_, ?_, ?_, ?_, ?_⟩
    · simp only [squery]
      rw [if_neg hnd, if_pos ⟨h1, h2⟩]
    · simp only [supdate]
      rw [if_neg hnd, if_pos ⟨h1, h2⟩]
    · cases n <;> simp [pushTag, SNode.value, SNode.lazyTag, SNode.start, SNode.endI]
    · cases n <;> simp [pushTag, SNode.value, SNode.lazyTag, SNode.start, SNode.endI]
    · cases n <;> simp [pushTag, SNode.kids]
    · cases n <;> simp [pushTag, SNode.start]
    · cases n <;> simp [pushTag, SNode.endI]

/-- C5 witness: a disjoint query and a covering update on the concrete tree
over [0, 10^9], each with recursion budget 1. -/
theorem c5_witness :
    squery intMin INF (none : Option Int) assignLazy 1 c7Root (2 * 10 ^ 9) (3 * 10 ^ 9) =
      some (INF, c7Root) ∧
    supdate intMin INF (none : Option Int) assignLazy 1 c7Root 0 (2 * 10 ^ 9) (some 7) =
      some (pushTag assignLazy c7Root (some 7)) := by
  constructor
  · exact ((c5_cases intMin INF none assignLazy c7Root (2 * 10 ^ 9) (3 * 10 ^ 9)
      (some 0) (by decide) 0).1 (by decide)).1
  · exact (((c5_cases intMin INF none assignLazy c7Root 0 (2 * 10 ^ 9)
      (some 7) (by decide) 0).2 (by decide)) (by decide)).2.1

theorem walkQ_idle {T : Type} (op : T → T → T) (t : Nat → T) (f l r : Nat)
    (aL aR : T) (h : ¬ l < r) : walkQ op t f l r aL aR = op aL aR := by
  cases f <;> simp [walkQ, h]

theorem walkU_idle {T U : Type} (updVal : T → U → T) (updLazy : U → U → U)
    (f l r : Nat) (v : U) (s : DState T U) (h : ¬ l < r) :
    walkU updVal updLazy f l r v s = s := by
  cases f <;> simp [walkU, h]

theorem recalcUp_inv {T U : Type} (op : T → T → T) (updVal : T → U → T)
    (s : DState T U) (hinv : DInv op updVal s) :
    ∀ (f p : Nat), p < s.N → recalcUp op updVal f p s = s := by
  intro f
  induction f with
  | zero => intro p _; rfl
  | succ f ih =>
      intro p hp
      by_cases h0 : 0 < p
      · have hv : updVal (op (s.t (2 * p)) (s.t (2 * p + 1))) (s.lz p) = s.t p :=
          (hinv p h0 hp).symm
        simp only [recalcUp, if_pos h0, hv, fupd_self]
        exact ih (p / 2) (lt_of_le_of_lt (Nat.div_le_self p 2) hp)
      · simp [recalcUp, h0]

/-- C6 amended: Query(k,k) on the dense tree returns idOp for any state and
any k; and the empty update Update(k,k,u) leaves the state bit-for-bit
unchanged provided N + k is even, k < N, and the state satisfies the
per-node invariant.  (When N + k is odd the pre-steps of Update write to
slots N+k and N+k-1 and corrupt observable state, as the counterexample
shows.) -/
theorem c6_amended {T U : Type} [DecidableEq U] (op : T → T → T) (updVal : T → U → T)
    (updLazy : U → U → U) (s : DState T U) (k : Nat) (u : U)
    (hid : op s.idOp s.idOp = s.idOp) :
    (DQuery op updVal updLazy s k k).1 = s.idOp ∧
    ((s.N + k) % 2 = 0 → k < s.N → DInv op updVal s →
      DUpdate op updVal updLazy s k k u = s) := by
  constructor
  · show walkQ op _ _ (k + s.N) (k + s.N) s.idOp s.idOp = s.idOp
    rw [walkQ_idle op _ _ _ _ _ _ (by omega)]
    exact hid
  · intro he hk hinv
    have hmod : ¬ ((k + s.N) % 2 = 1) := by omega
    show drecalc op updVal (drecalc op updVal _ (k + s.N)) (k + s.N - 1) = s
    simp only [DUpdate, if_neg hmod]
    rw [walkU_idle updVal updLazy _ _ _ _ _ (by omega)]
    unfold drecalc
    rw [recalcUp_inv op updVal s hinv _ _ (by omega),
      recalcUp_inv op updVal s hinv _ _ (by omega)]

/-- C6 witness: on the fresh min/add tree over [1,2,3,4,5], Query(1,1)
returns the identity and Update(1,1,10) (N + k = 6 even) is a no-op. -/
theorem c6_witness :
    (DQuery intMin addOp addOp minAddTree5 1 1).1 = INF ∧
    DUpdate intMin addOp addOp minAddTree5 1 1 10 = minAddTree5 := by
  have h := c6_amended intMin addOp addOp minAddTree5 1 10 (by decide)
  refine ⟨h.1, h.2 (by decide) (by decide) ?_⟩
  intro i h1 h2
  have h5 : minAddTree5.N = 5 := by decide
  rw [h5] at h2
  interval_cases i <;> decide

/-! ### Sparse-tree correctness machinery -/

section SparseProofs

variable {T U : Type} [DecidableEq U]
variable (op : T → T → T) (idOp : T) (idUpd : U)
variable (comp : U → U → U) (app : U → Int → Int → T → T)

theorem pushTag_start (updLazy : U → T → U → Int → Int → U × T)
    (n : SNode T U) (u : U) : (pushTag updLazy n u).start = n.start := by
  cases n <;> simp [pushTag, SNode.start]

theorem pushTag_endI (updLazy : U → T → U → Int → Int → U × T)
    (n : SNode T U) (u : U) : (pushTag updLazy n u).endI = n.endI := by
  cases n <;> simp [pushTag, SNode.endI]

theorem rfold_congr (f g : Int → T) :
    ∀ (k : Nat) (l : Int), (∀ j, l ≤ j → j < l + k → f j = g j) →
      rfold op idOp f l k = rfold op idOp g l k := by
  intro k
  induction k with
  | zero => intro l _; rfl
  | succ k ih =>
      intro l h
      simp only [rfold]
      rw [h l (le_refl l) (by omega), ih (l + 1) (fun j h1 h2 => h j (by omega) (by omega))]

theorem rfold_const_id (hid : op idOp idOp = idOp) :
    ∀ (k : Nat) (l : Int), rfold op idOp (fun _ => idOp) l k = idOp := by
  intro k
  induction k with
  | zero => intro l; rfl
  | succ k ih => intro l; simp only [rfold]; rw [ih (l + 1), hid]

theorem rfold_split (hassoc : ∀ a b c, op (op a b) c = op a (op b c))
    (hidl : ∀ a, op idOp a = a) :
    ∀ (k1 k2 : Nat) (l : Int) (f : Int → T),
      rfold op idOp f l (k1 + k2) =
        op (rfold op idOp f l k1) (rfold op idOp f (l + (k1 : Int)) k2) := by
  intro k1
  induction k1 with
  | zero =>
      intro k2 l f
      simp only [Nat.zero_add, rfold, Nat.cast_zero, Int.add_zero]
      rw [hidl]
  | succ k1 ih =>
      intro k2 l f
      have harr : k1 + 1 + k2 = (k1 + k2) + 1 := by omega
      rw [harr]
      simp only [rfold]
      rw [ih k2 (l + 1) f, ← hassoc]
      have : l + 1 + (k1 : Int) = l + ((k1 : Int) + 1) := by omega
      rw [this]
      push_cast
      ring_nf

theorem refQueryS_empty (f : Int → T) (l r : Int) (h : r < l) :
    refQueryS op idOp f l r = idOp := by
  unfold refQueryS
  have : (r + 1 - l).toNat = 0 := by omega
  rw [this]
  rfl

theorem refQueryS_append (hassoc : ∀ a b c, op (op a b) c = op a (op b c))
    (hidl : ∀ a, op idOp a = a) (f : Int → T) (l m r : Int)
    (h1 : l ≤ m + 1) (h2 : m ≤ r) :
    refQueryS op idOp f l r = op (refQueryS op idOp f l m) (refQueryS op idOp f (m + 1) r) := by
  unfold refQueryS
  have hc : (r + 1 - l).toNat = (m + 1 - l).toNat + (r - m).toNat := by omega
  rw [hc, rfold_split op idOp hassoc hidl]
  have h3 : l + ((m + 1 - l).toNat : Int) = m + 1 := by omega
  have h4 : (r + 1 - (m + 1)).toNat = (r - m).toNat := by omega
  rw [h3, h4]

theorem refQueryS_congr (f g : Int → T) (l r : Int)
    (h : ∀ j, l ≤ j → j ≤ r → f j = g j) :
    refQueryS op idOp f l r = refQueryS op idOp g l r := by
  unfold refQueryS
  exact rfold_congr op idOp f g _ l (fun j h1 h2 => h j h1 (by omega))

theorem app_rfold (hidr : ∀ a, op a idOp = a)
    (hsplit : ∀ v l m r t1 t2, l ≤ m → m < r →
      app v l r (op t1 t2) = op (app v l m t1) (app v (m + 1) r t2)) :
    ∀ (k : Nat) (l r : Int) (v : U) (f : Int → T), 1 ≤ k → r = l + (k : Int) - 1 →
      app v l r (rfold op idOp f l k) =
        rfold op idOp (fun j => app v j j (f j)) l k := by
  intro k
  induction k with
  | zero => intro l r v f hk; omega
  | succ k ih =>
      intro l r v f hk hr
      cases k with
      | zero =>
          have hlr : r = l := by omega
          subst hlr
          simp only [rfold]
          rw [hidr, hidr]
      | succ k2 =>
          have h1 : l < r := by push_cast at hr; omega
          rw [show rfold op idOp f l (k2 + 1 + 1) =
              op (f l) (rfold op idOp f (l + 1) (k2 + 1)) from rfl]
          rw [hsplit v l l r _ _ (le_refl l) h1]
          rw [ih (l + 1) r v f (by omega) (by push_cast at hr ⊢; omega)]
          rw [show rfold op idOp (fun j => app v j j (f j)) l (k2 + 1 + 1) =
              op (app v l l (f l))
                (rfold op idOp (fun j => app v j j (f j)) (l + 1) (k2 + 1)) from rfl]

theorem app_refQueryS (hidr : ∀ a, op a idOp = a)
    (hsplit : ∀ v l m r t1 t2, l ≤ m → m < r →
      app v l r (op t1 t2) = op (app v l m t1) (app v (m + 1) r t2))
    (l r : Int) (v : U) (f : Int → T) (h : l ≤ r) :
    app v l r (refQueryS op idOp f l r) =
      refQueryS op idOp (fun j => app v j j (f j)) l r := by
  unfold refQueryS
  exact app_rfold op idOp app hidr hsplit _ l r v f (by omega) (by omega)

theorem llMid_bounds (s e : Int) (h0 : 0 ≤ s) (hlt : s < e) (hov : s + e < 2 ^ 63) :
    s ≤ llMid s e ∧ llMid s e < e ∧ llMid s e = (s + e) / 2 := by
  have hw : wrap64 (s + e) = s + e := wrap64_of_range _ (by omega) hov
  have hdiv : llMid s e = (s + e) / 2 := by
    unfold llMid
    rw [hw]
    exact tdiv2_eq_ediv2 _ (by omega)
  exact ⟨by omega, by omega, hdiv⟩

theorem sem_pushTag
    (hcompat : ∀ v1 v2 l r t, app v2 l r (app v1 l r t) = app (comp v1 v2) l r t)
    (n : SNode T U) (u : U) (j : Int) :
    sem idOp app (pushTag (mkUpdLazy comp app) n u) j = app u j j (sem idOp app n j) := by
  cases n <;> simp [pushTag, mkUpdLazy, sem, hcompat]

theorem valSound_value (n : SNode T U) (h : ValSound op idOp app n) :
    n.value = refQueryS op idOp (sem idOp app n) n.start n.endI := by
  cases n with
  | base s e m v z => exact h
  | split s e m v z a b => exact h.1

theorem sem_base (s e m : Int) (v : T) (z : U) (j : Int) :
    sem idOp app (SNode.base s e m v z) j = app z j j idOp := rfl

theorem sem_split (s e m : Int) (v : T) (z : U) (a b : SNode T U) (j : Int) :
    sem idOp app (SNode.split s e m v z a b) j =
      app z j j (if j ≤ m then sem idOp app a j else sem idOp app b j) := rfl

theorem valSound_split_iff (s e m : Int) (v : T) (z : U) (a b : SNode T U) :
    ValSound op idOp app (SNode.split s e m v z a b) ↔
      (v = refQueryS op idOp (sem idOp app (SNode.split s e m v z a b)) s e ∧
        ValSound op idOp app a ∧ ValSound op idOp app b) := Iff.rfl

theorem smake_sInv (hlaws : SLaws op idOp idUpd comp app) (h : Nat) (s e : Int)
    (h0 : 0 ≤ s) (hle : s ≤ e) (hov : e < 2 ^ 62) (hw : e - s < 2 ^ h) :
    SInv op idOp app h (smake idOp idUpd s e) := by
  obtain ⟨hassoc, hidr, hidl, _, _, _, happid, _, _⟩ := hlaws
  refine ⟨⟨h0, hle, hov, rfl, hw⟩, ?_⟩
  show (idOp : T) = refQueryS op idOp (sem idOp app (SNode.base s e (llMid s e) idOp idUpd)) s e
  rw [refQueryS_congr op idOp _ (fun _ => idOp) s e
    (fun j _ _ => by rw [sem_base idOp app]; exact happid j j idOp)]
  unfold refQueryS
  rw [rfold_const_id op idOp (by rw [hidr])]

theorem sshape_bounds (h : Nat) (n : SNode T U) (hs : SShape h n) :
    0 ≤ n.start ∧ n.start ≤ n.endI ∧ n.endI < 2 ^ 62 ∧ n.mid = llMid n.start n.endI ∧
      n.endI - n.start < 2 ^ h := by
  cases n with
  | base s e m v z => exact hs
  | split s e m v z a b => exact ⟨hs.1, hs.2.1, hs.2.2.1, hs.2.2.2.1, hs.2.2.2.2.1⟩

theorem pushTag_sshape (h : Nat) (n : SNode T U) (u : U) (hs : SShape h n) :
    SShape h (pushTag (mkUpdLazy comp app) n u) := by
  cases n <;> simpa [pushTag, SShape] using hs

theorem pushTag_valSound (hlaws : SLaws op idOp idUpd comp app) (n : SNode T U) (u : U)
    (hle : n.start ≤ n.endI) (hv : ValSound op idOp app n) :
    ValSound op idOp app (pushTag (mkUpdLazy comp app) n u) := by
  obtain ⟨hassoc, hidr, hidl, hcassoc, hcidl, hcidr, happid, hcompat, hsplit⟩ := hlaws
  cases n with
  | base s e m v z =>
      show app u s e v = _
      rw [show v = refQueryS op idOp (sem idOp app (SNode.base s e m v z)) s e from hv]
      rw [app_refQueryS op idOp app hidr hsplit s e u _ hle]
      exact refQueryS_congr op idOp _ _ s e
        (fun j _ _ => (sem_pushTag idOp comp app hcompat (SNode.base s e m v z) u j).symm)
  | split s e m v z a b =>
      refine ⟨?_, hv.2.1, hv.2.2⟩
      show app u s e v = _
      rw [show v = refQueryS op idOp (sem idOp app (SNode.split s e m v z a b)) s e from hv.1]
      rw [app_refQueryS op idOp app hidr hsplit s e u _ hle]
      exact refQueryS_congr op idOp _ _ s e
        (fun j _ _ => (sem_pushTag idOp comp app hcompat (SNode.split s e m v z a b) u j).symm)

/-- What Propagate produces on an invariant-satisfying node with a
nontrivial range: a split node with the same range, value and a cleared
tag, children that satisfy the invariant at height h - 1 and cover
[start, mid] and [mid+1, end], and an unchanged represented array. -/
theorem sprop_lemma (hlaws : SLaws op idOp idUpd comp app) (h : Nat) (n : SNode T U)
    (hinv : SInv op idOp app h n) (hne : n.start < n.endI) :
    ∃ a b, sprop idOp idUpd (mkUpdLazy comp app) n =
        SNode.split n.start n.endI n.mid n.value idUpd a b ∧
      a.start = n.start ∧ a.endI = n.mid ∧ b.start = n.mid + 1 ∧ b.endI = n.endI ∧
      SInv op idOp app (h - 1) a ∧ SInv op idOp app (h - 1) b ∧
      (∀ j, sem idOp app (SNode.split n.start n.endI n.mid n.value idUpd a b) j =
        sem idOp app n j) ∧
      SInv op idOp app h (SNode.split n.start n.endI n.mid n.value idUpd a b) := by
  obtain ⟨hassoc, hidr, hidl, hcassoc, hcidl, hcidr, happid, hcompat, hsplit⟩ := hlaws
  have hlaws2 : SLaws op idOp idUpd comp app :=
    ⟨hassoc, hidr, hidl, hcassoc, hcidl, hcidr, happid, hcompat, hsplit⟩
  cases n with
  | base s e m v z =>
      obtain ⟨⟨h0, hle, hov, hm, hw⟩, hvs⟩ := hinv
      have hvs2 : v = refQueryS op idOp (sem idOp app (SNode.base s e m v z)) s e := hvs
      have hne2 : s < e := hne
      obtain ⟨hmb1, hmb2, hmdiv⟩ := llMid_bounds s e h0 hne2 (by omega)
      rw [← hm] at hmb1 hmb2 hmdiv
      have hh1 : 1 ≤ h := by
        rcases Nat.eq_zero_or_pos h with hzero | hpos
        · rw [hzero] at hw; norm_num at hw; omega
        · omega
      have hpow : (2 : Int) ^ h = 2 * 2 ^ (h - 1) := by
        have h2 : h - 1 + 1 = h := by omega
        calc (2 : Int) ^ h = 2 ^ (h - 1 + 1) := by rw [h2]
          _ = 2 ^ (h - 1) * 2 := pow_succ 2 (h - 1)
          _ = 2 * 2 ^ (h - 1) := by ring
      have hwid1 : m - s < 2 ^ (h - 1) := by omega
      have hwid2 : e - (m + 1) < 2 ^ (h - 1) := by omega
      have hinva : SInv op idOp app (h - 1) (smake idOp idUpd s m) :=
        smake_sInv op idOp idUpd comp app hlaws2 (h - 1) s m h0 (by omega) (by omega) hwid1
      have hinvb : SInv op idOp app (h - 1) (smake idOp idUpd (m + 1) e) :=
        smake_sInv op idOp idUpd comp app hlaws2 (h - 1) (m + 1) e (by omega) (by omega)
          hov hwid2
      by_cases hz : z = idUpd
      · refine ⟨smake idOp idUpd s m, smake idOp idUpd (m + 1) e, ?_, rfl, rfl, rfl, rfl,
          hinva, hinvb, ?_, ?_⟩
        · show sprop idOp idUpd (mkUpdLazy comp app) (SNode.base s e m v z) =
            SNode.split s e m v idUpd _ _
          simp [sprop, hz]
        · intro j
          show app idUpd j j _ = app z j j idOp
          rw [hz, happid j j _]
          by_cases hj : j ≤ m <;> simp [hj, smake, sem, happid, SNode.mid]
        · refine ⟨⟨h0, hle, hov, hm, hw, rfl, rfl, rfl, rfl, hinva.1, hinvb.1⟩, ?_,
            hinva.2, hinvb.2⟩
          show v = refQueryS op idOp _ s e
          rw [hvs2]
          refine refQueryS_congr op idOp _ _ s e (fun j _ _ => ?_)
          show app z j j idOp = app idUpd j j _
          rw [hz, happid j j _, happid j j _]
          by_cases hj : j ≤ m <;> simp [hj, smake, sem, happid, SNode.mid]
      · refine ⟨pushTag (mkUpdLazy comp app) (smake idOp idUpd s m) z,
          pushTag (mkUpdLazy comp app) (smake idOp idUpd (m + 1) e) z, ?_, ?_, ?_, ?_, ?_,
          ?_, ?_, ?_, ?_⟩
        · show sprop idOp idUpd (mkUpdLazy comp app) (SNode.base s e m v z) =
            SNode.split s e m v idUpd _ _
          simp [sprop, hz]
        · rw [pushTag_start]; rfl
        · rw [pushTag_endI]; rfl
        · rw [pushTag_start]; rfl
        · rw [pushTag_endI]; rfl
        · exact ⟨pushTag_sshape comp app (h - 1) _ z hinva.1,
            pushTag_valSound op idOp idUpd comp app hlaws2 _ z
              (show s ≤ m by omega) hinva.2⟩
        · exact ⟨pushTag_sshape comp app (h - 1) _ z hinvb.1,
            pushTag_valSound op idOp idUpd comp app hlaws2 _ z
              (show m + 1 ≤ e by omega) hinvb.2⟩
        · intro j
          show app idUpd j j _ = app z j j idOp
          rw [happid j j _]
          by_cases hj : j ≤ m <;>
            simp [hj, sem_pushTag idOp comp app hcompat, smake, sem, happid,
              SNode.mid, mkUpdLazy, hcidl]
        · refine ⟨⟨h0, hle, hov, hm, hw, by rw [pushTag_start]; rfl, by rw [pushTag_endI]; rfl,
            by rw [pushTag_start]; rfl, by rw [pushTag_endI]; rfl,
            pushTag_sshape comp app (h - 1) _ z hinva.1,
            pushTag_sshape comp app (h - 1) _ z hinvb.1⟩, ?_,
            pushTag_valSound op idOp idUpd comp app hlaws2 _ z
              (show s ≤ m by omega) hinva.2,
            pushTag_valSound op idOp idUpd comp app hlaws2 _ z
              (show m + 1 ≤ e by omega) hinvb.2⟩
          show v = refQueryS op idOp _ s e
          rw [hvs2]
          refine refQueryS_congr op idOp _ _ s e (fun j _ _ => ?_)
          show app z j j idOp = app idUpd j j _
          rw [happid j j _]
          by_cases hj : j ≤ m <;>
            simp [hj, sem_pushTag idOp comp app hcompat, smake, sem, happid,
              SNode.mid, mkUpdLazy, hcidl]
  | split s e m v z a b =>
      obtain ⟨⟨h0, hle, hov, hm, hw, has, hae, hbs, hbe, hsa, hsb⟩, hvv, hva, hvb⟩ := hinv
      have hvv2 : v = refQueryS op idOp (sem idOp app (SNode.split s e m v z a b)) s e := hvv
      by_cases hz : z = idUpd
      · refine ⟨a, b, ?_, has, hae, hbs, hbe, ⟨hsa, hva⟩, ⟨hsb, hvb⟩, ?_, ?_⟩
        · show sprop idOp idUpd (mkUpdLazy comp app) (SNode.split s e m v z a b) =
            SNode.split s e m v idUpd a b
          simp [sprop, hz]
        · intro j
          show app idUpd j j _ = app z j j _
          rw [hz]
          simp [SNode.mid]
        · exact ⟨⟨h0, hle, hov, hm, hw, has, hae, hbs, hbe, hsa, hsb⟩, by rw [← hz]; exact hvv2,
            hva, hvb⟩
      · have hsa2 : SShape (h - 1) (pushTag (mkUpdLazy comp app) a z) :=
          pushTag_sshape comp app (h - 1) a z hsa
        have hsb2 : SShape (h - 1) (pushTag (mkUpdLazy comp app) b z) :=
          pushTag_sshape comp app (h - 1) b z hsb
        have hva2 : ValSound op idOp app (pushTag (mkUpdLazy comp app) a z) :=
          pushTag_valSound op idOp idUpd comp app hlaws2 a z
            (by have := (sshape_bounds (h - 1) a hsa).2.1; omega) hva
        have hvb2 : ValSound op idOp app (pushTag (mkUpdLazy comp app) b z) :=
          pushTag_valSound op idOp idUpd comp app hlaws2 b z
            (by have := (sshape_bounds (h - 1) b hsb).2.1; omega) hvb
        have hsemeq : ∀ j, sem idOp app
            (SNode.split s e m v idUpd (pushTag (mkUpdLazy comp app) a z)
              (pushTag (mkUpdLazy comp app) b z)) j =
            sem idOp app (SNode.split s e m v z a b) j := by
          intro j
          show app idUpd j j _ = app z j j _
          rw [happid j j _]
          by_cases hj : j ≤ m <;>
            simp [hj, sem, sem_pushTag idOp comp app hcompat, SNode.mid, mkUpdLazy, hcidl]
        refine ⟨pushTag (mkUpdLazy comp app) a z, pushTag (mkUpdLazy comp app) b z, ?_,
          by rw [pushTag_start]; exact has, by rw [pushTag_endI]; exact hae,
          by rw [pushTag_start]; exact hbs, by rw [pushTag_endI]; exact hbe,
          ⟨hsa2, hva2⟩, ⟨hsb2, hvb2⟩, hsemeq, ?_⟩
        · show sprop idOp idUpd (mkUpdLazy comp app) (SNode.split s e m v z a b) =
            SNode.split s e m v idUpd _ _
          simp [sprop, hz]
        · refine ⟨⟨h0, hle, hov, hm, hw, by rw [pushTag_start]; exact has,
            by rw [pushTag_endI]; exact hae, by rw [pushTag_start]; exact hbs,
            by rw [pushTag_endI]; exact hbe, hsa2, hsb2⟩, ?_, hva2, hvb2⟩
          show v = refQueryS op idOp _ s e
          rw [hvv2]
          exact refQueryS_congr op idOp _ _ s e (fun j _ _ => (hsemeq j).symm)

theorem pushTag_mid (updLazy : U → T → U → Int → Int → U × T)
    (n : SNode T U) (u : U) : (pushTag updLazy n u).mid = n.mid := by
  cases n <;> simp [pushTag, SNode.mid]

theorem refQueryS_clip_combine (hassoc : ∀ a b c, op (op a b) c = op a (op b c))
    (hidl : ∀ a, op idOp a = a) (hidr : ∀ a, op a idOp = a)
    (g : Int → T) (l r s e m : Int) (hs : s ≤ m) (hm : m < e) :
    refQueryS op idOp g (max l s) (min r e) =
      op (refQueryS op idOp g (max l s) (min r m))
        (refQueryS op idOp g (max l (m + 1)) (min r e)) := by
  rcases le_or_lt r m with hr | hr
  · have h1 : min r e = r := by omega
    have h2 : min r m = r := by omega
    have h3 : refQueryS op idOp g (max l (m + 1)) r = idOp :=
      refQueryS_empty op idOp g _ _ (by omega)
    rw [h1, h2, h3, hidr]
  · rcases le_or_lt l m with hl | hl
    · have h1 : max l (m + 1) = m + 1 := by omega
      have h2 : min r m = m := by omega
      rw [h1, h2]
      exact refQueryS_append op idOp hassoc hidl g _ m _ (by omega) (by omega)
    · have h1 : max l (m + 1) = max l (m + 1) := rfl
      have h2 : refQueryS op idOp g (max l s) (min r m) = idOp :=
        refQueryS_empty op idOp g _ _ (by omega)
      have h3 : max l s = max l (m + 1) := by omega
      rw [h2, hidl, h3]

theorem squery_disjoint (updLazy : U → T → U → Int → Int → U × T) (f : Nat)
    (n : SNode T U) (l r : Int) (hd : r < n.start ∨ n.endI < l) :
    squery op idOp idUpd updLazy (f + 1) n l r = some (idOp, n) := by
  show (if r < n.start ∨ n.endI < l then some (idOp, n)
    else if l ≤ n.start ∧ n.endI ≤ r then some (n.value, n) else _) = some (idOp, n)
  rw [if_pos hd]

theorem squery_covered (updLazy : U → T → U → Int → Int → U × T) (f : Nat)
    (n : SNode T U) (l r : Int) (hd : ¬(r < n.start ∨ n.endI < l))
    (hc : l ≤ n.start ∧ n.endI ≤ r) :
    squery op idOp idUpd updLazy (f + 1) n l r = some (n.value, n) := by
  show (if r < n.start ∨ n.endI < l then some (idOp, n)
    else if l ≤ n.start ∧ n.endI ≤ r then some (n.value, n) else _) = some (n.value, n)
  rw [if_neg hd, if_pos hc]

theorem squery_partial (updLazy : U → T → U → Int → Int → U × T) (f : Nat)
    (n : SNode T U) (l r : Int) (hd : ¬(r < n.start ∨ n.endI < l))
    (hc : ¬(l ≤ n.start ∧ n.endI ≤ r)) (s e m : Int) (v : T) (z : U) (a b : SNode T U)
    (hp : sprop idOp idUpd updLazy n = SNode.split s e m v z a b)
    (ra : T) (a2 : SNode T U) (hqa : squery op idOp idUpd updLazy f a l r = some (ra, a2))
    (rb : T) (b2 : SNode T U) (hqb : squery op idOp idUpd updLazy f b l r = some (rb, b2)) :
    squery op idOp idUpd updLazy (f + 1) n l r =
      some (op ra rb, SNode.split s e m v z a2 b2) := by
  show (if r < n.start ∨ n.endI < l then some (idOp, n)
    else if l ≤ n.start ∧ n.endI ≤ r then some (n.value, n)
    else match sprop idOp idUpd updLazy n with
      | .split s e m v z a b =>
          match squery op idOp idUpd updLazy f a l r with
          | none => none
          | some (va, a2) =>
            match squery op idOp idUpd updLazy f b l r with
            | none => none
            | some (vb, b2) => some (op va vb, .split s e m v z a2 b2)
      | .base _ _ _ _ _ => none) = _
  rw [if_neg hd, if_neg hc, hp]
  dsimp only
  rw [hqa, hqb]

theorem supdate_disjoint (updLazy : U → T → U → Int → Int → U × T) (f : Nat)
    (n : SNode T U) (l r : Int) (v : U) (hd : r < n.start ∨ n.endI < l) :
    supdate op idOp idUpd updLazy (f + 1) n l r v = some n := by
  show (if r < n.start ∨ n.endI < l then some n
    else if l ≤ n.start ∧ n.endI ≤ r then some (pushTag updLazy n v) else _) = some n
  rw [if_pos hd]

theorem supdate_covered (updLazy : U → T → U → Int → Int → U × T) (f : Nat)
    (n : SNode T U) (l r : Int) (v : U) (hd : ¬(r < n.start ∨ n.endI < l))
    (hc : l ≤ n.start ∧ n.endI ≤ r) :
    supdate op idOp idUpd updLazy (f + 1) n l r v = some (pushTag updLazy n v) := by
  show (if r < n.start ∨ n.endI < l then some n
    else if l ≤ n.start ∧ n.endI ≤ r then some (pushTag updLazy n v) else _) = _
  rw [if_neg hd, if_pos hc]

theorem supdate_partial (updLazy : U → T → U → Int → Int → U × T) (f : Nat)
    (n : SNode T U) (l r : Int) (v : U) (hd : ¬(r < n.start ∨ n.endI < l))
    (hc : ¬(l ≤ n.start ∧ n.endI ≤ r)) (s e m : Int) (w : T) (z : U) (a b : SNode T U)
    (hp : sprop idOp idUpd updLazy n = SNode.split s e m w z a b)
    (a2 : SNode T U) (hqa : supdate op idOp idUpd updLazy f a l r v = some a2)
    (b2 : SNode T U) (hqb : supdate op idOp idUpd updLazy f b l r v = some b2) :
    supdate op idOp idUpd updLazy (f + 1) n l r v =
      some (SNode.split s e m (op a2.value b2.value) z a2 b2) := by
  show (if r < n.start ∨ n.endI < l then some n
    else if l ≤ n.start ∧ n.endI ≤ r then some (pushTag updLazy n v)
    else match sprop idOp idUpd updLazy n with
      | .split s e m _ z a b =>
          match supdate op idOp idUpd updLazy f a l r v with
          | none => none
          | some a2 =>
            match supdate op idOp idUpd updLazy f b l r v with
            | none => none
            | some b2 => some (.split s e m (op a2.value b2.value) z a2 b2)
      | .base _ _ _ _ _ => none) = _
  rw [if_neg hd, if_neg hc, hp]
  dsimp only
  rw [hqa, hqb]

/-- Full functional correctness of the sparse Query with recursion budget
h + 1 on a node with height certificate h: the call succeeds, returns the
reference fold of the represented array over the clipped range, and leaves
a node with the same range that represents the same array and satisfies the
invariant. -/
theorem squery_correct (hlaws : SLaws op idOp idUpd comp app) :
    ∀ (h : Nat) (n : SNode T U) (l r : Int), SInv op idOp app h n →
      ∃ res n2, squery op idOp idUpd (mkUpdLazy comp app) (h + 1) n l r = some (res, n2) ∧
        res = refQueryS op idOp (sem idOp app n) (max l n.start) (min r n.endI) ∧
        n2.start = n.start ∧ n2.endI = n.endI ∧ n2.mid = n.mid ∧
        (∀ j, sem idOp app n2 j = sem idOp app n j) ∧
        SInv op idOp app h n2 := by
  obtain ⟨hassoc, hidr, hidl, hcassoc, hcidl, hcidr, happid, hcompat, hsplit⟩ := hlaws
  have hlaws2 : SLaws op idOp idUpd comp app :=
    ⟨hassoc, hidr, hidl, hcassoc, hcidl, hcidr, happid, hcompat, hsplit⟩
  intro h
  induction h with
  | zero =>
      intro n l r hinv
      obtain ⟨h0, hle, hov, hm, hw⟩ := sshape_bounds 0 n hinv.1
      have hse : n.start = n.endI := by norm_num at hw; omega
      by_cases hd : r < n.start ∨ n.endI < l
      · refine ⟨idOp, n, ?_, ?_, rfl, rfl, rfl, fun j => rfl, hinv⟩
        · exact squery_disjoint op idOp idUpd _ _ n l r hd
        · rw [refQueryS_empty op idOp _ _ _ (by omega)]
      · have hc : l ≤ n.start ∧ n.endI ≤ r := by omega
        refine ⟨n.value, n, ?_, ?_, rfl, rfl, rfl, fun j => rfl, hinv⟩
        · exact squery_covered op idOp idUpd _ _ n l r hd hc
        · have h1 : max l n.start = n.start := by omega
          have h2 : min r n.endI = n.endI := by omega
          rw [h1, h2]
          exact valSound_value op idOp app n hinv.2
  | succ h' ih =>
      intro n l r hinv
      obtain ⟨h0, hle, hov, hm, hw⟩ := sshape_bounds (h' + 1) n hinv.1
      by_cases hd : r < n.start ∨ n.endI < l
      · refine ⟨idOp, n, ?_, ?_, rfl, rfl, rfl, fun j => rfl, hinv⟩
        · exact squery_disjoint op idOp idUpd _ _ n l r hd
        · rw [refQueryS_empty op idOp _ _ _ (by omega)]
      · by_cases hc : l ≤ n.start ∧ n.endI ≤ r
        · refine ⟨n.value, n, ?_, ?_, rfl, rfl, rfl, fun j => rfl, hinv⟩
          · exact squery_covered op idOp idUpd _ _ n l r hd hc
          · have h1 : max l n.start = n.start := by omega
            have h2 : min r n.endI = n.endI := by omega
            rw [h1, h2]
            exact valSound_value op idOp app n hinv.2
        · have hne : n.start < n.endI := by
            rcases lt_or_eq_of_le hle with h | h
            · exact h
            · omega
          obtain ⟨a, b, hp, has, hae, hbs, hbe, hia, hib, hsem, hinvP⟩ :=
            sprop_lemma op idOp idUpd comp app hlaws2 (h' + 1) n hinv hne
          have hia2 : SInv op idOp app h' a := by simpa using hia
          have hib2 : SInv op idOp app h' b := by simpa using hib
          obtain ⟨hmb1, hmb2, hmdiv⟩ := llMid_bounds n.start n.endI h0 hne (by omega)
          rw [← hm] at hmb1 hmb2
          obtain ⟨ra, a2, hqa, hva, ha2s, ha2e, ha2m, hsema, hinva2⟩ := ih a l r hia2
          obtain ⟨rb, b2, hqb, hvb, hb2s, hb2e, hb2m, hsemb, hinvb2⟩ := ih b l r hib2
          have hsemaN : ∀ j, j ≤ n.mid → sem idOp app a j = sem idOp app n j := by
            intro j hj
            have := hsem j
            rw [sem_split idOp app] at this
            rw [← this, if_pos hj, happid]
          have hsembN : ∀ j, ¬(j ≤ n.mid) → sem idOp app b j = sem idOp app n j := by
            intro j hj
            have := hsem j
            rw [sem_split idOp app] at this
            rw [← this, if_neg hj, happid]
          refine ⟨op ra rb, SNode.split n.start n.endI n.mid n.value idUpd a2 b2, ?_, ?_,
            rfl, rfl, rfl, ?_, ?_⟩
          · exact squery_partial op idOp idUpd _ _ n l r hd hc _ _ _ _ idUpd a b hp
              ra a2 hqa rb b2 hqb
          · rw [hva, hvb, has] at *
            rw [hae] at *
            rw [refQueryS_clip_combine op idOp hassoc hidl hidr _ l r n.start n.endI n.mid
              hmb1 hmb2]
            congr 1
            · refine refQueryS_congr op idOp _ _ _ _ (fun j hj1 hj2 => ?_)
              exact hsemaN j (by omega)
            · rw [hbs, hbe] at *
              refine refQueryS_congr op idOp _ _ _ _ (fun j hj1 hj2 => ?_)
              exact hsembN j (by omega)
          · intro j
            rw [sem_split idOp app, happid]
            by_cases hj : j ≤ n.mid
            · rw [if_pos hj, hsema j, hsemaN j hj]
            · rw [if_neg hj, hsemb j, hsembN j hj]
          · obtain ⟨⟨i0, ile, iov, im, iw, _, _, _, _, _, _⟩, ivv, _, _⟩ := hinvP
            refine ⟨⟨i0, ile, iov, im, iw, by rw [ha2s, has], by rw [ha2e, hae],
              by rw [hb2s, hbs], by rw [hb2e, hbe],
              by simpa using hinva2.1, by simpa using hinvb2.1⟩, ?_,
              hinva2.2, hinvb2.2⟩
            show n.value = refQueryS op idOp _ n.start n.endI
            have ivv2 : n.value = refQueryS op idOp
                (sem idOp app (SNode.split n.start n.endI n.mid n.value idUpd a b))
                n.start n.endI := ivv
            rw [ivv2]
            refine refQueryS_congr op idOp _ _ _ _ (fun j _ _ => ?_)
            rw [sem_split idOp app, sem_split idOp app, happid, happid]
            by_cases hj : j ≤ n.mid
            · rw [if_pos hj, if_pos hj, hsema j]
            · rw [if_neg hj, if_neg hj, hsemb j]

/-- Full functional correctness of the sparse Update with recursion budget
h + 1 on a node with height certificate h: the call succeeds, keeps the node
range, preserves the invariant, and transforms the represented array by
applying the update elementwise on the intersection of the target range and
the node range. -/
theorem supdate_correct (hlaws : SLaws op idOp idUpd comp app) :
    ∀ (h : Nat) (n : SNode T U) (l r : Int) (v : U), SInv op idOp app h n →
      ∃ n2, supdate op idOp idUpd (mkUpdLazy comp app) (h + 1) n l r v = some n2 ∧
        n2.start = n.start ∧ n2.endI = n.endI ∧ n2.mid = n.mid ∧
        (∀ j, n.start ≤ j → j ≤ n.endI →
          sem idOp app n2 j =
            if l ≤ j ∧ j ≤ r then app v j j (sem idOp app n j) else sem idOp app n j) ∧
        SInv op idOp app h n2 := by
  obtain ⟨hassoc, hidr, hidl, hcassoc, hcidl, hcidr, happid, hcompat, hsplit⟩ := hlaws
  have hlaws2 : SLaws op idOp idUpd comp app :=
    ⟨hassoc, hidr, hidl, hcassoc, hcidl, hcidr, happid, hcompat, hsplit⟩
  intro h
  induction h with
  | zero =>
      intro n l r v hinv
      obtain ⟨h0, hle, hov, hm, hw⟩ := sshape_bounds 0 n hinv.1
      have hse : n.start = n.endI := by norm_num at hw; omega
      by_cases hd : r < n.start ∨ n.endI < l
      · refine ⟨n, supdate_disjoint op idOp idUpd _ _ n l r v hd, rfl, rfl, rfl, ?_, hinv⟩
        intro j hj1 hj2
        rw [if_neg (by omega)]
      · have hc : l ≤ n.start ∧ n.endI ≤ r := by omega
        refine ⟨pushTag (mkUpdLazy comp app) n v,
          supdate_covered op idOp idUpd _ _ n l r v hd hc,
          pushTag_start _ n v, pushTag_endI _ n v, pushTag_mid _ n v, ?_, ?_⟩
        · intro j hj1 hj2
          rw [if_pos (by omega)]
          exact sem_pushTag idOp comp app hcompat n v j
        · exact ⟨pushTag_sshape comp app 0 n v hinv.1,
            pushTag_valSound op idOp idUpd comp app hlaws2 n v hle hinv.2⟩
  | succ h' ih =>
      intro n l r v hinv
      obtain ⟨h0, hle, hov, hm, hw⟩ := sshape_bounds (h' + 1) n hinv.1
      by_cases hd : r < n.start ∨ n.endI < l
      · refine ⟨n, supdate_disjoint op idOp idUpd _ _ n l r v hd, rfl, rfl, rfl, ?_, hinv⟩
        intro j hj1 hj2
        rw [if_neg (by omega)]
      · by_cases hc : l ≤ n.start ∧ n.endI ≤ r
        · refine ⟨pushTag (mkUpdLazy comp app) n v,
            supdate_covered op idOp idUpd _ _ n l r v hd hc,
            pushTag_start _ n v, pushTag_endI _ n v, pushTag_mid _ n v, ?_, ?_⟩
          · intro j hj1 hj2
            rw [if_pos (by omega)]
            exact sem_pushTag idOp comp app hcompat n v j
          · exact ⟨pushTag_sshape comp app (h' + 1) n v hinv.1,
              pushTag_valSound op idOp idUpd comp app hlaws2 n v hle hinv.2⟩
        · have hne : n.start < n.endI := by
            rcases lt_or_eq_of_le hle with h | h
            · exact h
            · omega
          obtain ⟨a, b, hp, has, hae, hbs, hbe, hia, hib, hsem, hinvP⟩ :=
            sprop_lemma op idOp idUpd comp app hlaws2 (h' + 1) n hinv hne
          have hia2 : SInv op idOp app h' a := by simpa using hia
          have hib2 : SInv op idOp app h' b := by simpa using hib
          obtain ⟨hmb1, hmb2, hmdiv⟩ := llMid_bounds n.start n.endI h0 hne (by omega)
          rw [← hm] at hmb1 hmb2
          obtain ⟨a2, hqa, ha2s, ha2e, ha2m, hsema, hinva2⟩ := ih a l r v hia2
          obtain ⟨b2, hqb, hb2s, hb2e, hb2m, hsemb, hinvb2⟩ := ih b l r v hib2
          have hsemaN : ∀ j, j ≤ n.mid → sem idOp app a j = sem idOp app n j := by
            intro j hj
            have := hsem j
            rw [sem_split idOp app] at this
            rw [← this, if_pos hj, happid]
          have hsembN : ∀ j, ¬(j ≤ n.mid) → sem idOp app b j = sem idOp app n j := by
            intro j hj
            have := hsem j
            rw [sem_split idOp app] at this
            rw [← this, if_neg hj, happid]
          refine ⟨SNode.split n.start n.endI n.mid (op a2.value b2.value) idUpd a2 b2,
            supdate_partial op idOp idUpd _ _ n l r v hd hc _ _ _ _ idUpd a b hp a2 hqa b2 hqb,
            rfl, rfl, rfl, ?_, ?_⟩
          · intro j hj1 hj2
            rw [sem_split idOp app, happid]
            by_cases hj : j ≤ n.mid
            · rw [if_pos hj]
              rw [hsema j (by omega) (by omega), hsemaN j hj]
            · rw [if_neg hj]
              rw [hsemb j (by omega) (by omega), hsembN j hj]
          · obtain ⟨⟨i0, ile, iov, im, iw, _, _, _, _, _, _⟩, _, _, _⟩ := hinvP
            refine ⟨⟨i0, ile, iov, im, iw, by rw [ha2s, has], by rw [ha2e, hae],
              by rw [hb2s, hbs], by rw [hb2e, hbe],
              by simpa using hinva2.1, by simpa using hinvb2.1⟩, ?_,
              hinva2.2, hinvb2.2⟩
            show op a2.value b2.value = refQueryS op idOp _ n.start n.endI
            have hva : a2.value = refQueryS op idOp (sem idOp app a2) n.start n.mid := by
              have := valSound_value op idOp app a2 hinva2.2
              rw [ha2s, has, ha2e, hae] at this
              exact this
            have hvb : b2.value =
                refQueryS op idOp (sem idOp app b2) (n.mid + 1) n.endI := by
              have := valSound_value op idOp app b2 hinvb2.2
              rw [hb2s, hbs, hb2e, hbe] at this
              exact this
            rw [hva, hvb]
            rw [refQueryS_append op idOp hassoc hidl _ n.start n.mid n.endI (by omega)
              (by omega)]
            congr 1
            · refine refQueryS_congr op idOp _ _ _ _ (fun j hj1 hj2 => ?_)
              rw [sem_split idOp app, happid, if_pos (by omega : j ≤ n.mid)]
            · refine refQueryS_congr op idOp _ _ _ _ (fun j hj1 hj2 => ?_)
              rw [sem_split idOp app, happid, if_neg (by omega : ¬ j ≤ n.mid)]

/-- Stepwise equivalence of the sparse tree and the brute-force reference
over any operation sequence, from any invariant-satisfying state whose
represented array is f. -/
theorem sparseRun_correct (hlaws : SLaws op idOp idUpd comp app) (S E : Int) :
    ∀ (ops : List (SOp U)) (h : Nat) (n : SNode T U) (f : Int → T),
      SInv op idOp app h n → n.start = S → n.endI = E →
      (∀ j, S ≤ j → j ≤ E → sem idOp app n j = f j) →
      (∀ o ∈ ops, SOpInBounds S E o) →
      ∃ nf, sparseRun op idOp idUpd comp app (h + 1) n ops =
        some (refRunS op idOp app f ops, nf) := by
  intro ops
  induction ops with
  | nil =>
      intro h n f hinv hs he hsem hops
      exact ⟨n, rfl⟩
  | cons o rest ih =>
      intro h n f hinv hs he hsem hops
      have hrest : ∀ o2 ∈ rest, SOpInBounds S E o2 :=
        fun o2 ho2 => hops o2 (List.mem_cons_of_mem o ho2)
      cases o with
      | upd l r v =>
          obtain ⟨hbl, hblr, hbr⟩ := hops (SOp.upd l r v) (List.mem_cons_self _ _)
          obtain ⟨n2, hq, h2s, h2e, h2m, hsem2, hinv2⟩ :=
            supdate_correct op idOp idUpd comp app hlaws h n l r v hinv
          have hstep : sparseRun op idOp idUpd comp app (h + 1) n (SOp.upd l r v :: rest) =
              sparseRun op idOp idUpd comp app (h + 1) n2 rest := by
            show (match supdate op idOp idUpd (mkUpdLazy comp app) (h + 1) n l r v with
              | none => none
              | some n3 => sparseRun op idOp idUpd comp app (h + 1) n3 rest) = _
            rw [hq]
          rw [hstep]
          have hsemf : ∀ j, S ≤ j → j ≤ E →
              sem idOp app n2 j = refUpdateS app f l r v j := by
            intro j hj1 hj2
            rw [hsem2 j (by omega) (by omega)]
            unfold refUpdateS
            by_cases hj : l ≤ j ∧ j ≤ r
            · rw [if_pos hj, if_pos hj, hsem j hj1 hj2]
            · rw [if_neg hj, if_neg hj, hsem j hj1 hj2]
          exact ih h n2 (refUpdateS app f l r v) hinv2 (by rw [h2s, hs]) (by rw [h2e, he])
            hsemf hrest
      | qry l r =>
          obtain ⟨hbl, hblr, hbr⟩ := hops (SOp.qry l r) (List.mem_cons_self _ _)
          obtain ⟨res, n2, hq, hres, h2s, h2e, h2m, hsem2, hinv2⟩ :=
            squery_correct op idOp idUpd comp app hlaws h n l r hinv
          obtain ⟨nf, hrun⟩ := ih h n2 f hinv2 (by rw [h2s, hs]) (by rw [h2e, he])
            (fun j hj1 hj2 => by rw [hsem2 j, hsem j hj1 hj2]) hrest
          refine ⟨nf, ?_⟩
          have hstep : sparseRun op idOp idUpd comp app (h + 1) n (SOp.qry l r :: rest) =
              match sparseRun op idOp idUpd comp app (h + 1) n2 rest with
              | none => none
              | some (outs, nf2) => some (res :: outs, nf2) := by
            show (match squery op idOp idUpd (mkUpdLazy comp app) (h + 1) n l r with
              | none => none
              | some (res2, n3) =>
                  match sparseRun op idOp idUpd comp app (h + 1) n3 rest with
                  | none => none
                  | some (outs, nf2) => some (res2 :: outs, nf2)) = _
            rw [hq]
          rw [hstep, hrun]
          show some (res :: refRunS op idOp app f rest, nf) = _
          have hresF : res = refQueryS op idOp f l r := by
            rw [hres, hs, he]
            have h1 : max l S = l := by omega
            have h2 : min r E = r := by omega
            rw [h1, h2]
            refine refQueryS_congr op idOp _ _ _ _ (fun j hj1 hj2 => ?_)
            exact hsem j (by omega) (by omega)
          rw [hresF]
          rfl

end SparseProofs

/-- C1 amended: for every interleaved sequence of in-bounds Update and Query
calls over a common domain [S, E] (nonnegative, overflow-free, width below
2^h), and any client algebra satisfying the stated laws — combine an
associative operation with identity idOp, composeUpdate associative with
identity idUpd, the compatibility law, and a position-aware applyUpdate that
distributes over range splits, packaged into the updLazy the sparse tree
calls — the Sparse tree returns at every step exactly the Query results of
the O(N)-per-operation reference array that applies each update
elementwise.  (The Dense tree does not share this guarantee under these
laws, as the counterexample shows.) -/
theorem c1_amended {T U : Type} [DecidableEq U] (op : T → T → T) (idOp : T) (idUpd : U)
    (comp : U → U → U) (app : U → Int → Int → T → T)
    (hlaws : SLaws op idOp idUpd comp app) (S E : Int) (h : Nat)
    (hS : 0 ≤ S) (hSE : S ≤ E) (hE : E < 2 ^ 62) (hw : E - S < 2 ^ h)
    (ops : List (SOp U)) (hops : ∀ o ∈ ops, SOpInBounds S E o) :
    ∃ nf, sparseRun op idOp idUpd comp app (h + 1) (smake idOp idUpd S E) ops =
      some (refRunS op idOp app (fun _ => idOp) ops, nf) := by
  refine sparseRun_correct op idOp idUpd comp app hlaws S E ops h _ _
    (smake_sInv op idOp idUpd comp app hlaws h S E hS hSE hE hw) rfl rfl ?_ hops
  intro j hj1 hj2
  exact hlaws.2.2.2.2.2.2.1 j j idOp

/-- The sum/add sparse client: sums as aggregates, additive updates, with
the length-aware application val + v * (r - l + 1). -/
def sumApp (v l r t : Int) : Int := t + v * (r - l + 1)

/-- The sum/add sparse client satisfies all the stated laws. -/
theorem sumAppLaws : SLaws addOp (0 : Int) (0 : Int) addOp
    (fun v l r t => sumApp v l r t) := by
  refine ⟨?_, ?_, ?_, ?_, ?_, ?_, ?_, ?_, ?_⟩ <;> intros <;>
    simp only [addOp, sumApp] <;> ring

/-- C1 witness: the sum/add client over the domain [0, 4] running the
sequence Update(1,3,10), Query(1,3); the sparse tree returns exactly the
reference results. -/
theorem c1_witness :
    ∃ nf, sparseRun addOp (0 : Int) (0 : Int) addOp (fun v l r t => sumApp v l r t) 4
      (smake (0 : Int) (0 : Int) 0 4) [SOp.upd 1 3 10, SOp.qry 1 3] =
      some (refRunS addOp (0 : Int) (fun v l r t => sumApp v l r t)
        (fun _ => (0 : Int)) [SOp.upd 1 3 10, SOp.qry 1 3], nf) := by
  refine c1_amended addOp 0 0 addOp (fun v l r t => sumApp v l r t) sumAppLaws 0 4 3
    (by decide) (by decide) (by decide) (by decide) _ ?_
  intro o ho
  simp only [List.mem_cons, List.not_mem_nil, or_false] at ho
  rcases ho with rfl | rfl
  · exact ⟨by decide, by decide, by decide⟩
  · exact ⟨by decide, by decide, by decide⟩

/-- C8 amended: on any sparse tree satisfying the structural invariant over
a nonnegative overflow-free domain with width below 2^h, every Query and
every Update call completes within recursion depth h + 1 (that is, within
about log2 of the domain width plus two levels); the counterexample shows
this fails for general long-long domains. -/
theorem c8_amended {T U : Type} [DecidableEq U] (op : T → T → T) (idOp : T) (idUpd : U)
    (comp : U → U → U) (app : U → Int → Int → T → T)
    (hlaws : SLaws op idOp idUpd comp app) (h : Nat) (n : SNode T U)
    (hinv : SInv op idOp app h n) (l r : Int) (v : U) :
    (∃ res, squery op idOp idUpd (mkUpdLazy comp app) (h + 1) n l r = some res) ∧
    (∃ n2, supdate op idOp idUpd (mkUpdLazy comp app) (h + 1) n l r v = some n2) := by
  constructor
  · obtain ⟨res, n2, hq, _⟩ := squery_correct op idOp idUpd comp app hlaws h n l r hinv
    exact ⟨(res, n2), hq⟩
  · obtain ⟨n2, hq, _⟩ := supdate_correct op idOp idUpd comp app hlaws h n l r v hinv
    exact ⟨n2, hq⟩

/-- C8 witness: on the fresh sum/add tree over [0, 4] with height
certificate 3, Query(0,2) and Update(1,2,7) both complete with budget 4. -/
theorem c8_witness :
    (∃ res, squery addOp (0 : Int) (0 : Int)
      (mkUpdLazy addOp (fun v l r t => sumApp v l r t)) 4
      (smake (0 : Int) (0 : Int) 0 4) 1 2 = some res) ∧
    (∃ n2, supdate addOp (0 : Int) (0 : Int)
      (mkUpdLazy addOp (fun v l r t => sumApp v l r t)) 4
      (smake (0 : Int) (0 : Int) 0 4) 1 2 7 = some n2) := by
  exact c8_amended addOp 0 0 addOp (fun v l r t => sumApp v l r t) sumAppLaws 3
    (smake 0 0 0 4)
    (smake_sInv addOp 0 0 addOp (fun v l r t => sumApp v l r t) sumAppLaws 3 0 4
      (by decide) (by decide) (by decide) (by decide)) 1 2 7


/-! ## Dense machinery: arithmetic of the bottom-up walk boundaries -/

theorem ceilSeq_lower (l0 : Nat) : ∀ k, l0 ≤ 2 ^ k * ceilSeq l0 k := by
  intro k
  induction k with
  | zero => simpa [ceilSeq] using Nat.le_refl l0
  | succ k ih =>
      simp only [ceilSeq]
      have h2 : ceilSeq l0 k ≤ 2 * ((ceilSeq l0 k + 1) / 2) := by omega
      calc l0 ≤ 2 ^ k * ceilSeq l0 k := ih
        _ ≤ 2 ^ k * (2 * ((ceilSeq l0 k + 1) / 2)) := Nat.mul_le_mul_left _ h2
        _ = 2 ^ (k + 1) * ((ceilSeq l0 k + 1) / 2) := by ring

theorem ceilSeq_upper (l0 : Nat) : ∀ k, 2 ^ k * ceilSeq l0 k < l0 + 2 ^ k := by
  intro k
  induction k with
  | zero => simpa [ceilSeq] using Nat.lt_succ_self l0
  | succ k ih =>
      simp only [ceilSeq]
      have h2 : 2 * ((ceilSeq l0 k + 1) / 2) ≤ ceilSeq l0 k + 1 := by omega
      have h3 : 2 ^ (k + 1) * ((ceilSeq l0 k + 1) / 2)
          ≤ 2 ^ k * ceilSeq l0 k + 2 ^ k := by
        calc 2 ^ (k + 1) * ((ceilSeq l0 k + 1) / 2)
            = 2 ^ k * (2 * ((ceilSeq l0 k + 1) / 2)) := by ring
          _ ≤ 2 ^ k * (ceilSeq l0 k + 1) := Nat.mul_le_mul_left _ h2
          _ = 2 ^ k * ceilSeq l0 k + 2 ^ k := by ring
      have h4 : (2 : Nat) ^ (k + 1) = 2 ^ k + 2 ^ k := by ring
      omega

theorem floorSeq_le (r0 : Nat) : ∀ k, 2 ^ k * floorSeq r0 k ≤ r0 := by
  intro k
  induction k with
  | zero => simpa [floorSeq] using Nat.le_refl r0
  | succ k ih =>
      simp only [floorSeq]
      have h2 : 2 * (floorSeq r0 k / 2) ≤ floorSeq r0 k := by omega
      calc 2 ^ (k + 1) * (floorSeq r0 k / 2)
          = 2 ^ k * (2 * (floorSeq r0 k / 2)) := by ring
        _ ≤ 2 ^ k * floorSeq r0 k := Nat.mul_le_mul_left _ h2
        _ ≤ r0 := ih

theorem floorSeq_lt (r0 : Nat) : ∀ k, r0 < 2 ^ k * (floorSeq r0 k + 1) := by
  intro k
  induction k with
  | zero => simpa [floorSeq] using Nat.lt_succ_self r0
  | succ k ih =>
      simp only [floorSeq]
      have h2 : floorSeq r0 k + 1 ≤ 2 * (floorSeq r0 k / 2 + 1) := by omega
      calc r0 < 2 ^ k * (floorSeq r0 k + 1) := ih
        _ ≤ 2 ^ k * (2 * (floorSeq r0 k / 2 + 1)) := Nat.mul_le_mul_left _ h2
        _ = 2 ^ (k + 1) * (floorSeq r0 k / 2 + 1) := by ring

theorem floorSeq_shiftRight (r0 : Nat) : ∀ k, floorSeq r0 k = r0 >>> k := by
  intro k
  induction k with
  | zero => rfl
  | succ k ih => simp only [floorSeq, Nat.shiftRight_succ, ih]

theorem floorSeq_le_ceilSeq (x : Nat) :
    ∀ k, floorSeq x k ≤ ceilSeq x k ∧ ceilSeq x k ≤ floorSeq x k + 1 := by
  intro k
  induction k with
  | zero => simp [floorSeq, ceilSeq]
  | succ k ih => simp only [floorSeq, ceilSeq]; omega

theorem floorSeq_pred (r0 : Nat) :
    ∀ k, floorSeq r0 k - 1 ≤ floorSeq (r0 - 1) k ∧
      floorSeq (r0 - 1) k ≤ floorSeq r0 k := by
  intro k
  induction k with
  | zero => simp only [floorSeq]; omega
  | succ k ih => simp only [floorSeq]; omega

theorem ceilSeq_pos (l0 : Nat) (k : Nat) (h : 1 ≤ l0) : 1 ≤ ceilSeq l0 k := by
  have h1 := ceilSeq_lower l0 k
  by_contra hc
  have : ceilSeq l0 k = 0 := by omega
  rw [this, Nat.mul_zero] at h1
  omega

theorem floorSeq_le_half (r0 N k : Nat) (hk : 1 ≤ k) (hr : r0 ≤ 2 * N) :
    floorSeq r0 k ≤ N := by
  have h1 := floorSeq_le r0 k
  have h2 : (2 : Nat) ≤ 2 ^ k := by
    calc (2 : Nat) = 2 ^ 1 := rfl
      _ ≤ 2 ^ k := Nat.pow_le_pow_right (by omega) hk
  have h3 : 2 * floorSeq r0 k ≤ 2 ^ k * floorSeq r0 k :=
    Nat.mul_le_mul_right _ h2
  omega

/-- The parent of a left covering write at level k is the level-(k+1)
ancestor of the left boundary position. -/
theorem parent_left_write (l0 k : Nat) (hodd : ceilSeq l0 k % 2 = 1) :
    ceilSeq l0 k / 2 = l0 >>> (k + 1) := by
  have h := floorSeq_le_ceilSeq l0 k
  have h2 := floorSeq_shiftRight l0 (k + 1)
  simp only [floorSeq] at h2
  rw [floorSeq_shiftRight l0 k] at h h2
  omega

/-- The parent of a right covering write at level k is the level-(k+1)
ancestor of the rightmost in-range position r0 - 1. -/
theorem parent_right_write (r0 k : Nat) (hr1 : 1 ≤ r0)
    (hodd : floorSeq r0 k % 2 = 1) :
    (floorSeq r0 k - 1) / 2 = (r0 - 1) >>> (k + 1) := by
  have h := floorSeq_pred r0 k
  have h2 := floorSeq_shiftRight (r0 - 1) (k + 1)
  simp only [floorSeq] at h2
  rw [floorSeq_shiftRight (r0 - 1) k] at h h2
  omega

/-! ## Facts about TagProp and bitLen -/

theorem not_tagProp_zero (N : Nat) (hN : 1  ≤ N) : ¬ TagProp N 0 := by
  rintro ⟨k, hk, h1, h2⟩
  rw [Nat.zero_mul] at h1
  omega

theorem two_pow_pred (k : Nat) (hk : 1 ≤ k) : 2 ^ k = 2 * 2 ^ (k - 1) := by
  conv_lhs => rw [show k = (k - 1) + 1 by omega]
  rw [pow_succ]
  ring

/-- A node whose tag slot satisfies TagProp passes the property down to an
internal child. -/
theorem tagProp_child (N i b : Nat) (h : TagProp N i) (hb : b ≤ 1)
    (hc : 2 * i + b < N) : TagProp N (2 * i + b) := by
  obtain ⟨k, hk1, h1, h2⟩ := h
  rcases Nat.lt_or_ge k 2 with hk2 | hk2
  · exfalso
    have hk1' : k = 1 := by omega
    subst hk1'
    have : i * 2 ^ 1 = 2 * i := by ring
    omega
  · refine ⟨k - 1, by omega, ?_, ?_⟩
    · have he : 2 * i * 2 ^ (k - 1) = i * 2 ^ k := by
        rw [two_pow_pred k (by omega)]; ring
      have hmono : 2 * i * 2 ^ (k - 1) ≤ (2 * i + b) * 2 ^ (k - 1) :=
        Nat.mul_le_mul_right _ (by omega)
      omega
    · have he : (2 * i + 2) * 2 ^ (k - 1) = (i + 1) * 2 ^ k := by
        rw [two_pow_pred k (by omega)]; ring
      have hmono : (2 * i + b + 1) * 2 ^ (k - 1) ≤ (2 * i + 2) * 2 ^ (k - 1) :=
        Nat.mul_le_mul_right _ (by omega)
      omega

/-- A tagged node whose tag was placed at level k >= 2 has its leftmost
descendant slot below position 2p + 2, so if a leaf position at or above N
is a child of p, the tag must have been placed at level 1 and both children
of p are leaf slots. -/
theorem tagProp_final_children (N p : Nat) (h : TagProp N p) (hpos : N ≤ 2 * p + 1) :
    N ≤ 2 * p := by
  obtain ⟨k, hk1, h1, h2⟩ := h
  rcases Nat.lt_or_ge k 2 with hk2 | hk2
  · have hk1' : k = 1 := by omega
    subst hk1'
    have : p * 2 ^ 1 = 2 * p := by ring
    omega
  · exfalso
    have h4 : (4 : Nat) ≤ 2 ^ k := by
      calc (4 : Nat) = 2 ^ 2 := rfl
        _ ≤ 2 ^ k := Nat.pow_le_pow_right (by omega) hk2
    have hmono : (p + 1) * 4 ≤ (p + 1) * 2 ^ k := Nat.mul_le_mul_left _ h4
    omega

theorem bitLenAux_zero : ∀ f, bitLenAux f 0 = 0
  | 0 => rfl
  | _ + 1 => rfl

theorem bitLenAux_pos (f n : Nat) (h1 : 1 ≤ n) (hf : 1 ≤ f) :
    1 ≤ bitLenAux f n := by
  obtain ⟨g, rfl⟩ : ∃ g, f = g + 1 := ⟨f - 1, by omega⟩
  simp only [bitLenAux, if_neg (by omega : ¬ n = 0)]
  omega

theorem bitLenAux_bounds :
    ∀ f n, 1 ≤ n → n ≤ f → 2 ^ (bitLenAux f n - 1) ≤ n ∧ n < 2 ^ bitLenAux f n := by
  intro f
  induction f with
  | zero => intro n h1 h2; omega
  | succ f ih =>
      intro n h1 h2
      have hb : bitLenAux (f + 1) n = bitLenAux f (n / 2) + 1 := by
        simp only [bitLenAux, if_neg (by omega : ¬ n = 0)]
      rcases Nat.lt_or_ge n 2 with h | h
      · have hn1 : n = 1 := by omega
        subst hn1
        rw [hb]
        norm_num [bitLenAux_zero]
      · have hih := ih (n / 2) (by omega) (by omega)
        rw [hb]
        have hbp : 1 ≤ bitLenAux f (n / 2) := bitLenAux_pos f (n / 2) (by omega) (by omega)
        constructor
        · have he : 2 ^ (bitLenAux f (n / 2) + 1 - 1) = 2 * 2 ^ (bitLenAux f (n / 2) - 1) := by
            rw [show bitLenAux f (n / 2) + 1 - 1 = (bitLenAux f (n / 2) - 1) + 1 by omega]
            rw [pow_succ]; ring
          omega
        · have he : 2 ^ (bitLenAux f (n / 2) + 1) = 2 * 2 ^ bitLenAux f (n / 2) := by
            rw [pow_succ]; ring
          omega

theorem bitLen_bounds (n : Nat) (hn : 1 ≤ n) :
    2 ^ (bitLen n - 1) ≤ n ∧ n < 2 ^ bitLen n :=
  bitLenAux_bounds n n hn (Nat.le_refl n)

/-- Only exact powers of two can carry a tag at node 1. -/
theorem tagProp_one (N : Nat) (h : TagProp N 1) : N = 2 ^ (bitLen N - 1) := by
  obtain ⟨k, hk1, h1, h2⟩ := h
  rw [Nat.one_mul] at h1
  have h2' : 2 ^ k ≤ N := by
    have he : (1 + 1) * 2 ^ k = 2 * 2 ^ k := by ring
    omega
  have hNk : N = 2 ^ k := by omega
  have hN1 : 1 ≤ N := by
    have := Nat.two_pow_pos k
    omega
  have hb := bitLen_bounds N hN1
  -- 2 ^ (bitLen N - 1) ≤ N = 2 ^ k < 2 ^ bitLen N, so k = bitLen N - 1
  have hk2 : k < bitLen N := by
    by_contra hc
    have : 2 ^ bitLen N ≤ 2 ^ k := Nat.pow_le_pow_right (by omega) (by omega)
    omega
  have hk3 : bitLen N - 1 ≤ k := by
    by_contra hc
    have : 2 ^ (k + 1) ≤ 2 ^ (bitLen N - 1) := Nat.pow_le_pow_right (by omega) (by omega)
    have he : 2 ^ (k + 1) = 2 * 2 ^ k := by rw [pow_succ]; ring
    omega
  have hk4 : k = bitLen N - 1 := by omega
  conv_lhs => rw [hNk, hk4]

/-! ## Dense machinery: Propagate preserves the node equation and the tag
placement invariant -/

section DenseInv

variable {T U : Type} [DecidableEq U]
variable (op : T → T → T) (updVal : T → U → T) (updLazy : U → U → U)

theorem pushAt_skip (s : DState T U) (i : Nat) (h : s.lz i = s.idUpd) :
    pushAt updVal updLazy s i = s := by
  unfold pushAt; rw [if_pos h]

theorem pushAt_frame (s : DState T U) (i : Nat) :
    (pushAt updVal updLazy s i).N = s.N ∧ (pushAt updVal updLazy s i).LOG = s.LOG ∧
    (pushAt updVal updLazy s i).idOp = s.idOp ∧
    (pushAt updVal updLazy s i).idUpd = s.idUpd := by
  by_cases h : s.lz i = s.idUpd <;> simp [pushAt, h]

theorem pushAt_t_left (s : DState T U) (i : Nat) (hf : ¬ s.lz i = s.idUpd) :
    (pushAt updVal updLazy s i).t (2 * i) = updVal (s.t (2 * i)) (s.lz i) := by
  unfold pushAt; rw [if_neg hf]; dsimp only
  rw [fupd_other _ _ _ _ (by omega), fupd_same]

theorem pushAt_t_right (s : DState T U) (i : Nat) (h1 : 1 ≤ i)
    (hf : ¬ s.lz i = s.idUpd) :
    (pushAt updVal updLazy s i).t (2 * i + 1) = updVal (s.t (2 * i + 1)) (s.lz i) := by
  unfold pushAt; rw [if_neg hf]; dsimp only
  rw [fupd_same, fupd_other _ _ _ _ (by omega), fupd_other _ _ _ _ (by omega)]

theorem pushAt_t_other (s : DState T U) (i j : Nat) (hj : j ≠ 2 * i)
    (hj2 : j ≠ 2 * i + 1) :
    (pushAt updVal updLazy s i).t j = s.t j := by
  by_cases h : s.lz i = s.idUpd
  · rw [pushAt_skip _ _ _ _ h]
  · unfold pushAt; rw [if_neg h]; dsimp only
    rw [fupd_other _ _ _ _ hj2, fupd_other _ _ _ _ hj]

theorem pushAt_lz_self (s : DState T U) (i : Nat) (h1 : 1 ≤ i) :
    (pushAt updVal updLazy s i).lz i = s.idUpd := by
  by_cases h : s.lz i = s.idUpd
  · rw [pushAt_skip _ _ _ _ h]; exact h
  · unfold pushAt; rw [if_neg h]; dsimp only
    rw [fupd_same]

theorem pushAt_lz_left (s : DState T U) (i : Nat) (h1 : 1 ≤ i)
    (hf : ¬ s.lz i = s.idUpd) :
    (pushAt updVal updLazy s i).lz (2 * i) = updLazy (s.lz (2 * i)) (s.lz i) := by
  unfold pushAt; rw [if_neg hf]; dsimp only
  rw [fupd_other _ _ _ _ (by omega), fupd_other _ _ _ _ (by omega), fupd_same]

theorem pushAt_lz_right (s : DState T U) (i : Nat) (h1 : 1 ≤ i)
    (hf : ¬ s.lz i = s.idUpd) :
    (pushAt updVal updLazy s i).lz (2 * i + 1)
      = updLazy (s.lz (2 * i + 1)) (s.lz i) := by
  unfold pushAt; rw [if_neg hf]; dsimp only
  rw [fupd_other _ _ _ _ (by omega), fupd_same,
    fupd_other _ _ _ _ (by omega), fupd_other _ _ _ _ (by omega)]

theorem pushAt_lz_other (s : DState T U) (i j : Nat) (hji : j ≠ i)
    (hj : j ≠ 2 * i) (hj2 : j ≠ 2 * i + 1) :
    (pushAt updVal updLazy s i).lz j = s.lz j := by
  by_cases h : s.lz i = s.idUpd
  · rw [pushAt_skip _ _ _ _ h]
  · unfold pushAt; rw [if_neg h]; dsimp only
    rw [fupd_other _ _ _ _ hji, fupd_other _ _ _ _ hj2, fupd_other _ _ _ _ hj]

theorem finalPush_skip (s : DState T U) (p : Nat) (h : s.lz p = s.idUpd) :
    finalPush updVal s p = s := by
  unfold finalPush; rw [if_pos h]

theorem finalPush_frame (s : DState T U) (p : Nat) :
    (finalPush updVal s p).N = s.N ∧ (finalPush updVal s p).LOG = s.LOG ∧
    (finalPush updVal s p).idOp = s.idOp ∧
    (finalPush updVal s p).idUpd = s.idUpd := by
  by_cases h : s.lz p = s.idUpd <;> simp [finalPush, h]

theorem finalPush_t_left (s : DState T U) (p : Nat) (hf : ¬ s.lz p = s.idUpd) :
    (finalPush updVal s p).t (2 * p) = updVal (s.t (2 * p)) (s.lz p) := by
  unfold finalPush; rw [if_neg hf]; dsimp only
  rw [fupd_other _ _ _ _ (by omega), fupd_same]

theorem finalPush_t_right (s : DState T U) (p : Nat) (hf : ¬ s.lz p = s.idUpd) :
    (finalPush updVal s p).t (2 * p + 1) = updVal (s.t (2 * p + 1)) (s.lz p) := by
  unfold finalPush; rw [if_neg hf]; dsimp only
  rw [fupd_same, fupd_other _ _ _ _ (by omega)]

theorem finalPush_t_other (s : DState T U) (p j : Nat) (hj : j ≠ 2 * p)
    (hj2 : j ≠ 2 * p + 1) :
    (finalPush updVal s p).t j = s.t j := by
  by_cases h : s.lz p = s.idUpd
  · rw [finalPush_skip _ _ _ h]
  · unfold finalPush; rw [if_neg h]; dsimp only
    rw [fupd_other _ _ _ _ hj2, fupd_other _ _ _ _ hj]

theorem finalPush_lz_self (s : DState T U) (p : Nat) :
    (finalPush updVal s p).lz p = s.idUpd := by
  by_cases h : s.lz p = s.idUpd
  · rw [finalPush_skip _ _ _ h]; exact h
  · unfold finalPush; rw [if_neg h]; dsimp only
    rw [fupd_same]

theorem finalPush_lz_other (s : DState T U) (p j : Nat) (hj : j ≠ p) :
    (finalPush updVal s p).lz j = s.lz j := by
  by_cases h : s.lz p = s.idUpd
  · rw [finalPush_skip _ _ _ h]
  · unfold finalPush; rw [if_neg h]; dsimp only
    rw [fupd_other _ _ _ _ hj]

/-- A Propagate loop body at an internal index preserves both invariants:
the pushed-into children re-satisfy the node equation by the compatibility
law, the node itself by distributivity and the identity law, and the
children inherit TagProp. -/
theorem pushAt_pres (N : Nat) (iU : U)
    (hid : ∀ t, updVal t iU = t)
    (hcompat : ∀ t u1 u2, updVal (updVal t u1) u2 = updVal t (updLazy u1 u2))
    (hdist : ∀ a b u, updVal (op a b) u = op (updVal a u) (updVal b u))
    (hN : 1 ≤ N) (s : DState T U) (hsN : s.N = N) (hsU : s.idUpd = iU)
    (i : Nat) (hiN : i < N)
    (hD : DInv op updVal s) (hL : LzInv s) :
    DInv op updVal (pushAt updVal updLazy s i) ∧
      LzInv (pushAt updVal updLazy s i) := by
  by_cases hf : s.lz i = s.idUpd
  · rw [pushAt_skip _ _ _ _ hf]; exact ⟨hD, hL⟩
  · have hi1 : 1 ≤ i := by
      by_contra hc
      have hi0 : i = 0 := by omega
      subst hi0
      have h0 : TagProp s.N 0 := hL 0 (by omega) hf
      rw [hsN] at h0
      exact not_tagProp_zero N hN h0
    have hTi : TagProp N i := by
      have h0 := hL i (by omega) hf
      rwa [hsN] at h0
    have hfr := pushAt_frame updVal updLazy s i
    constructor
    · intro x hx1 hxN2
      rw [hfr.1, hsN] at hxN2
      by_cases hxi : x = i
      · rw [hxi]
        rw [pushAt_t_other _ _ _ _ _ (by omega) (by omega),
          pushAt_t_left _ _ _ _ hf, pushAt_t_right _ _ _ _ hi1 hf,
          pushAt_lz_self _ _ _ _ hi1, hsU, hid, ← hdist]
        exact hD i hi1 (by omega)
      · by_cases hx2 : x = 2 * i
        · subst hx2
          rw [pushAt_t_left _ _ _ _ hf,
            pushAt_t_other _ _ _ _ _ (by omega) (by omega),
            pushAt_t_other _ _ _ _ _ (by omega) (by omega),
            pushAt_lz_left _ _ _ _ hi1 hf,
            hD (2 * i) (by omega) (by omega), hcompat]
        · by_cases hx3 : x = 2 * i + 1
          · subst hx3
            rw [pushAt_t_right _ _ _ _ hi1 hf,
              pushAt_t_other _ _ _ _ _ (by omega) (by omega),
              pushAt_t_other _ _ _ _ _ (by omega) (by omega),
              pushAt_lz_right _ _ _ _ hi1 hf,
              hD (2 * i + 1) (by omega) (by omega), hcompat]
          · rw [pushAt_t_other _ _ _ _ _ hx2 hx3,
              pushAt_t_other _ _ _ _ _ (by omega) (by omega),
              pushAt_t_other _ _ _ _ _ (by omega) (by omega),
              pushAt_lz_other _ _ _ _ _ hxi hx2 hx3]
            exact hD x hx1 (by omega)
    · intro x hxN2 hne
      rw [hfr.1, hsN] at hxN2
      rw [hfr.1, hsN]
      rw [hfr.2.2.2] at hne
      by_cases hxi : x = i
      · rw [hxi] at hne
        rw [pushAt_lz_self _ _ _ _ hi1] at hne
        exact absurd rfl hne
      · by_cases hx2 : x = 2 * i
        · subst hx2
          have h2 := tagProp_child N i 0 hTi (by omega) (by omega)
          simpa using h2
        · by_cases hx3 : x = 2 * i + 1
          · subst hx3
            exact tagProp_child N i 1 hTi (by omega) (by omega)
          · rw [pushAt_lz_other _ _ _ _ _ hxi hx2 hx3] at hne
            have h0 := hL x (by omega) hne
            rwa [hsN] at h0

end DenseInv

section DenseInv2

variable {T U : Type} [DecidableEq U]
variable (op : T → T → T) (updVal : T → U → T) (updLazy : U → U → U)

/-- The final Propagate step: when the tag at p is pending, TagProp forces
both children of p to be leaf slots (given that p is the parent of an
in-range leaf position), so pushing into them touches no internal node but
p itself, whose equation is restored by distributivity and the identity
law. -/
theorem finalPush_pres (N : Nat) (iU : U)
    (hid : ∀ t, updVal t iU = t)
    (hdist : ∀ a b u, updVal (op a b) u = op (updVal a u) (updVal b u))
    (hN : 1 ≤ N) (s : DState T U) (hsN : s.N = N) (hsU : s.idUpd = iU)
    (p : Nat) (hpN : p < N) (hpos : N ≤ 2 * p + 1)
    (hD : DInv op updVal s) (hL : LzInv s) :
    DInv op updVal (finalPush updVal s p) ∧ LzInv (finalPush updVal s p) := by
  by_cases hf : s.lz p = s.idUpd
  · rw [finalPush_skip _ _ _ hf]; exact ⟨hD, hL⟩
  · have hp1 : 1 ≤ p := by
      by_contra hc
      have hp0 : p = 0 := by omega
      subst hp0
      have h0 : TagProp s.N 0 := hL 0 (by omega) hf
      rw [hsN] at h0
      exact not_tagProp_zero N hN h0
    have hTp : TagProp N p := by
      have h0 := hL p (by omega) hf
      rwa [hsN] at h0
    have h2p : N ≤ 2 * p := tagProp_final_children N p hTp hpos
    have hfr := finalPush_frame updVal s p
    constructor
    · intro x hx1 hxN2
      rw [hfr.1, hsN] at hxN2
      by_cases hxp : x = p
      · rw [hxp]
        rw [finalPush_t_other _ _ _ _ (by omega) (by omega),
          finalPush_t_left _ _ _ hf, finalPush_t_right _ _ _ hf,
          finalPush_lz_self _ _ _, hsU, hid, ← hdist]
        exact hD p hp1 (by omega)
      · rw [finalPush_t_other _ _ _ _ (by omega) (by omega),
          finalPush_t_other _ _ _ _ (by omega) (by omega),
          finalPush_t_other _ _ _ _ (by omega) (by omega),
          finalPush_lz_other _ _ _ _ hxp]
        exact hD x hx1 (by omega)
    · intro x hxN2 hne
      rw [hfr.1, hsN] at hxN2
      rw [hfr.1, hsN]
      rw [hfr.2.2.2] at hne
      by_cases hxp : x = p
      · rw [hxp] at hne
        rw [finalPush_lz_self _ _ _] at hne
        exact absurd rfl hne
      · rw [finalPush_lz_other _ _ _ _ hxp] at hne
        have h0 := hL x (by omega) hne
        rwa [hsN] at h0

/-- The tag placement invariant alone is preserved by a Propagate loop
body, with no algebra laws. -/
theorem pushAt_lzinv (N : Nat) (hN : 1 ≤ N) (s : DState T U) (hsN : s.N = N)
    (i : Nat) (hiN : i < N) (hL : LzInv s) :
    LzInv (pushAt updVal updLazy s i) := by
  by_cases hf : s.lz i = s.idUpd
  · rw [pushAt_skip _ _ _ _ hf]; exact hL
  · have hi1 : 1 ≤ i := by
      by_contra hc
      have hi0 : i = 0 := by omega
      subst hi0
      have h0 : TagProp s.N 0 := hL 0 (by omega) hf
      rw [hsN] at h0
      exact not_tagProp_zero N hN h0
    have hTi : TagProp N i := by
      have h0 := hL i (by omega) hf
      rwa [hsN] at h0
    have hfr := pushAt_frame updVal updLazy s i
    intro x hxN2 hne
    rw [hfr.1, hsN] at hxN2
    rw [hfr.1, hsN]
    rw [hfr.2.2.2] at hne
    by_cases hxi : x = i
    · rw [hxi] at hne
      rw [pushAt_lz_self _ _ _ _ hi1] at hne
      exact absurd rfl hne
    · by_cases hx2 : x = 2 * i
      · rw [hx2]
        have h2 := tagProp_child N i 0 hTi (by omega) (by omega)
        simpa using h2
      · by_cases hx3 : x = 2 * i + 1
        · rw [hx3]
          exact tagProp_child N i 1 hTi (by omega) (by omega)
        · rw [pushAt_lz_other _ _ _ _ _ hxi hx2 hx3] at hne
          have h0 := hL x (by omega) hne
          rwa [hsN] at h0

/-- The final Propagate step only clears a tag, so it preserves the tag
placement invariant unconditionally. -/
theorem finalPush_lzinv (s : DState T U) (p : Nat) (hL : LzInv s) :
    LzInv (finalPush updVal s p) := by
  have hfr := finalPush_frame updVal s p
  intro x hxN2 hne
  rw [hfr.1] at hxN2
  rw [hfr.1]
  rw [hfr.2.2.2] at hne
  by_cases hxp : x = p
  · rw [hxp] at hne
    rw [finalPush_lz_self _ _ _] at hne
    exact absurd rfl hne
  · rw [finalPush_lz_other _ _ _ _ hxp] at hne
    exact hL x hxN2 hne

/-- Every index the Propagate for loop pushes at is internal. -/
theorem propDown_index_lt (N pos k : Nat) (hN : 1 ≤ N) (hpos : pos ≤ 2 * N) :
    pos >>> (k + 2) < N := by
  have h1 : pos >>> (k + 2) ≤ pos >>> 2 := by
    rw [Nat.shiftRight_eq_div_pow, Nat.shiftRight_eq_div_pow]
    have hp : (2 : Nat) ^ 2 ≤ 2 ^ (k + 2) := Nat.pow_le_pow_right (by omega) (by omega)
    exact Nat.div_le_div_left hp (by norm_num)
  have h2 : pos >>> 2 = pos / 4 := by
    rw [Nat.shiftRight_eq_div_pow]
  omega

/-- The Propagate for loop preserves the fields and both invariants. -/
theorem propDown_pres (N : Nat) (iU : U)
    (hid : ∀ t, updVal t iU = t)
    (hcompat : ∀ t u1 u2, updVal (updVal t u1) u2 = updVal t (updLazy u1 u2))
    (hdist : ∀ a b u, updVal (op a b) u = op (updVal a u) (updVal b u))
    (hN : 1 ≤ N) (pos : Nat) (hpos : pos ≤ 2 * N) :
    ∀ c s, s.N = N → s.idUpd = iU → DInv op updVal s → LzInv s →
      (propDown updVal updLazy pos c s).N = N ∧
      (propDown updVal updLazy pos c s).LOG = s.LOG ∧
      (propDown updVal updLazy pos c s).idOp = s.idOp ∧
      (propDown updVal updLazy pos c s).idUpd = iU ∧
      DInv op updVal (propDown updVal updLazy pos c s) ∧
      LzInv (propDown updVal updLazy pos c s) := by
  intro c
  induction c using Nat.strong_induction_on with
  | _ c ih =>
    intro s hsN hsU hD hL
    match c with
    | 0 => exact ⟨hsN, rfl, rfl, hsU, hD, hL⟩
    | 1 => exact ⟨hsN, rfl, rfl, hsU, hD, hL⟩
    | (k + 2) =>
      have hiN : pos >>> (k + 2) < N := propDown_index_lt N pos k hN hpos
      have hstep := pushAt_pres op updVal updLazy N iU hid hcompat hdist hN s hsN
        hsU (pos >>> (k + 2)) hiN hD hL
      have hfr := pushAt_frame updVal updLazy s (pos >>> (k + 2))
      have hrec := ih (k + 1) (by omega) (pushAt updVal updLazy s (pos >>> (k + 2)))
        (by rw [hfr.1, hsN]) (by rw [hfr.2.2.2, hsU]) hstep.1 hstep.2
      simp only [propDown]
      exact ⟨hrec.1, hrec.2.1.trans hfr.2.1, hrec.2.2.1.trans hfr.2.2.1,
        hrec.2.2.2.1, hrec.2.2.2.2.1, hrec.2.2.2.2.2⟩

/-- The Propagate for loop preserves the tag placement invariant, with no
laws. -/
theorem propDown_lzinv (N : Nat) (hN : 1 ≤ N) (pos : Nat) (hpos : pos ≤ 2 * N) :
    ∀ c s, s.N = N →
      (propDown updVal updLazy pos c s).N = N ∧
      (propDown updVal updLazy pos c s).LOG = s.LOG ∧
      (propDown updVal updLazy pos c s).idOp = s.idOp ∧
      (propDown updVal updLazy pos c s).idUpd = s.idUpd ∧
      (LzInv s → LzInv (propDown updVal updLazy pos c s)) := by
  intro c
  induction c using Nat.strong_induction_on with
  | _ c ih =>
    intro s hsN
    match c with
    | 0 => exact ⟨hsN, rfl, rfl, rfl, fun h => h⟩
    | 1 => exact ⟨hsN, rfl, rfl, rfl, fun h => h⟩
    | (k + 2) =>
      have hiN : pos >>> (k + 2) < N := propDown_index_lt N pos k hN hpos
      have hfr := pushAt_frame updVal updLazy s (pos >>> (k + 2))
      have hrec := ih (k + 1) (by omega) (pushAt updVal updLazy s (pos >>> (k + 2)))
        (by rw [hfr.1, hsN])
      simp only [propDown]
      refine ⟨hrec.1, hrec.2.1.trans hfr.2.1, hrec.2.2.1.trans hfr.2.2.1,
        hrec.2.2.2.1.trans hfr.2.2.2, fun hL => hrec.2.2.2.2 ?_⟩
      exact pushAt_lzinv updVal updLazy N hN s hsN _ hiN hL

/-- Propagate(pos) preserves the fields and both invariants for any
in-range leaf position pos. -/
theorem dpropagate_pres (N : Nat) (iU : U)
    (hid : ∀ t, updVal t iU = t)
    (hcompat : ∀ t u1 u2, updVal (updVal t u1) u2 = updVal t (updLazy u1 u2))
    (hdist : ∀ a b u, updVal (op a b) u = op (updVal a u) (updVal b u))
    (hN : 1 ≤ N) (s : DState T U) (hsN : s.N = N) (hsU : s.idUpd = iU)
    (pos : Nat) (hpos1 : N ≤ pos) (hpos2 : pos ≤ 2 * N - 1)
    (hD : DInv op updVal s) (hL : LzInv s) :
    (dpropagate updVal updLazy s pos).N = N ∧
    (dpropagate updVal updLazy s pos).LOG = s.LOG ∧
    (dpropagate updVal updLazy s pos).idOp = s.idOp ∧
    (dpropagate updVal updLazy s pos).idUpd = iU ∧
    DInv op updVal (dpropagate updVal updLazy s pos) ∧
    LzInv (dpropagate updVal updLazy s pos) := by
  have hpd := propDown_pres op updVal updLazy N iU hid hcompat hdist hN pos
    (by omega) s.LOG s hsN hsU hD hL
  have hfp := finalPush_pres op updVal N iU hid hdist hN
    (propDown updVal updLazy pos s.LOG s) hpd.1 hpd.2.2.2.1 (pos / 2)
    (by omega) (by omega) hpd.2.2.2.2.1 hpd.2.2.2.2.2
  have hfr := finalPush_frame updVal (propDown updVal updLazy pos s.LOG s) (pos / 2)
  unfold dpropagate
  exact ⟨hfr.1.trans hpd.1, hfr.2.1.trans hpd.2.1, hfr.2.2.1.trans hpd.2.2.1,
    hfr.2.2.2.trans hpd.2.2.2.1, hfp.1, hfp.2⟩

/-- Propagate(pos) preserves the tag placement invariant for any position
up to 2N, with no laws. -/
theorem dpropagate_lzinv (N : Nat) (hN : 1 ≤ N) (s : DState T U) (hsN : s.N = N)
    (pos : Nat) (hpos : pos ≤ 2 * N) (hL : LzInv s) :
    (dpropagate updVal updLazy s pos).N = N ∧
    (dpropagate updVal updLazy s pos).LOG = s.LOG ∧
    (dpropagate updVal updLazy s pos).idOp = s.idOp ∧
    (dpropagate updVal updLazy s pos).idUpd = s.idUpd ∧
    LzInv (dpropagate updVal updLazy s pos) := by
  have hpd := propDown_lzinv updVal updLazy N hN pos hpos s.LOG s hsN
  have hfr := finalPush_frame updVal (propDown updVal updLazy pos s.LOG s) (pos / 2)
  unfold dpropagate
  exact ⟨hfr.1.trans hpd.1, hfr.2.1.trans hpd.2.1, hfr.2.2.1.trans hpd.2.2.1,
    hfr.2.2.2.trans hpd.2.2.2.1,
    finalPush_lzinv updVal _ _ (hpd.2.2.2.2 hL)⟩

/-- The state returned by Query is the two-fold Propagate of the incoming
state. -/
theorem dquery_snd (s : DState T U) (l r : Nat) :
    (DQuery op updVal updLazy s l r).2 =
      dpropagate updVal updLazy (dpropagate updVal updLazy s (l + s.N))
        (r + s.N - 1) := rfl

/-- Query on a nonempty in-bounds range preserves the fields and both
invariants. -/
theorem dquery_pres (N : Nat) (iU : U)
    (hid : ∀ t, updVal t iU = t)
    (hcompat : ∀ t u1 u2, updVal (updVal t u1) u2 = updVal t (updLazy u1 u2))
    (hdist : ∀ a b u, updVal (op a b) u = op (updVal a u) (updVal b u))
    (hN : 1 ≤ N) (s : DState T U) (hsN : s.N = N) (hsU : s.idUpd = iU)
    (l r : Nat) (hlr : l < r) (hrN : r ≤ N)
    (hD : DInv op updVal s) (hL : LzInv s) :
    ((DQuery op updVal updLazy s l r).2).N = N ∧
    ((DQuery op updVal updLazy s l r).2).LOG = s.LOG ∧
    ((DQuery op updVal updLazy s l r).2).idOp = s.idOp ∧
    ((DQuery op updVal updLazy s l r).2).idUpd = iU ∧
    DInv op updVal ((DQuery op updVal updLazy s l r).2) ∧
    LzInv ((DQuery op updVal updLazy s l r).2) := by
  rw [dquery_snd]
  have h1 := dpropagate_pres op updVal updLazy N iU hid hcompat hdist hN s hsN hsU
    (l + s.N) (by omega) (by omega) hD hL
  have h2 := dpropagate_pres op updVal updLazy N iU hid hcompat hdist hN
    (dpropagate updVal updLazy s (l + s.N)) h1.1 h1.2.2.2.1
    (r + s.N - 1) (by omega) (by omega) h1.2.2.2.2.1 h1.2.2.2.2.2
  exact ⟨h2.1, h2.2.1.trans h1.2.1, h2.2.2.1.trans h1.2.2.1, h2.2.2.2.1,
    h2.2.2.2.2.1, h2.2.2.2.2.2⟩

end DenseInv2

/-! ## Dense machinery: the Update walk -/

section DenseUpd

variable {T U : Type} [DecidableEq U]
variable (op : T → T → T) (updVal : T → U → T) (updLazy : U → U → U)

theorem tagWrite_t_self (s : DState T U) (w : Nat) (v : U) :
    (tagWrite updVal updLazy s w v).t w = updVal (s.t w) v := by
  dsimp only [tagWrite]; rw [fupd_same]

theorem tagWrite_t_other (s : DState T U) (w : Nat) (v : U) (j : Nat) (hj : j ≠ w) :
    (tagWrite updVal updLazy s w v).t j = s.t j := by
  dsimp only [tagWrite]; rw [fupd_other _ _ _ _ hj]

theorem tagWrite_lz_self (s : DState T U) (w : Nat) (v : U) :
    (tagWrite updVal updLazy s w v).lz w = updLazy (s.lz w) v := by
  dsimp only [tagWrite]; rw [fupd_same]

theorem tagWrite_lz_other (s : DState T U) (w : Nat) (v : U) (j : Nat) (hj : j ≠ w) :
    (tagWrite updVal updLazy s w v).lz j = s.lz j := by
  dsimp only [tagWrite]; rw [fupd_other _ _ _ _ hj]

/-- A covering-node write preserves the node equation at its own index by
the compatibility law. -/
theorem tagWrite_I1_self
    (hcompat : ∀ t u1 u2, updVal (updVal t u1) u2 = updVal t (updLazy u1 u2))
    (s : DState T U) (w : Nat) (v : U) (hw : 1 ≤ w)
    (h : I1 op updVal s w) : I1 op updVal (tagWrite updVal updLazy s w v) w := by
  unfold I1 at *
  rw [tagWrite_t_self, tagWrite_t_other _ _ _ _ _ _ (by omega),
    tagWrite_t_other _ _ _ _ _ _ (by omega), tagWrite_lz_self]
  rw [h, hcompat]

/-- A covering-node write leaves the node equation at unrelated indices
untouched. -/
theorem tagWrite_I1_other (s : DState T U) (w : Nat) (v : U) (x : Nat)
    (hxw : x ≠ w) (hw2 : w ≠ 2 * x) (hw3 : w ≠ 2 * x + 1)
    (h : I1 op updVal s x) : I1 op updVal (tagWrite updVal updLazy s w v) x := by
  unfold I1 at *
  rw [tagWrite_t_other _ _ _ _ _ _ hxw,
    tagWrite_t_other _ _ _ _ _ _ (fun he => hw2 he.symm),
    tagWrite_t_other _ _ _ _ _ _ (fun he => hw3 he.symm),
    tagWrite_lz_other _ _ _ _ _ _ hxw]
  exact h

/-- A covering-node write at an index satisfying TagProp preserves the tag
placement invariant. -/
theorem tagWrite_lzinv (N : Nat) (s : DState T U) (hsN : s.N = N) (w : Nat)
    (v : U) (hT : TagProp N w) (hL : LzInv s) :
    LzInv (tagWrite updVal updLazy s w v) := by
  intro x hx hne
  have hx2 : x < s.N := hx
  show TagProp s.N x
  rw [hsN]
  by_cases hxw : x = w
  · rw [hxw]; exact hT
  · rw [tagWrite_lz_other _ _ _ _ _ _ hxw] at hne
    have h0 := hL x hx2 hne
    rwa [hsN] at h0

/-- A covering-node write preserves the node equation away from the excused
set, provided its own parent is excused. -/
theorem tagWrite_dinvx
    (hcompat : ∀ t u1 u2, updVal (updVal t u1) u2 = updVal t (updLazy u1 u2))
    (s : DState T U) (w : Nat) (v : U) (X : Nat → Prop)
    (hw1 : 1 ≤ w) (hwN : w < s.N) (hXp : X (w / 2))
    (hD : DInvX op updVal s X) :
    DInvX op updVal (tagWrite updVal updLazy s w v) X := by
  intro x hx1 hxN hxX
  have hxN2 : x < s.N := hxN
  by_cases hxw : x = w
  · rw [hxw]
    exact tagWrite_I1_self op updVal updLazy hcompat s w v hw1
      (hD w hw1 hwN (by rw [← hxw]; exact hxX))
  · refine tagWrite_I1_other op updVal updLazy s w v x hxw ?_ ?_
      (hD x hx1 hxN2 hxX)
    · intro he
      apply hxX
      rw [show x = w / 2 by omega]
      exact hXp
    · intro he
      apply hxX
      rw [show x = w / 2 by omega]
      exact hXp

/-- One-step unfolding of the Update walk in terms of tagWrite. -/
theorem walkU_step (f l r : Nat) (v : U) (s : DState T U) (hlt : l < r) :
    walkU updVal updLazy (f + 1) l r v s =
      walkU updVal updLazy f ((if l % 2 = 1 then l + 1 else l) / 2)
        ((if r % 2 = 1 then r - 1 else r) / 2) v
        (if r % 2 = 1 then
           tagWrite updVal updLazy
             (if l % 2 = 1 then tagWrite updVal updLazy s l v else s) (r - 1) v
         else (if l % 2 = 1 then tagWrite updVal updLazy s l v else s)) := by
  show (if l < r then _ else s) = _
  rw [if_pos hlt]
  rfl

/-- The Update walk is the identity when the interval is empty. -/
theorem walkU_exit (f l r : Nat) (v : U) (s : DState T U) (hlt : ¬ l < r) :
    walkU updVal updLazy f l r v s = s := by
  match f with
  | 0 => rfl
  | f + 1 =>
      show (if l < r then _ else s) = s
      rw [if_neg hlt]

end DenseUpd

section DenseUpd2

variable {T U : Type} [DecidableEq U]
variable (op : T → T → T) (updVal : T → U → T) (updLazy : U → U → U)

/-- The bottom-up Update walk writes only covering nodes; each write
preserves the node equation at its own index (compatibility), the parent it
may break is a strict ancestor of a boundary position, and every written
tag slot satisfies TagProp. -/
theorem walkU_pres (N l0 r0 : Nat) (iU : U)
    (hcompat : ∀ t u1 u2, updVal (updVal t u1) u2 = updVal t (updLazy u1 u2))
    (hN : 1 ≤ N) (hl0 : N ≤ l0) (hr0 : r0 ≤ 2 * N) :
    ∀ f k s v, 1 ≤ k → s.N = N → s.idUpd = iU →
      DInvX op updVal s (BSet l0 r0) → LzInv s →
      (walkU updVal updLazy f (ceilSeq l0 k) (floorSeq r0 k) v s).N = N ∧
      (walkU updVal updLazy f (ceilSeq l0 k) (floorSeq r0 k) v s).LOG = s.LOG ∧
      (walkU updVal updLazy f (ceilSeq l0 k) (floorSeq r0 k) v s).idOp = s.idOp ∧
      (walkU updVal updLazy f (ceilSeq l0 k) (floorSeq r0 k) v s).idUpd = iU ∧
      DInvX op updVal (walkU updVal updLazy f (ceilSeq l0 k) (floorSeq r0 k) v s)
        (BSet l0 r0) ∧
      LzInv (walkU updVal updLazy f (ceilSeq l0 k) (floorSeq r0 k) v s) := by
  intro f
  induction f with
  | zero =>
      intro k s v hk hsN hsU hD hL
      exact ⟨hsN, rfl, rfl, hsU, hD, hL⟩
  | succ f ih =>
      intro k s v hk hsN hsU hD hL
      by_cases hlr : ceilSeq l0 k < floorSeq r0 k
      · have hL1 : 1 ≤ ceilSeq l0 k := ceilSeq_pos l0 k (by omega)
        have hRN : floorSeq r0 k ≤ N := floorSeq_le_half r0 N k hk hr0
        have hr1 : 1 ≤ r0 := by
          have h1 := floorSeq_le r0 k
          have h2 := Nat.two_pow_pos k
          have h3 : 2 ^ k * 1 ≤ 2 ^ k * floorSeq r0 k :=
            Nat.mul_le_mul_left _ (by omega)
          have h4 : 2 ^ k * 1 = 2 ^ k := by ring
          omega
        have hTL : TagProp N (ceilSeq l0 k) := by
          refine ⟨k, hk, ?_, ?_⟩
          · have h1 := ceilSeq_lower l0 k
            have h2 : 2 ^ k * ceilSeq l0 k = ceilSeq l0 k * 2 ^ k := Nat.mul_comm _ _
            omega
          · have h1 := floorSeq_le r0 k
            have h2 : (ceilSeq l0 k + 1) * 2 ^ k ≤ floorSeq r0 k * 2 ^ k :=
              Nat.mul_le_mul_right _ (by omega)
            have h3 : floorSeq r0 k * 2 ^ k = 2 ^ k * floorSeq r0 k := Nat.mul_comm _ _
            omega
        have hTR : TagProp N (floorSeq r0 k - 1) := by
          refine ⟨k, hk, ?_, ?_⟩
          · have h1 := ceilSeq_lower l0 k
            have h2 : 2 ^ k * ceilSeq l0 k ≤ 2 ^ k * (floorSeq r0 k - 1) :=
              Nat.mul_le_mul_left _ (by omega)
            have h3 : 2 ^ k * (floorSeq r0 k - 1) = (floorSeq r0 k - 1) * 2 ^ k :=
              Nat.mul_comm _ _
            omega
          · have h1 := floorSeq_le r0 k
            have h2 : floorSeq r0 k - 1 + 1 = floorSeq r0 k := by omega
            rw [h2]
            have h3 : floorSeq r0 k * 2 ^ k = 2 ^ k * floorSeq r0 k := Nat.mul_comm _ _
            omega
        have hs1 : ∀ s1 : DState T U,
            s1 = (if ceilSeq l0 k % 2 = 1
                then tagWrite updVal updLazy s (ceilSeq l0 k) v else s) →
            s1.N = N ∧ s1.LOG = s.LOG ∧ s1.idOp = s.idOp ∧ s1.idUpd = iU ∧
            DInvX op updVal s1 (BSet l0 r0) ∧ LzInv s1 := by
          intro s1 hs1def
          by_cases hlodd : ceilSeq l0 k % 2 = 1
          · rw [hs1def, if_pos hlodd]
            refine ⟨hsN, rfl, rfl, hsU, ?_, ?_⟩
            · refine tagWrite_dinvx op updVal updLazy hcompat s (ceilSeq l0 k) v _
                hL1 (by omega) ?_ hD
              exact Or.inl ⟨k + 1, by omega, parent_left_write l0 k hlodd⟩
            · exact tagWrite_lzinv updVal updLazy N s hsN _ v hTL hL
          · rw [hs1def, if_neg hlodd]
            exact ⟨hsN, rfl, rfl, hsU, hD, hL⟩
        have hs2 : ∀ s1 s2 : DState T U,
            (s1.N = N ∧ s1.LOG = s.LOG ∧ s1.idOp = s.idOp ∧ s1.idUpd = iU ∧
              DInvX op updVal s1 (BSet l0 r0) ∧ LzInv s1) →
            s2 = (if floorSeq r0 k % 2 = 1
                then tagWrite updVal updLazy s1 (floorSeq r0 k - 1) v else s1) →
            s2.N = N ∧ s2.LOG = s.LOG ∧ s2.idOp = s.idOp ∧ s2.idUpd = iU ∧
            DInvX op updVal s2 (BSet l0 r0) ∧ LzInv s2 := by
          intro s1 s2 h1 hs2def
          obtain ⟨h1N, h1LOG, h1O, h1U, h1D, h1L⟩ := h1
          by_cases hrodd : floorSeq r0 k % 2 = 1
          · rw [hs2def, if_pos hrodd]
            refine ⟨h1N, h1LOG, h1O, h1U, ?_, ?_⟩
            · refine tagWrite_dinvx op updVal updLazy hcompat s1 (floorSeq r0 k - 1)
                v _ (by omega) (by omega) ?_ h1D
              exact Or.inr ⟨k + 1, by omega, parent_right_write r0 k hr1 hrodd⟩
            · exact tagWrite_lzinv updVal updLazy N s1 h1N _ v hTR h1L
          · rw [hs2def, if_neg hrodd]
            exact ⟨h1N, h1LOG, h1O, h1U, h1D, h1L⟩
        have heL : (if ceilSeq l0 k % 2 = 1 then ceilSeq l0 k + 1 else ceilSeq l0 k) / 2
            = ceilSeq l0 (k + 1) := by
          simp only [ceilSeq]
          split_ifs <;> omega
        have heR : (if floorSeq r0 k % 2 = 1 then floorSeq r0 k - 1 else floorSeq r0 k) / 2
            = floorSeq r0 (k + 1) := by
          simp only [floorSeq]
          split_ifs <;> omega
        rw [walkU_step updVal updLazy f (ceilSeq l0 k) (floorSeq r0 k) v s hlr,
          heL, heR]
        have hfin := hs2 (if ceilSeq l0 k % 2 = 1
              then tagWrite updVal updLazy s (ceilSeq l0 k) v else s)
          (if floorSeq r0 k % 2 = 1
              then tagWrite updVal updLazy (if ceilSeq l0 k % 2 = 1
                then tagWrite updVal updLazy s (ceilSeq l0 k) v else s)
                (floorSeq r0 k - 1) v
              else (if ceilSeq l0 k % 2 = 1
                then tagWrite updVal updLazy s (ceilSeq l0 k) v else s))
          (hs1 _ rfl) rfl
        obtain ⟨hfN, hfLOG, hfO, hfU, hfD, hfL⟩ := hfin
        have hrec := ih (k + 1) _ v (by omega) hfN hfU hfD hfL
        exact ⟨hrec.1, hrec.2.1.trans hfLOG, hrec.2.2.1.trans hfO, hrec.2.2.2.1,
          hrec.2.2.2.2.1, hrec.2.2.2.2.2⟩
      · rw [walkU_exit updVal updLazy (f + 1) _ _ v s hlr]
        exact ⟨hsN, rfl, rfl, hsU, hD, hL⟩

end DenseUpd2

section DenseUpd3

variable {T U : Type} [DecidableEq U]
variable (op : T → T → T) (updVal : T → U → T) (updLazy : U → U → U)

theorem chainFrom_zero (i : Nat) (h : ChainFrom 0 i) : i = 0 := by
  obtain ⟨j, hj⟩ := h
  simpa [Nat.zero_shiftRight] using hj

theorem chainFrom_step (p i : Nat) (h : ChainFrom p i) :
    i = p ∨ ChainFrom (p / 2) i := by
  obtain ⟨j, hj⟩ := h
  match j with
  | 0 => exact Or.inl hj
  | j + 1 =>
      refine Or.inr ⟨j, ?_⟩
      rw [hj, show j + 1 = 1 + j by omega, Nat.shiftRight_add, Nat.shiftRight_one]

theorem isAnc_iff_chainFrom (p i : Nat) : IsAnc p i ↔ ChainFrom (p / 2) i := by
  constructor
  · rintro ⟨j, hj1, hj2⟩
    refine ⟨j - 1, ?_⟩
    rw [hj2, show j = 1 + (j - 1) by omega, Nat.shiftRight_add, Nat.shiftRight_one]
    congr 1
    omega
  · rintro ⟨j, hj⟩
    refine ⟨1 + j, by omega, ?_⟩
    rw [hj, Nat.shiftRight_add, Nat.shiftRight_one]

theorem dinvx_mono (s : DState T U) (X Y : Nat → Prop)
    (hsub : ∀ i, X i → Y i) (h : DInvX op updVal s X) : DInvX op updVal s Y :=
  fun i h1 h2 hY => h i h1 h2 (fun hX => hY (hsub i hX))

theorem dinv_of_dinvx (s : DState T U)
    (h : DInvX op updVal s (fun _ => False)) : DInv op updVal s :=
  fun i h1 h2 => h i h1 h2 (fun hf => hf)

theorem dinvx_of_dinv (s : DState T U) (X : Nat → Prop)
    (h : DInv op updVal s) : DInvX op updVal s X :=
  fun i h1 h2 _ => h i h1 h2

theorem lzInv_transport (s s2 : DState T U) (h1 : s2.N = s.N)
    (h2 : s2.idUpd = s.idUpd) (h3 : s2.lz = s.lz) (h : LzInv s) : LzInv s2 := by
  intro x hx hne
  rw [h1] at hx
  rw [h1]
  rw [h3, h2] at hne
  exact h x hx hne

/-- The boundary-leaf pre-write: it touches an aggregate slot in the leaf
region, so the only node equation affected is its parent, a strict ancestor
of the boundary. -/
theorem tstore_pres (s : DState T U) (w : Nat) (v : U) (X : Nat → Prop)
    (hw : s.N ≤ w) (hXp : X (w / 2)) (hD : DInvX op updVal s X) :
    DInvX op updVal (tstore updVal s w v) X := by
  intro x hx1 hxN hxX
  have hxN2 : x < s.N := hxN
  have h := hD x hx1 hxN2 hxX
  unfold I1 at *
  show fupd s.t w (updVal (s.t w) v) x
      = updVal (op (fupd s.t w (updVal (s.t w) v) (2 * x))
          (fupd s.t w (updVal (s.t w) v) (2 * x + 1))) (s.lz x)
  rw [fupd_other _ _ _ _ (show x ≠ w by omega),
    fupd_other _ _ _ _
      (show 2 * x ≠ w from fun he =>
        hxX (by rw [show x = w / 2 by omega]; exact hXp)),
    fupd_other _ _ _ _
      (show 2 * x + 1 ≠ w from fun he =>
        hxX (by rw [show x = w / 2 by omega]; exact hXp))]
  exact h

/-- The recalculation walk restores the node equation along the chain it
climbs: each step writes the defining combination at the current position,
and the only equation it can disturb is the next one up the same chain. -/
theorem recalcUp_fix (X : Nat → Prop) :
    ∀ f pos s, pos ≤ f → pos < s.N →
      DInvX op updVal s (fun i => ChainFrom pos i ∨ X i) →
      (recalcUp op updVal f pos s).N = s.N ∧
      (recalcUp op updVal f pos s).LOG = s.LOG ∧
      (recalcUp op updVal f pos s).idOp = s.idOp ∧
      (recalcUp op updVal f pos s).idUpd = s.idUpd ∧
      (recalcUp op updVal f pos s).lz = s.lz ∧
      DInvX op updVal (recalcUp op updVal f pos s) X := by
  intro f
  induction f with
  | zero =>
      intro pos s hf hpos hD
      have hpos0 : pos = 0 := by omega
      subst hpos0
      refine ⟨rfl, rfl, rfl, rfl, rfl, ?_⟩
      intro x hx1 hxN hxX
      refine hD x hx1 hxN ?_
      rintro (hc | hx)
      · have := chainFrom_zero x hc
        omega
      · exact hxX hx
  | succ f ih =>
      intro pos s hf hpos hD
      by_cases hp : 0 < pos
      · have hstep : recalcUp op updVal (f + 1) pos s
            = recalcUp op updVal f (pos / 2)
                { s with t := fupd s.t pos (updVal (op (s.t (2 * pos)) (s.t (2 * pos + 1))) (s.lz pos)) } := by
          simp only [recalcUp]
          rw [if_pos hp]
        rw [hstep]
        have hD2 : DInvX op updVal
            { s with t := fupd s.t pos (updVal (op (s.t (2 * pos)) (s.t (2 * pos + 1))) (s.lz pos)) }
            (fun i => ChainFrom (pos / 2) i ∨ X i) := by
          intro x hx1 hxN hxX
          have hxN2 : x < s.N := hxN
          unfold I1
          dsimp only
          by_cases hxp : x = pos
          · rw [hxp, fupd_same, fupd_other _ _ _ _ (show 2 * pos ≠ pos by omega),
              fupd_other _ _ _ _ (show 2 * pos + 1 ≠ pos by omega)]
          · have hnc : ¬ (ChainFrom pos x ∨ X x) := by
              rintro (hc | hx)
              · rcases chainFrom_step pos x hc with he | hc2
                · exact hxp he
                · exact hxX (Or.inl hc2)
              · exact hxX (Or.inr hx)
            have h := hD x hx1 hxN2 hnc
            unfold I1 at h
            rw [fupd_other _ _ _ _ (show x ≠ pos from hxp),
              fupd_other _ _ _ _
                (show 2 * x ≠ pos from fun he => hxX (Or.inl ⟨0, by omega⟩)),
              fupd_other _ _ _ _
                (show 2 * x + 1 ≠ pos from fun he => hxX (Or.inl ⟨0, by omega⟩))]
            exact h
        have hrec := ih (pos / 2)
          { s with t := fupd s.t pos (updVal (op (s.t (2 * pos)) (s.t (2 * pos + 1))) (s.lz pos)) }
          (by omega) (show pos / 2 < s.N by omega) hD2
        exact ⟨hrec.1, hrec.2.1, hrec.2.2.1, hrec.2.2.2.1, hrec.2.2.2.2.1,
          hrec.2.2.2.2.2⟩
      · have hpos0 : pos = 0 := by omega
        subst hpos0
        have hstep : recalcUp op updVal (f + 1) 0 s = s := by
          simp only [recalcUp]
          rw [if_neg (by omega : ¬ 0 < 0)]
        rw [hstep]
        refine ⟨rfl, rfl, rfl, rfl, rfl, ?_⟩
        intro x hx1 hxN hxX
        refine hD x hx1 hxN ?_
        rintro (hc | hx)
        · have := chainFrom_zero x hc
          omega
        · exact hxX hx

end DenseUpd3

section DenseUpd4

variable {T U : Type} [DecidableEq U]
variable (op : T → T → T) (updVal : T → U → T) (updLazy : U → U → U)

/-- Update, unfolded: leaf pre-writes, the covering walk, then the two
recalculation passes. -/
theorem dUpdate_unfold (s : DState T U) (l r : Nat) (v : U) :
    DUpdate op updVal updLazy s l r v =
      drecalc op updVal
        (drecalc op updVal
          (walkU updVal updLazy (r + s.N + 1)
            ((if (l + s.N) % 2 = 1 then l + s.N + 1 else l + s.N) / 2)
            ((if (r + s.N) % 2 = 1 then r + s.N - 1 else r + s.N) / 2) v
            (if (r + s.N) % 2 = 1
              then tstore updVal
                (if (l + s.N) % 2 = 1 then tstore updVal s (l + s.N) v else s)
                (r + s.N - 1) v
              else (if (l + s.N) % 2 = 1 then tstore updVal s (l + s.N) v else s)))
          (l + s.N))
        (r + s.N - 1) := rfl

/-- A nonempty in-bounds Update preserves the fields, the node equation
everywhere, and the tag placement invariant: the walk may break the
equation only on the two boundary ancestor chains, and the two
recalculation passes restore exactly those chains. -/
theorem dupdate_pres (N : Nat) (iU : U)
    (hcompat : ∀ t u1 u2, updVal (updVal t u1) u2 = updVal t (updLazy u1 u2))
    (hN : 1 ≤ N) (s : DState T U) (hsN : s.N = N) (hsU : s.idUpd = iU)
    (l r : Nat) (v : U) (hlr : l < r) (hrN : r ≤ N)
    (hD : DInv op updVal s) (hL : LzInv s) :
    (DUpdate op updVal updLazy s l r v).N = N ∧
    (DUpdate op updVal updLazy s l r v).LOG = s.LOG ∧
    (DUpdate op updVal updLazy s l r v).idOp = s.idOp ∧
    (DUpdate op updVal updLazy s l r v).idUpd = iU ∧
    DInv op updVal (DUpdate op updVal updLazy s l r v) ∧
    LzInv (DUpdate op updVal updLazy s l r v) := by
  rw [dUpdate_unfold, hsN]
  have hpre : ∀ s2 : DState T U,
      s2 = (if (r + N) % 2 = 1
          then tstore updVal
            (if (l + N) % 2 = 1 then tstore updVal s (l + N) v else s)
            (r + N - 1) v
          else (if (l + N) % 2 = 1 then tstore updVal s (l + N) v else s)) →
      s2.N = N ∧ s2.LOG = s.LOG ∧ s2.idOp = s.idOp ∧ s2.idUpd = iU ∧
      s2.lz = s.lz ∧ DInvX op updVal s2 (BSet (l + N) (r + N)) := by
    have hstep1 : ∀ s1 : DState T U,
        s1 = (if (l + N) % 2 = 1 then tstore updVal s (l + N) v else s) →
        s1.N = N ∧ s1.LOG = s.LOG ∧ s1.idOp = s.idOp ∧ s1.idUpd = iU ∧
        s1.lz = s.lz ∧ DInvX op updVal s1 (BSet (l + N) (r + N)) := by
      intro s1 h1
      by_cases hodd : (l + N) % 2 = 1
      · rw [h1, if_pos hodd]
        refine ⟨hsN, rfl, rfl, hsU, rfl, ?_⟩
        refine tstore_pres op updVal s (l + N) v _ (by omega) ?_
          (dinvx_of_dinv op updVal s _ hD)
        exact Or.inl ⟨1, le_rfl, (Nat.shiftRight_one (l + N)).symm⟩
      · rw [h1, if_neg hodd]
        exact ⟨hsN, rfl, rfl, hsU, rfl, dinvx_of_dinv op updVal s _ hD⟩
    intro s2 h2
    obtain ⟨g1N, g1LOG, g1O, g1U, g1lz, g1D⟩ := hstep1 _ rfl
    by_cases hodd : (r + N) % 2 = 1
    · rw [h2, if_pos hodd]
      refine ⟨g1N, g1LOG, g1O, g1U, g1lz, ?_⟩
      refine tstore_pres op updVal _ (r + N - 1) v _ (by omega) ?_ g1D
      exact Or.inr ⟨1, le_rfl, (Nat.shiftRight_one (r + N - 1)).symm⟩
    · rw [h2, if_neg hodd]
      exact ⟨g1N, g1LOG, g1O, g1U, g1lz, g1D⟩
  obtain ⟨h2N, h2LOG, h2O, h2U, h2lz, h2D⟩ := hpre _ rfl
  have h2L : LzInv (if (r + N) % 2 = 1
      then tstore updVal
        (if (l + N) % 2 = 1 then tstore updVal s (l + N) v else s)
        (r + N - 1) v
      else (if (l + N) % 2 = 1 then tstore updVal s (l + N) v else s)) :=
    lzInv_transport _ _ (by rw [h2N, hsN]) (by rw [h2U, hsU]) h2lz hL
  have hc1 : (if (l + N) % 2 = 1 then l + N + 1 else l + N) / 2
      = ceilSeq (l + N) 1 := by
    have he : ceilSeq (l + N) 1 = (l + N + 1) / 2 := rfl
    rw [he]
    split_ifs with h <;> omega
  have hc2 : (if (r + N) % 2 = 1 then r + N - 1 else r + N) / 2
      = floorSeq (r + N) 1 := by
    have he : floorSeq (r + N) 1 = (r + N) / 2 := rfl
    rw [he]
    split_ifs with h <;> omega
  rw [hc1, hc2]
  have hwalk := walkU_pres op updVal updLazy N (l + N) (r + N) iU hcompat hN
    (by omega) (by omega) (r + N + 1) 1 _ v (by omega) h2N h2U h2D h2L
  obtain ⟨h3N, h3LOG, h3O, h3U, h3D, h3L⟩ := hwalk
  simp only [drecalc]
  have hrc1 := recalcUp_fix op updVal (IsAnc (r + N - 1)) (l + N) ((l + N) / 2) _
    (by omega) (show (l + N) / 2 < _ by rw [h3N]; omega)
    (dinvx_mono op updVal _ _ _
      (fun i hi => by
        rcases hi with ha | hb
        · exact Or.inl ((isAnc_iff_chainFrom _ _).mp ha)
        · exact Or.inr hb) h3D)
  obtain ⟨h4N, h4LOG, h4O, h4U, h4lz, h4D⟩ := hrc1
  have hrc2 := recalcUp_fix op updVal (fun _ => False) (r + N - 1) ((r + N - 1) / 2) _
    (by omega) (show (r + N - 1) / 2 < _ by rw [h4N, h3N]; omega)
    (dinvx_mono op updVal _ _ _
      (fun i hi => Or.inl ((isAnc_iff_chainFrom _ _).mp hi)) h4D)
  obtain ⟨h5N, h5LOG, h5O, h5U, h5lz, h5D⟩ := hrc2
  refine ⟨by rw [h5N, h4N, h3N], by rw [h5LOG, h4LOG, h3LOG, h2LOG],
    by rw [h5O, h4O, h3O, h2O], by rw [h5U, h4U, h3U],
    dinv_of_dinvx op updVal _ h5D, ?_⟩
  refine lzInv_transport _ _ (by rw [h5N, h4N]) (by rw [h5U, h4U, h3U]) ?_ h3L
  rw [h5lz, h4lz]

end DenseUpd4

section DenseInit

variable {T U : Type} [DecidableEq U]
variable (op : T → T → T) (updVal : T → U → T) (updLazy : U → U → U)

/-- The bottom-up build loop of the range constructor: positions above the
counter are untouched, and afterwards every internal node stores the
combination of its children. -/
theorem buildDown_spec :
    ∀ m (s : DState T U), m < s.N →
      (∀ x, m < x → x < s.N → s.t x = op (s.t (2 * x)) (s.t (2 * x + 1))) →
      (buildDown op s m).N = s.N ∧ (buildDown op s m).LOG = s.LOG ∧
      (buildDown op s m).idOp = s.idOp ∧ (buildDown op s m).idUpd = s.idUpd ∧
      (buildDown op s m).lz = s.lz ∧
      (∀ x, 1 ≤ x → x < s.N →
        (buildDown op s m).t x
          = op ((buildDown op s m).t (2 * x)) ((buildDown op s m).t (2 * x + 1))) := by
  intro m
  induction m with
  | zero =>
      intro s hm hhigh
      exact ⟨rfl, rfl, rfl, rfl, rfl, fun x hx1 hx2 => hhigh x (by omega) hx2⟩
  | succ m ih =>
      intro s hm hhigh
      have hstep : buildDown op s (m + 1)
          = buildDown op { s with t := fupd s.t (m + 1) (op (s.t (2 * (m + 1))) (s.t (2 * (m + 1) + 1))) } m := by
        simp only [buildDown]
      rw [hstep]
      have hrec := ih
        { s with t := fupd s.t (m + 1) (op (s.t (2 * (m + 1))) (s.t (2 * (m + 1) + 1))) }
        (by dsimp only; omega) ?_
      · exact ⟨hrec.1, hrec.2.1, hrec.2.2.1, hrec.2.2.2.1, hrec.2.2.2.2.1,
          hrec.2.2.2.2.2⟩
      · intro x hx1 hx2
        have hx2b : x < s.N := hx2
        dsimp only
        by_cases hxm : x = m + 1
        · rw [hxm, fupd_same, fupd_other _ _ _ _ (by omega),
            fupd_other _ _ _ _ (by omega)]
        · rw [fupd_other _ _ _ _ (by omega), fupd_other _ _ _ _ (by omega),
            fupd_other _ _ _ _ (by omega)]
          exact hhigh x (by omega) hx2b

/-- The range constructor yields a state satisfying both invariants. -/
theorem denseOfList_init (iO : T) (iU : U) (xs : List T) (hxs : 1 ≤ xs.length)
    (hid : ∀ t, updVal t iU = t) :
    (denseOfList op xs iO iU).N = xs.length ∧
    (denseOfList op xs iO iU).LOG = bitLen xs.length ∧
    (denseOfList op xs iO iU).idOp = iO ∧
    (denseOfList op xs iO iU).idUpd = iU ∧
    DInv op updVal (denseOfList op xs iO iU) ∧
    LzInv (denseOfList op xs iO iU) := by
  have hEq : denseOfList op xs iO iU
      = buildDown op { N := xs.length, LOG := bitLen xs.length, idOp := iO, idUpd := iU, t := fun j => if xs.length ≤ j ∧ j < 2 * xs.length then xs.getD (j - xs.length) iO else iO, lz := fun _ => iU } (xs.length - 1) := rfl
  have hb := buildDown_spec op (xs.length - 1) { N := xs.length, LOG := bitLen xs.length, idOp := iO, idUpd := iU, t := fun j => if xs.length ≤ j ∧ j < 2 * xs.length then xs.getD (j - xs.length) iO else iO, lz := fun _ => iU }
    (by dsimp only; omega) (by intro x hx1 hx2; dsimp only at hx1 hx2 ⊢; omega)
  rw [hEq]
  refine ⟨hb.1, hb.2.1, hb.2.2.1, hb.2.2.2.1, ?_, ?_⟩
  · intro i h1 h2
    rw [hb.1] at h2
    have hlz : (buildDown op { N := xs.length, LOG := bitLen xs.length, idOp := iO, idUpd := iU, t := fun j => if xs.length ≤ j ∧ j < 2 * xs.length then xs.getD (j - xs.length) iO else iO, lz := fun _ => iU } (xs.length - 1)).lz i = iU := by
      rw [hb.2.2.2.2.1]
    rw [hlz, hid]
    exact hb.2.2.2.2.2 i h1 h2
  · intro x hx hne
    have hlz : (buildDown op { N := xs.length, LOG := bitLen xs.length, idOp := iO, idUpd := iU, t := fun j => if xs.length ≤ j ∧ j < 2 * xs.length then xs.getD (j - xs.length) iO else iO, lz := fun _ => iU } (xs.length - 1)).lz x = iU := by
      rw [hb.2.2.2.2.1]
    have hiu : (buildDown op { N := xs.length, LOG := bitLen xs.length, idOp := iO, idUpd := iU, t := fun j => if xs.length ≤ j ∧ j < 2 * xs.length then xs.getD (j - xs.length) iO else iO, lz := fun _ => iU } (xs.length - 1)).idUpd = iU := hb.2.2.2.1
    rw [hlz, hiu] at hne
    exact absurd rfl hne

/-- The size constructor yields a state satisfying both invariants,
provided idOp is idempotent under op. -/
theorem denseOfSize_init (iO : T) (iU : U) (n : Nat)
    (hid : ∀ t, updVal t iU = t) (hopid : op iO iO = iO) :
    (denseOfSize n iO iU : DState T U).N = n ∧
    (denseOfSize n iO iU : DState T U).LOG = bitLen n - 1 ∧
    (denseOfSize n iO iU : DState T U).idOp = iO ∧
    (denseOfSize n iO iU : DState T U).idUpd = iU ∧
    DInv op updVal (denseOfSize n iO iU : DState T U) ∧
    LzInv (denseOfSize n iO iU : DState T U) := by
  refine ⟨rfl, rfl, rfl, rfl, ?_, ?_⟩
  · intro i h1 h2
    show iO = updVal (op iO iO) iU
    rw [hopid, hid]
  · intro x hx hne
    exact absurd rfl hne

/-- Running any list of nonempty in-bounds calls preserves the fields and
both invariants. -/
theorem denseRun_pres (N : Nat) (iU : U)
    (hid : ∀ t, updVal t iU = t)
    (hcompat : ∀ t u1 u2, updVal (updVal t u1) u2 = updVal t (updLazy u1 u2))
    (hdist : ∀ a b u, updVal (op a b) u = op (updVal a u) (updVal b u))
    (hN : 1 ≤ N) :
    ∀ ops (s : DState T U), s.N = N → s.idUpd = iU →
      (∀ o ∈ ops, DOpInBounds N o) → DInv op updVal s → LzInv s →
      (denseRun op updVal updLazy s ops).2.N = N ∧
      (denseRun op updVal updLazy s ops).2.LOG = s.LOG ∧
      (denseRun op updVal updLazy s ops).2.idOp = s.idOp ∧
      (denseRun op updVal updLazy s ops).2.idUpd = iU ∧
      DInv op updVal (denseRun op updVal updLazy s ops).2 ∧
      LzInv (denseRun op updVal updLazy s ops).2 := by
  intro ops
  induction ops with
  | nil =>
      intro s hsN hsU hops hD hL
      exact ⟨hsN, rfl, rfl, hsU, hD, hL⟩
  | cons o rest ih =>
      intro s hsN hsU hops hD hL
      match o with
      | DOp.upd l r v =>
          have hb : l < r ∧ r ≤ N := hops _ (List.mem_cons_self _ _)
          have hu := dupdate_pres op updVal updLazy N iU hcompat hN s hsN hsU
            l r v hb.1 hb.2 hD hL
          have hrec := ih (DUpdate op updVal updLazy s l r v) hu.1 hu.2.2.2.1
            (fun o2 ho => hops o2 (List.mem_cons_of_mem _ ho))
            hu.2.2.2.2.1 hu.2.2.2.2.2
          simp only [denseRun]
          exact ⟨hrec.1, hrec.2.1.trans hu.2.1, hrec.2.2.1.trans hu.2.2.1,
            hrec.2.2.2.1, hrec.2.2.2.2.1, hrec.2.2.2.2.2⟩
      | DOp.qry l r =>
          have hb : l < r ∧ r ≤ N := hops _ (List.mem_cons_self _ _)
          have hq := dquery_pres op updVal updLazy N iU hid hcompat hdist hN s hsN
            hsU l r hb.1 hb.2 hD hL
          have hrec := ih (DQuery op updVal updLazy s l r).2 hq.1 hq.2.2.2.1
            (fun o2 ho => hops o2 (List.mem_cons_of_mem _ ho))
            hq.2.2.2.2.1 hq.2.2.2.2.2
          simp only [denseRun]
          exact ⟨hrec.1, hrec.2.1.trans hq.2.1, hrec.2.2.1.trans hq.2.2.1,
            hrec.2.2.2.1, hrec.2.2.2.2.1, hrec.2.2.2.2.2⟩

end DenseInit

/-- The min/add client satisfies the dense algebra laws: adding 0 is the
identity, additive updates compose by addition, and addition distributes
over min. -/
theorem minAddDLaws : DLaws intMin addOp addOp INF 0 := by
  refine ⟨?_, ?_, ?_, ?_⟩ <;> intros <;> simp only [intMin, addOp] <;>
    (try split_ifs) <;> omega

/-- C4 amended: for every state of the Dense tree reachable from the range
constructor by a sequence of nonempty in-bounds Update and Query calls,
under an algebra where the identity update changes nothing, updates compose
through updLazy, and updVal distributes over op, every internal node i
satisfies tree_[i] = updVal(op(tree_[2i], tree_[2i+1]), lazy_[i]): the
stored aggregate reflects exactly the updates recorded at the node or
below, with its own pending tag applied on top of its children. -/
theorem c4_amended {T U : Type} [DecidableEq U] (op : T → T → T)
    (updVal : T → U → T) (updLazy : U → U → U) (iO : T) (iU : U)
    (hlaws : DLaws op updVal updLazy iO iU)
    (xs : List T) (hxs : 1 ≤ xs.length)
    (ops : List (DOp U)) (hops : ∀ o ∈ ops, DOpInBounds xs.length o) :
    DInv op updVal (denseRun op updVal updLazy (denseOfList op xs iO iU) ops).2 := by
  obtain ⟨hid, hcompat, hdist, hopid⟩ := hlaws
  have hinit := denseOfList_init op updVal iO iU xs hxs hid
  have hrun := denseRun_pres op updVal updLazy xs.length iU hid hcompat hdist hxs
    ops (denseOfList op xs iO iU) hinit.1 hinit.2.2.2.1 hops
    hinit.2.2.2.2.1 hinit.2.2.2.2.2
  exact hrun.2.2.2.2.1

/-- C4 witness: the min/add client on the tree built from [1, 2], after a
full-range update and a full-range query, satisfies the node equation at
every internal node. -/
theorem c4_witness :
    DLaws intMin addOp addOp INF 0 ∧
    1 ≤ ([1, 2] : List Int).length ∧
    (∀ o ∈ [DOp.upd 0 2 (3 : Int), DOp.qry 0 2],
      DOpInBounds ([1, 2] : List Int).length o) ∧
    DInv intMin addOp
      (denseRun intMin addOp addOp (denseOfList intMin [1, 2] INF 0)
        [DOp.upd 0 2 (3 : Int), DOp.qry 0 2]).2 :=
  ⟨minAddDLaws, by decide,
    by
      intro o ho
      simp only [List.mem_cons, List.not_mem_nil, or_false] at ho
      rcases ho with rfl | rfl <;> exact ⟨by decide, by decide⟩,
    c4_amended intMin addOp addOp INF 0 minAddDLaws [1, 2] (by decide)
      [DOp.upd 0 2 (3 : Int), DOp.qry 0 2]
      (by
        intro o ho
        simp only [List.mem_cons, List.not_mem_nil, or_false] at ho
        rcases ho with rfl | rfl <;> exact ⟨by decide, by decide⟩)⟩

section DenseCtor

variable {T U : Type} [DecidableEq U]
variable (op : T → T → T) (updVal : T → U → T) (updLazy : U → U → U)

/-- The Update walk preserves the fields and the tag placement invariant,
with no algebra laws. -/
theorem walkU_lzinv (N l0 r0 : Nat)
    (hN : 1 ≤ N) (hl0 : N ≤ l0) (hr0 : r0 ≤ 2 * N) :
    ∀ f k s v, 1 ≤ k → s.N = N →
      (walkU updVal updLazy f (ceilSeq l0 k) (floorSeq r0 k) v s).N = N ∧
      (walkU updVal updLazy f (ceilSeq l0 k) (floorSeq r0 k) v s).LOG = s.LOG ∧
      (walkU updVal updLazy f (ceilSeq l0 k) (floorSeq r0 k) v s).idOp = s.idOp ∧
      (walkU updVal updLazy f (ceilSeq l0 k) (floorSeq r0 k) v s).idUpd = s.idUpd ∧
      (LzInv s → LzInv (walkU updVal updLazy f (ceilSeq l0 k) (floorSeq r0 k) v s)) := by
  intro f
  induction f with
  | zero =>
      intro k s v hk hsN
      exact ⟨hsN, rfl, rfl, rfl, fun h => h⟩
  | succ f ih =>
      intro k s v hk hsN
      by_cases hlr : ceilSeq l0 k < floorSeq r0 k
      · have hL1 : 1 ≤ ceilSeq l0 k := ceilSeq_pos l0 k (by omega)
        have hRN : floorSeq r0 k ≤ N := floorSeq_le_half r0 N k hk hr0
        have hTL : TagProp N (ceilSeq l0 k) := by
          refine ⟨k, hk, ?_, ?_⟩
          · have h1 := ceilSeq_lower l0 k
            have h2 : 2 ^ k * ceilSeq l0 k = ceilSeq l0 k * 2 ^ k := Nat.mul_comm _ _
            omega
          · have h1 := floorSeq_le r0 k
            have h2 : (ceilSeq l0 k + 1) * 2 ^ k ≤ floorSeq r0 k * 2 ^ k :=
              Nat.mul_le_mul_right _ (by omega)
            have h3 : floorSeq r0 k * 2 ^ k = 2 ^ k * floorSeq r0 k := Nat.mul_comm _ _
            omega
        have hTR : TagProp N (floorSeq r0 k - 1) := by
          refine ⟨k, hk, ?_, ?_⟩
          · have h1 := ceilSeq_lower l0 k
            have h2 : 2 ^ k * ceilSeq l0 k ≤ 2 ^ k * (floorSeq r0 k - 1) :=
              Nat.mul_le_mul_left _ (by omega)
            have h3 : 2 ^ k * (floorSeq r0 k - 1) = (floorSeq r0 k - 1) * 2 ^ k :=
              Nat.mul_comm _ _
            omega
          · have h1 := floorSeq_le r0 k
            have h2 : floorSeq r0 k - 1 + 1 = floorSeq r0 k := by omega
            rw [h2]
            have h3 : floorSeq r0 k * 2 ^ k = 2 ^ k * floorSeq r0 k := Nat.mul_comm _ _
            omega
        have heL : (if ceilSeq l0 k % 2 = 1 then ceilSeq l0 k + 1 else ceilSeq l0 k) / 2
            = ceilSeq l0 (k + 1) := by
          simp only [ceilSeq]
          split_ifs <;> omega
        have heR : (if floorSeq r0 k % 2 = 1 then floorSeq r0 k - 1 else floorSeq r0 k) / 2
            = floorSeq r0 (k + 1) := by
          simp only [floorSeq]
          split_ifs <;> omega
        rw [walkU_step updVal updLazy f (ceilSeq l0 k) (floorSeq r0 k) v s hlr,
          heL, heR]
        have hs1 : ∀ s1 : DState T U,
            s1 = (if ceilSeq l0 k % 2 = 1
                then tagWrite updVal updLazy s (ceilSeq l0 k) v else s) →
            s1.N = N ∧ s1.LOG = s.LOG ∧ s1.idOp = s.idOp ∧ s1.idUpd = s.idUpd ∧
            (LzInv s → LzInv s1) := by
          intro s1 h1
          by_cases hlodd : ceilSeq l0 k % 2 = 1
          · rw [h1, if_pos hlodd]
            exact ⟨hsN, rfl, rfl, rfl,
              fun hL => tagWrite_lzinv updVal updLazy N s hsN _ v hTL hL⟩
          · rw [h1, if_neg hlodd]
            exact ⟨hsN, rfl, rfl, rfl, fun h => h⟩
        obtain ⟨g1N, g1LOG, g1O, g1U, g1L⟩ := hs1 _ rfl
        have hs2 : ∀ s2 : DState T U,
            s2 = (if floorSeq r0 k % 2 = 1
                then tagWrite updVal updLazy
                  (if ceilSeq l0 k % 2 = 1
                    then tagWrite updVal updLazy s (ceilSeq l0 k) v else s)
                  (floorSeq r0 k - 1) v
                else (if ceilSeq l0 k % 2 = 1
                  then tagWrite updVal updLazy s (ceilSeq l0 k) v else s)) →
            s2.N = N ∧ s2.LOG = s.LOG ∧ s2.idOp = s.idOp ∧ s2.idUpd = s.idUpd ∧
            (LzInv s → LzInv s2) := by
          intro s2 h2
          by_cases hrodd : floorSeq r0 k % 2 = 1
          · rw [h2, if_pos hrodd]
            exact ⟨g1N, g1LOG, g1O, g1U,
              fun hL => tagWrite_lzinv updVal updLazy N _ g1N _ v hTR (g1L hL)⟩
          · rw [h2, if_neg hrodd]
            exact ⟨g1N, g1LOG, g1O, g1U, g1L⟩
        obtain ⟨g2N, g2LOG, g2O, g2U, g2L⟩ := hs2 _ rfl
        have hrec := ih (k + 1) _ v (by omega) g2N
        exact ⟨hrec.1, hrec.2.1.trans g2LOG, hrec.2.2.1.trans g2O,
          hrec.2.2.2.1.trans g2U, fun hL => hrec.2.2.2.2 (g2L hL)⟩
      · rw [walkU_exit updVal updLazy (f + 1) _ _ v s hlr]
        exact ⟨hsN, rfl, rfl, rfl, fun h => h⟩

/-- The recalculation walk never touches the fields or the tags. -/
theorem recalcUp_frame :
    ∀ f pos (s : DState T U),
      (recalcUp op updVal f pos s).N = s.N ∧
      (recalcUp op updVal f pos s).LOG = s.LOG ∧
      (recalcUp op updVal f pos s).idOp = s.idOp ∧
      (recalcUp op updVal f pos s).idUpd = s.idUpd ∧
      (recalcUp op updVal f pos s).lz = s.lz := by
  intro f
  induction f with
  | zero => intro pos s; exact ⟨rfl, rfl, rfl, rfl, rfl⟩
  | succ f ih =>
      intro pos s
      by_cases hp : 0 < pos
      · have hstep : recalcUp op updVal (f + 1) pos s
            = recalcUp op updVal f (pos / 2)
                { s with t := fupd s.t pos (updVal (op (s.t (2 * pos)) (s.t (2 * pos + 1))) (s.lz pos)) } := by
          simp only [recalcUp]
          rw [if_pos hp]
        rw [hstep]
        have hrec := ih (pos / 2)
          { s with t := fupd s.t pos (updVal (op (s.t (2 * pos)) (s.t (2 * pos + 1))) (s.lz pos)) }
        exact hrec
      · have hstep : recalcUp op updVal (f + 1) pos s = s := by
          simp only [recalcUp]
          rw [if_neg hp]
        rw [hstep]
        exact ⟨rfl, rfl, rfl, rfl, rfl⟩

/-- Update preserves the fields and the tag placement invariant for any
in-bounds range, empty ranges included, with no algebra laws. -/
theorem dupdate_lzinv (N : Nat) (hN : 1 ≤ N) (s : DState T U) (hsN : s.N = N)
    (l r : Nat) (v : U) (hlN : l ≤ N) (hrN : r ≤ N) :
    (DUpdate op updVal updLazy s l r v).N = N ∧
    (DUpdate op updVal updLazy s l r v).LOG = s.LOG ∧
    (DUpdate op updVal updLazy s l r v).idOp = s.idOp ∧
    (DUpdate op updVal updLazy s l r v).idUpd = s.idUpd ∧
    (LzInv s → LzInv (DUpdate op updVal updLazy s l r v)) := by
  rw [dUpdate_unfold, hsN]
  have hc1 : (if (l + N) % 2 = 1 then l + N + 1 else l + N) / 2
      = ceilSeq (l + N) 1 := by
    have he : ceilSeq (l + N) 1 = (l + N + 1) / 2 := rfl
    rw [he]
    split_ifs with h <;> omega
  have hc2 : (if (r + N) % 2 = 1 then r + N - 1 else r + N) / 2
      = floorSeq (r + N) 1 := by
    have he : floorSeq (r + N) 1 = (r + N) / 2 := rfl
    rw [he]
    split_ifs with h <;> omega
  rw [hc1, hc2]
  have hpre : ∀ s2 : DState T U,
      s2 = (if (r + N) % 2 = 1
          then tstore updVal
            (if (l + N) % 2 = 1 then tstore updVal s (l + N) v else s)
            (r + N - 1) v
          else (if (l + N) % 2 = 1 then tstore updVal s (l + N) v else s)) →
      s2.N = N ∧ s2.LOG = s.LOG ∧ s2.idOp = s.idOp ∧ s2.idUpd = s.idUpd ∧
      s2.lz = s.lz := by
    intro s2 h2
    subst h2
    by_cases ho2 : (r + N) % 2 = 1
    · rw [if_pos ho2]
      by_cases ho1 : (l + N) % 2 = 1
      · rw [if_pos ho1]
        exact ⟨hsN, rfl, rfl, rfl, rfl⟩
      · rw [if_neg ho1]
        exact ⟨hsN, rfl, rfl, rfl, rfl⟩
    · rw [if_neg ho2]
      by_cases ho1 : (l + N) % 2 = 1
      · rw [if_pos ho1]
        exact ⟨hsN, rfl, rfl, rfl, rfl⟩
      · rw [if_neg ho1]
        exact ⟨hsN, rfl, rfl, rfl, rfl⟩
  obtain ⟨h2N, h2LOG, h2O, h2U, h2lz⟩ := hpre _ rfl
  have hwalk := walkU_lzinv updVal updLazy N (l + N) (r + N) hN (by omega)
    (by omega) (r + N + 1) 1 _ v (by omega) h2N
  obtain ⟨h3N, h3LOG, h3O, h3U, h3L⟩ := hwalk
  simp only [drecalc]
  have hr1 := recalcUp_frame op updVal (l + N) ((l + N) / 2)
    (walkU updVal updLazy (r + N + 1) (ceilSeq (l + N) 1) (floorSeq (r + N) 1) v
      (if (r + N) % 2 = 1
        then tstore updVal
          (if (l + N) % 2 = 1 then tstore updVal s (l + N) v else s)
          (r + N - 1) v
        else (if (l + N) % 2 = 1 then tstore updVal s (l + N) v else s)))
  obtain ⟨h4N, h4LOG, h4O, h4U, h4lz⟩ := hr1
  have hr2 := recalcUp_frame op updVal (r + N - 1) ((r + N - 1) / 2)
    (recalcUp op updVal (l + N) ((l + N) / 2)
      (walkU updVal updLazy (r + N + 1) (ceilSeq (l + N) 1) (floorSeq (r + N) 1) v
        (if (r + N) % 2 = 1
          then tstore updVal
            (if (l + N) % 2 = 1 then tstore updVal s (l + N) v else s)
            (r + N - 1) v
          else (if (l + N) % 2 = 1 then tstore updVal s (l + N) v else s))))
  obtain ⟨h5N, h5LOG, h5O, h5U, h5lz⟩ := hr2
  refine ⟨by rw [h5N, h4N, h3N], by rw [h5LOG, h4LOG, h3LOG, h2LOG],
    by rw [h5O, h4O, h3O, h2O], by rw [h5U, h4U, h3U, h2U], ?_⟩
  intro hL
  have hLs2 : LzInv (if (r + N) % 2 = 1
      then tstore updVal
        (if (l + N) % 2 = 1 then tstore updVal s (l + N) v else s)
        (r + N - 1) v
      else (if (l + N) % 2 = 1 then tstore updVal s (l + N) v else s)) :=
    lzInv_transport _ _ (by rw [h2N, hsN]) h2U h2lz hL
  have hLs3 := h3L hLs2
  refine lzInv_transport _ _ (by rw [h5N, h4N]) (by rw [h5U, h4U]) ?_ hLs3
  rw [h5lz, h4lz]

end DenseCtor

section DenseCtor2

variable {T U : Type} [DecidableEq U]
variable (op : T → T → T) (updVal : T → U → T) (updLazy : U → U → U)

theorem tstore_setLOG (s : DState T U) (L w : Nat) (v : U) :
    tstore updVal (setLOG s L) w v = setLOG (tstore updVal s w v) L := rfl

theorem tagWrite_setLOG (s : DState T U) (L w : Nat) (v : U) :
    tagWrite updVal updLazy (setLOG s L) w v
      = setLOG (tagWrite updVal updLazy s w v) L := rfl

theorem pushAt_setLOG (s : DState T U) (L i : Nat) :
    pushAt updVal updLazy (setLOG s L) i = setLOG (pushAt updVal updLazy s i) L := by
  by_cases h : s.lz i = s.idUpd
  · have h2 : (setLOG s L).lz i = (setLOG s L).idUpd := h
    rw [pushAt_skip _ _ _ _ h2, pushAt_skip _ _ _ _ h]
  · have h2 : ¬ (setLOG s L).lz i = (setLOG s L).idUpd := h
    unfold pushAt
    rw [if_neg h2, if_neg h]
    rfl

theorem finalPush_setLOG (s : DState T U) (L p : Nat) :
    finalPush updVal (setLOG s L) p = setLOG (finalPush updVal s p) L := by
  by_cases h : s.lz p = s.idUpd
  · have h2 : (setLOG s L).lz p = (setLOG s L).idUpd := h
    rw [finalPush_skip _ _ _ h2, finalPush_skip _ _ _ h]
  · have h2 : ¬ (setLOG s L).lz p = (setLOG s L).idUpd := h
    unfold finalPush
    rw [if_neg h2, if_neg h]
    rfl

theorem propDown_setLOG (pos : Nat) :
    ∀ c (s : DState T U) L,
      propDown updVal updLazy pos c (setLOG s L)
        = setLOG (propDown updVal updLazy pos c s) L := by
  intro c
  induction c using Nat.strong_induction_on with
  | _ c ih =>
    intro s L
    match c with
    | 0 => rfl
    | 1 => rfl
    | (k + 2) =>
        simp only [propDown]
        rw [pushAt_setLOG]
        exact ih (k + 1) (by omega) _ L

theorem walkU_setLOG :
    ∀ f l r (v : U) (s : DState T U) L,
      walkU updVal updLazy f l r v (setLOG s L)
        = setLOG (walkU updVal updLazy f l r v s) L := by
  intro f
  induction f with
  | zero => intro l r v s L; rfl
  | succ f ih =>
      intro l r v s L
      by_cases hlr : l < r
      · rw [walkU_step updVal updLazy f l r v (setLOG s L) hlr,
          walkU_step updVal updLazy f l r v s hlr]
        split_ifs <;> simp only [tagWrite_setLOG, ih]
      · rw [walkU_exit updVal updLazy (f + 1) l r v (setLOG s L) hlr,
          walkU_exit updVal updLazy (f + 1) l r v s hlr]

theorem recalcUp_setLOG :
    ∀ f pos (s : DState T U) L,
      recalcUp op updVal f pos (setLOG s L)
        = setLOG (recalcUp op updVal f pos s) L := by
  intro f
  induction f with
  | zero => intro pos s L; rfl
  | succ f ih =>
      intro pos s L
      by_cases hp : 0 < pos
      · have h1 : recalcUp op updVal (f + 1) pos (setLOG s L)
            = recalcUp op updVal f (pos / 2)
                (setLOG { s with t := fupd s.t pos (updVal (op (s.t (2 * pos)) (s.t (2 * pos + 1))) (s.lz pos)) } L) := by
          simp only [recalcUp]
          rw [if_pos hp]
          rfl
        have h2 : recalcUp op updVal (f + 1) pos s
            = recalcUp op updVal f (pos / 2)
                { s with t := fupd s.t pos (updVal (op (s.t (2 * pos)) (s.t (2 * pos + 1))) (s.lz pos)) } := by
          simp only [recalcUp]
          rw [if_pos hp]
        rw [h1, h2, ih]
      · have h1 : recalcUp op updVal (f + 1) pos (setLOG s L) = setLOG s L := by
          simp only [recalcUp]
          rw [if_neg hp]
        have h2 : recalcUp op updVal (f + 1) pos s = s := by
          simp only [recalcUp]
          rw [if_neg hp]
        rw [h1, h2]

theorem dUpdate_setLOG (s : DState T U) (L : Nat) (l r : Nat) (v : U) :
    DUpdate op updVal updLazy (setLOG s L) l r v
      = setLOG (DUpdate op updVal updLazy s l r v) L := by
  rw [dUpdate_unfold, dUpdate_unfold]
  show drecalc op updVal (drecalc op updVal (walkU updVal updLazy (r + s.N + 1)
      ((if (l + s.N) % 2 = 1 then l + s.N + 1 else l + s.N) / 2)
      ((if (r + s.N) % 2 = 1 then r + s.N - 1 else r + s.N) / 2) v
      (if (r + s.N) % 2 = 1
        then tstore updVal
          (if (l + s.N) % 2 = 1 then tstore updVal (setLOG s L) (l + s.N) v else setLOG s L)
          (r + s.N - 1) v
        else (if (l + s.N) % 2 = 1 then tstore updVal (setLOG s L) (l + s.N) v else setLOG s L)))
      (l + s.N)) (r + s.N - 1) = _
  have hpre : (if (r + s.N) % 2 = 1
        then tstore updVal
          (if (l + s.N) % 2 = 1 then tstore updVal (setLOG s L) (l + s.N) v else setLOG s L)
          (r + s.N - 1) v
        else (if (l + s.N) % 2 = 1 then tstore updVal (setLOG s L) (l + s.N) v else setLOG s L))
      = setLOG (if (r + s.N) % 2 = 1
        then tstore updVal
          (if (l + s.N) % 2 = 1 then tstore updVal s (l + s.N) v else s)
          (r + s.N - 1) v
        else (if (l + s.N) % 2 = 1 then tstore updVal s (l + s.N) v else s)) L := by
    by_cases ho2 : (r + s.N) % 2 = 1
    · rw [if_pos ho2, if_pos ho2]
      by_cases ho1 : (l + s.N) % 2 = 1
      · rw [if_pos ho1, if_pos ho1, tstore_setLOG, tstore_setLOG]
      · rw [if_neg ho1, if_neg ho1, tstore_setLOG]
    · rw [if_neg ho2, if_neg ho2]
      by_cases ho1 : (l + s.N) % 2 = 1
      · rw [if_pos ho1, if_pos ho1, tstore_setLOG]
      · rw [if_neg ho1, if_neg ho1]
  rw [hpre, walkU_setLOG]
  simp only [drecalc]
  rw [recalcUp_setLOG, recalcUp_setLOG]

end DenseCtor2

section DenseCtor3

variable {T U : Type} [DecidableEq U]
variable (op : T → T → T) (updVal : T → U → T) (updLazy : U → U → U)

/-- The extra top iteration of the range-constructor Propagate loop is a
no-op: the node it pushes at is the root slot 0 or node 1, and under the
tag placement invariant node 1 can carry a tag only when N is an exact
power of two, in which case that node is never reached by an in-range
position. -/
theorem propDown_top_noop (N : Nat) (hN : 1 ≤ N) (s : DState T U) (hsN : s.N = N)
    (hL : LzInv s) (pos : Nat) (hpos : pos ≤ 2 * N - 1) :
    propDown updVal updLazy pos (bitLen N) s
      = propDown updVal updLazy pos (bitLen N - 1) s := by
  rcases Nat.lt_or_ge (bitLen N) 2 with hb | hb
  · have h1 : 1 ≤ bitLen N := bitLenAux_pos N N hN hN
    have h2 : bitLen N = 1 := by omega
    rw [h2]
    rfl
  · obtain ⟨k, hk⟩ : ∃ k, bitLen N = k + 2 := ⟨bitLen N - 2, by omega⟩
    rw [hk, show k + 2 - 1 = k + 1 by omega]
    have hstep : propDown updVal updLazy pos (k + 2) s
        = propDown updVal updLazy pos (k + 1)
            (pushAt updVal updLazy s (pos >>> (k + 2))) := by
      simp only [propDown]
    rw [hstep]
    have hNb := bitLen_bounds N hN
    rw [hk, show k + 2 - 1 = k + 1 by omega] at hNb
    have hskip : s.lz (pos >>> (k + 2)) = s.idUpd := by
      have hi : pos >>> (k + 2) < 2 := by
        rw [Nat.shiftRight_eq_div_pow]
        by_contra hc
        push_neg at hc
        have h10 := (Nat.le_div_iff_mul_le (Nat.two_pow_pos (k + 2))).mp hc
        have h9 : 2 * 2 ^ (k + 2) = 2 ^ (k + 2) + 2 ^ (k + 2) := by ring
        omega
      rcases Nat.lt_or_ge (pos >>> (k + 2)) 1 with hi0 | hi1
      · have hieq : pos >>> (k + 2) = 0 := Nat.lt_one_iff.mp hi0
        rw [hieq]
        by_contra hne
        have h0 : TagProp s.N 0 := hL 0 (by omega) hne
        rw [hsN] at h0
        exact not_tagProp_zero N hN h0
      · have hieq : pos >>> (k + 2) = 1 :=
          Nat.le_antisymm (Nat.lt_succ_iff.mp hi) hi1
        rw [hieq]
        by_contra hne
        have h6 : (2 : Nat) ≤ 2 ^ (k + 1) := by
          calc (2 : Nat) = 2 ^ 1 := rfl
            _ ≤ 2 ^ (k + 1) := Nat.pow_le_pow_right (by omega) (by omega)
        have hT : TagProp s.N 1 := hL 1 (by omega) hne
        rw [hsN] at hT
        have hP := tagProp_one N hT
        rw [hk] at hP
        have hP2 : N = 2 ^ (k + 1) := by
          rw [hP]
          congr 1
        have h7 : 2 ^ (k + 2) ≤ pos := by
          rw [Nat.shiftRight_eq_div_pow] at hieq
          have hml := Nat.div_mul_le_self pos (2 ^ (k + 2))
          rw [hieq] at hml
          have h8 : 1 * 2 ^ (k + 2) = 2 ^ (k + 2) := by ring
          omega
        have h9 : 2 ^ (k + 2) = 2 * 2 ^ (k + 1) := by rw [pow_succ]; ring
        omega
    rw [pushAt_skip _ _ _ _ hskip]

/-- When the counter is the size-constructor LOG value, Propagate behaves
identically on the two trees: replacing LOG is transparent. -/
theorem dpropagate_setLOG (N : Nat) (hN : 1 ≤ N) (s : DState T U) (hsN : s.N = N)
    (hLOG : s.LOG = bitLen N) (hL : LzInv s) (pos : Nat) (hpos : pos ≤ 2 * N - 1) :
    dpropagate updVal updLazy (setLOG s (bitLen N - 1)) pos
      = setLOG (dpropagate updVal updLazy s pos) (bitLen N - 1) := by
  unfold dpropagate
  have h1 : (setLOG s (bitLen N - 1)).LOG = bitLen N - 1 := rfl
  rw [h1, hLOG, propDown_setLOG, finalPush_setLOG,
    propDown_top_noop updVal updLazy N hN s hsN hL pos hpos]

/-- Query preserves the fields and the tag placement invariant, empty
ranges included, with no laws. -/
theorem dquery_lzinv (N : Nat) (hN : 1 ≤ N) (s : DState T U) (hsN : s.N = N)
    (l r : Nat) (hl : l ≤ N) (hr : r ≤ N) (hL : LzInv s) :
    ((DQuery op updVal updLazy s l r).2).N = N ∧
    ((DQuery op updVal updLazy s l r).2).LOG = s.LOG ∧
    ((DQuery op updVal updLazy s l r).2).idOp = s.idOp ∧
    ((DQuery op updVal updLazy s l r).2).idUpd = s.idUpd ∧
    LzInv ((DQuery op updVal updLazy s l r).2) := by
  rw [dquery_snd]
  have h1 := dpropagate_lzinv updVal updLazy N hN s hsN (l + s.N) (by omega) hL
  have h2 := dpropagate_lzinv updVal updLazy N hN
    (dpropagate updVal updLazy s (l + s.N)) h1.1 (r + s.N - 1) (by omega)
    h1.2.2.2.2
  exact ⟨h2.1, h2.2.1.trans h1.2.1, h2.2.2.1.trans h1.2.2.1,
    h2.2.2.2.1.trans h1.2.2.2.1, h2.2.2.2.2⟩

/-- Query behaves identically on the two trees, returning the same value
and LOG-transparent states, on nonempty in-bounds ranges. -/
theorem dquery_setLOG (N : Nat) (hN : 1 ≤ N) (s : DState T U) (hsN : s.N = N)
    (hLOG : s.LOG = bitLen N) (hL : LzInv s) (l r : Nat) (hlr : l < r) (hrN : r ≤ N) :
    DQuery op updVal updLazy (setLOG s (bitLen N - 1)) l r
      = ((DQuery op updVal updLazy s l r).1,
         setLOG ((DQuery op updVal updLazy s l r).2) (bitLen N - 1)) := by
  unfold DQuery
  dsimp only
  have hsn2 : (setLOG s (bitLen N - 1)).N = s.N := rfl
  rw [hsn2]
  have hp1 := dpropagate_setLOG updVal updLazy N hN s hsN hLOG hL (l + s.N) (by omega)
  rw [hp1]
  have hmid := dpropagate_lzinv updVal updLazy N hN s hsN (l + s.N) (by omega) hL
  have hp2 := dpropagate_setLOG updVal updLazy N hN
    (dpropagate updVal updLazy s (l + s.N)) hmid.1 (hmid.2.1.trans hLOG)
    hmid.2.2.2.2 (r + s.N - 1) (by omega)
  rw [hp2]
  rfl

/-- The bottom-up build loop is the identity when all aggregate slots hold
an idempotent value. -/
theorem buildDown_const (iO : T) (hopid : op iO iO = iO) :
    ∀ m (s : DState T U), s.t = (fun _ => iO) → buildDown op s m = s := by
  intro m
  induction m with
  | zero => intro s h; rfl
  | succ m ih =>
      intro s h
      have hv : op (s.t (2 * (m + 1))) (s.t (2 * (m + 1) + 1)) = s.t (m + 1) := by
        rw [h]
        exact hopid
      have he : { s with t := fupd s.t (m + 1) (op (s.t (2 * (m + 1))) (s.t (2 * (m + 1) + 1))) } = s := by
        rw [hv, fupd_self]
      simp only [buildDown]
      rw [he]
      exact ih s h

theorem dstate_ext (s1 s2 : DState T U) (h1 : s1.N = s2.N) (h2 : s1.LOG = s2.LOG)
    (h3 : s1.idOp = s2.idOp) (h4 : s1.idUpd = s2.idUpd) (h5 : s1.t = s2.t)
    (h6 : s1.lz = s2.lz) : s1 = s2 := by
  cases s1
  cases s2
  simp_all

/-- The range constructor on N copies of idOp builds the all-identity
state. -/
theorem denseOfList_replicate_eq (iO : T) (iU : U) (hopid : op iO iO = iO) (N : Nat) :
    denseOfList op (List.replicate N iO) iO iU
      = { N := N, LOG := bitLen N, idOp := iO, idUpd := iU,
          t := fun _ => iO, lz := fun _ => iU } := by
  have ht0 : (fun j => if (List.replicate N iO).length ≤ j ∧ j < 2 * (List.replicate N iO).length then (List.replicate N iO).getD (j - (List.replicate N iO).length) iO else iO) = (fun _ => (iO : T)) := by
    funext j
    split_ifs with hcond
    · rw [List.getD_eq_getElem?_getD, List.getElem?_replicate]
      split_ifs <;> rfl
    · rfl
  have hEq : denseOfList op (List.replicate N iO) iO iU
      = buildDown op
          { N := (List.replicate N iO).length, LOG := bitLen (List.replicate N iO).length, idOp := iO, idUpd := iU,
            t := fun j => if (List.replicate N iO).length ≤ j ∧ j < 2 * (List.replicate N iO).length then (List.replicate N iO).getD (j - (List.replicate N iO).length) iO else iO,
            lz := fun _ => iU }
          ((List.replicate N iO).length - 1) := rfl
  rw [hEq, buildDown_const op iO hopid _ _ ht0]
  refine dstate_ext _ _ ?_ ?_ rfl rfl ?_ rfl
  · exact List.length_replicate _ _
  · show bitLen (List.replicate N iO).length = bitLen N
    rw [List.length_replicate]
  · exact ht0

/-- The size constructor is exactly the range constructor on N identity
copies with a decremented LOG field. -/
theorem denseOfSize_eq_setLOG (iO : T) (iU : U) (hopid : op iO iO = iO) (N : Nat) :
    (denseOfSize N iO iU : DState T U)
      = setLOG (denseOfList op (List.replicate N iO) iO iU) (bitLen N - 1) := by
  rw [denseOfList_replicate_eq op iO iU hopid N]
  rfl

end DenseCtor3

section DenseCtor4

variable {T U : Type} [DecidableEq U]
variable (op : T → T → T) (updVal : T → U → T) (updLazy : U → U → U)

/-- Running any sequence of nonempty in-bounds calls on the
LOG-decremented tree produces the same outputs and the LOG-decremented
final state. -/
theorem denseRun_size_eq (N : Nat) (hN : 1 ≤ N) :
    ∀ ops (s : DState T U), s.N = N → s.LOG = bitLen N → LzInv s →
      (∀ o ∈ ops, DOpInBounds N o) →
      denseRun op updVal updLazy (setLOG s (bitLen N - 1)) ops
        = ((denseRun op updVal updLazy s ops).1,
           setLOG ((denseRun op updVal updLazy s ops).2) (bitLen N - 1)) := by
  intro ops
  induction ops with
  | nil => intro s hsN hsLOG hL hops; rfl
  | cons o rest ih =>
      intro s hsN hsLOG hL hops
      match o with
      | DOp.upd l r v =>
          have hb : l < r ∧ r ≤ N := hops _ (List.mem_cons_self _ _)
          simp only [denseRun]
          rw [dUpdate_setLOG]
          have hu := dupdate_lzinv op updVal updLazy N hN s hsN l r v
            (by omega) hb.2
          exact ih (DUpdate op updVal updLazy s l r v) hu.1 (hu.2.1.trans hsLOG)
            (hu.2.2.2.2 hL) (fun o2 ho => hops o2 (List.mem_cons_of_mem _ ho))
      | DOp.qry l r =>
          have hb : l < r ∧ r ≤ N := hops _ (List.mem_cons_self _ _)
          simp only [denseRun]
          rw [dquery_setLOG op updVal updLazy N hN s hsN hsLOG hL l r hb.1 hb.2]
          dsimp only
          have hq := dquery_lzinv op updVal updLazy N hN s hsN l r (by omega)
            (by omega) hL
          rw [ih (DQuery op updVal updLazy s l r).2 hq.1 (hq.2.1.trans hsLOG)
            hq.2.2.2.2 (fun o2 ho => hops o2 (List.mem_cons_of_mem _ ho))]

end DenseCtor4

/-- C10 counterexample: with the min/add client (which has identities for
both the aggregate and the update), the size constructor and the
constructor from N copies of idOp are distinguishable by an in-bounds call
sequence containing empty boundary ranges: on N = 2, after Update(0,2,-2),
Query(2,2), Update(2,2,3), the observation Query(0,1) returns idUpd-shifted
values that differ, because the boundary calls at position N read and write
the out-of-range slots whose contents depend on LOG_. -/
theorem c10_counterexample :
    MinAddLawful ∧ (∀ o ∈ c10Ops, DOpInBoundsW 2 o) ∧
    c10ListRun = [INF, INF - 2] ∧ c10SizeRun = [INF, INF] ∧
    ¬ (c10SizeRun = c10ListRun) := by
  refine ⟨minAddLawful, ?_, by decide, by decide, by decide⟩
  intro o ho
  simp only [c10Ops, List.mem_cons, List.not_mem_nil, or_false] at ho
  rcases ho with rfl | rfl | rfl | rfl <;> exact ⟨by decide, by decide⟩

/-- C10 amended: for every size N >= 1 and every client whose idOp is
idempotent under op (as any identity element is), the Dense tree built with
the size constructor is observationally equivalent to the Dense tree built
from N copies of idOp on every sequence of nonempty in-bounds Update and
Query calls: the Query outputs coincide at every step. -/
theorem c10_amended {T U : Type} [DecidableEq U] (op : T → T → T)
    (updVal : T → U → T) (updLazy : U → U → U) (iO : T) (iU : U)
    (hopid : op iO iO = iO) (N : Nat) (hN : 1 ≤ N)
    (ops : List (DOp U)) (hops : ∀ o ∈ ops, DOpInBounds N o) :
    (denseRun op updVal updLazy (denseOfSize N iO iU) ops).1
      = (denseRun op updVal updLazy
          (denseOfList op (List.replicate N iO) iO iU) ops).1 := by
  have he := denseOfList_replicate_eq op iO iU hopid N
  rw [denseOfSize_eq_setLOG op iO iU hopid N]
  rw [denseRun_size_eq op updVal updLazy N hN ops
    (denseOfList op (List.replicate N iO) iO iU)
    (by rw [he]) (by rw [he]) ?_ hops]
  intro x hx hne
  rw [he] at hne
  exact absurd rfl hne

/-- C10 witness: the min/add client on N = 3 with a full-range update and a
full-range query yields identical outputs on the two constructions. -/
theorem c10_witness :
    intMin INF INF = INF ∧ 1 ≤ 3 ∧
    (∀ o ∈ [DOp.upd 0 3 (5 : Int), DOp.qry 0 3], DOpInBounds 3 o) ∧
    (denseRun intMin addOp addOp (denseOfSize 3 INF 0)
        [DOp.upd 0 3 (5 : Int), DOp.qry 0 3]).1
      = (denseRun intMin addOp addOp
          (denseOfList intMin (List.replicate 3 INF) INF 0)
          [DOp.upd 0 3 (5 : Int), DOp.qry 0 3]).1 := by
  refine ⟨by decide, by decide, ?_, ?_⟩
  · intro o ho
    simp only [List.mem_cons, List.not_mem_nil, or_false] at ho
    rcases ho with rfl | rfl <;> exact ⟨by decide, by decide⟩
  · exact c10_amended intMin addOp addOp INF 0 (by decide) 3 (by decide)
      [DOp.upd 0 3 (5 : Int), DOp.qry 0 3]
      (by
        intro o ho
        simp only [List.mem_cons, List.not_mem_nil, or_false] at ho
        rcases ho with rfl | rfl <;> exact ⟨by decide, by decide⟩)

section DenseClear

variable {T U : Type} [DecidableEq U]
variable (op : T → T → T) (updVal : T → U → T) (updLazy : U → U → U)

theorem shiftRight_le_self (q n : Nat) : q >>> n ≤ q := by
  rw [Nat.shiftRight_eq_div_pow]
  exact Nat.div_le_self _ _

theorem shiftRight_antitone (q a b : Nat) (h : a ≤ b) : q >>> b ≤ q >>> a := by
  rw [show b = a + (b - a) by omega, Nat.shiftRight_add]
  exact shiftRight_le_self _ _

theorem shiftRight_halving (q m : Nat) :
    2 * (q >>> (m + 1)) ≤ q >>> m ∧ q >>> m ≤ 2 * (q >>> (m + 1)) + 1 := by
  rw [Nat.shiftRight_succ]
  omega

/-- A Propagate push body never taints a clear ancestor chain: if the
pushed node sits on the chain it is cleared, and a push into a chain
member's slot would require its parent, also on the chain, to carry a tag,
which the clear chain rules out. -/
theorem pathClear_pushAt (N : Nat) (hN : 1 ≤ N) (s : DState T U) (hsN : s.N = N)
    (i : Nat) (hiN : i < N) (hL : LzInv s) (q : Nat) (hP : PathClear s q) :
    PathClear (pushAt updVal updLazy s i) q := by
  by_cases hf : s.lz i = s.idUpd
  · rw [pushAt_skip _ _ _ _ hf]; exact hP
  · have hi1 : 1 ≤ i := by
      by_contra hc
      have hi0 : i = 0 := by omega
      subst hi0
      have h0 : TagProp s.N 0 := hL 0 (by omega) hf
      rw [hsN] at h0
      exact not_tagProp_zero N hN h0
    intro m hm hq
    rw [(pushAt_frame updVal updLazy s i).2.2.2]
    by_cases hxi : q >>> m = i
    · rw [hxi, pushAt_lz_self _ _ _ _ hi1]
    · by_cases hx2 : q >>> m = 2 * i
      · exfalso
        apply hf
        have hpar : q >>> (m + 1) = i := by
          rw [Nat.shiftRight_succ, hx2]
          omega
        have h2 := hP (m + 1) (by omega) (by rw [hpar]; omega)
        rw [hpar] at h2
        exact h2
      · by_cases hx3 : q >>> m = 2 * i + 1
        · exfalso
          apply hf
          have hpar : q >>> (m + 1) = i := by
            rw [Nat.shiftRight_succ, hx3]
            omega
          have h2 := hP (m + 1) (by omega) (by rw [hpar]; omega)
          rw [hpar] at h2
          exact h2
        · rw [pushAt_lz_other _ _ _ _ _ hxi hx2 hx3]
          exact hP m hm hq

/-- The final Propagate step only clears, so it never taints a clear
chain. -/
theorem pathClear_finalPush (s : DState T U) (p q : Nat) (hP : PathClear s q) :
    PathClear (finalPush updVal s p) q := by
  intro m hm hq
  rw [(finalPush_frame updVal s p).2.2.2]
  by_cases hxp : q >>> m = p
  · rw [hxp, finalPush_lz_self]
  · rw [finalPush_lz_other _ _ _ _ hxp]
    exact hP m hm hq

/-- The Propagate loop preserves any clear ancestor chain. -/
theorem pathClear_propDown (N : Nat) (hN : 1 ≤ N) (pos : Nat)
    (hpos : pos ≤ 2 * N) (q : Nat) :
    ∀ c s, s.N = N → LzInv s → PathClear s q →
      PathClear (propDown updVal updLazy pos c s) q := by
  intro c
  induction c using Nat.strong_induction_on with
  | _ c ih =>
    intro s hsN hL hP
    match c with
    | 0 => exact hP
    | 1 => exact hP
    | (k + 2) =>
        have hiN : pos >>> (k + 2) < N := propDown_index_lt N pos k hN hpos
        have hfr := pushAt_frame updVal updLazy s (pos >>> (k + 2))
        have hstep : propDown updVal updLazy pos (k + 2) s
            = propDown updVal updLazy pos (k + 1)
                (pushAt updVal updLazy s (pos >>> (k + 2))) := by
          simp only [propDown]
        rw [hstep]
        exact ih (k + 1) (by omega) _ (by rw [hfr.1, hsN])
          (pushAt_lzinv updVal updLazy N hN s hsN _ hiN hL)
          (pathClear_pushAt updVal updLazy N hN s hsN _ hiN hL q hP)

/-- Propagate preserves any clear ancestor chain. -/
theorem pathClear_dpropagate (N : Nat) (hN : 1 ≤ N) (s : DState T U)
    (hsN : s.N = N) (hL : LzInv s) (pos : Nat) (hpos : pos ≤ 2 * N) (q : Nat)
    (hP : PathClear s q) : PathClear (dpropagate updVal updLazy s pos) q := by
  unfold dpropagate
  exact pathClear_finalPush updVal _ _ _
    (pathClear_propDown updVal updLazy N hN pos hpos q s.LOG s hsN hL hP)

/-- The Propagate loop clears every ancestor of its own position from the
current level down to level 2, and leaves the already-processed levels
clear. -/
theorem propDown_clears (N : Nat) (hN : 1 ≤ N) (q : Nat) (hq2N : q ≤ 2 * N) :
    ∀ c s, s.N = N → LzInv s →
      (∀ j, c + 1 ≤ j → 1 ≤ q >>> j → s.lz (q >>> j) = s.idUpd) →
      ∀ j, 2 ≤ j → 1 ≤ q >>> j →
        (propDown updVal updLazy q c s).lz (q >>> j)
          = (propDown updVal updLazy q c s).idUpd := by
  intro c
  induction c using Nat.strong_induction_on with
  | _ c ih =>
    intro s hsN hL hhigh
    match c with
    | 0 => exact fun j hj hg => hhigh j (by omega) hg
    | 1 => exact fun j hj hg => hhigh j (by omega) hg
    | (k + 2) =>
        have hiN : q >>> (k + 2) < N := propDown_index_lt N q k hN hq2N
        have hfr := pushAt_frame updVal updLazy s (q >>> (k + 2))
        have hstep : propDown updVal updLazy q (k + 2) s
            = propDown updVal updLazy q (k + 1)
                (pushAt updVal updLazy s (q >>> (k + 2))) := by
          simp only [propDown]
        rw [hstep]
        refine ih (k + 1) (by omega) _ (by rw [hfr.1, hsN])
          (pushAt_lzinv updVal updLazy N hN s hsN _ hiN hL) ?_
        intro j hj hg
        rw [hfr.2.2.2]
        by_cases hf : s.lz (q >>> (k + 2)) = s.idUpd
        · rw [pushAt_skip _ _ _ _ hf]
          rcases Nat.lt_or_ge j (k + 3) with hj2 | hj2
          · rw [show j = k + 2 by omega]
            exact hf
          · exact hhigh j (by omega) hg
        · have hi1 : 1 ≤ q >>> (k + 2) := by
            by_contra hc
            have hi0 : q >>> (k + 2) = 0 := Nat.lt_one_iff.mp (Nat.not_le.mp hc)
            rw [hi0] at hf
            have h0 : TagProp s.N 0 := hL 0 (by omega) hf
            rw [hsN] at h0
            exact not_tagProp_zero N hN h0
          rcases Nat.lt_or_ge j (k + 3) with hj2 | hj2
          · rw [show j = k + 2 by omega]
            exact pushAt_lz_self updVal updLazy s _ hi1
          · have hh1 : 2 * (q >>> (k + 2 + 1)) ≤ q >>> (k + 2) :=
              (shiftRight_halving q (k + 2)).1
            have hh2 : q >>> j ≤ q >>> (k + 2 + 1) :=
              shiftRight_antitone q (k + 2 + 1) j (by omega)
            rw [pushAt_lz_other _ _ _ _ _ (by omega) (by omega) (by omega)]
            exact hhigh j (by omega) hg

/-- Propagate(q) leaves every strict ancestor of position q holding the
identity tag. -/
theorem dpropagate_clears (N : Nat) (hN : 1 ≤ N) (s : DState T U)
    (hsN : s.N = N) (hL : LzInv s) (q : Nat) (hq2N : q ≤ 2 * N)
    (hqLOG : q < 2 ^ (s.LOG + 1)) :
    PathClear (dpropagate updVal updLazy s q) q := by
  intro m hm hq
  unfold dpropagate
  have hclears := propDown_clears updVal updLazy N hN q hq2N s.LOG s hsN hL ?_
  · rcases Nat.lt_or_ge m 2 with hm1 | hm2
    · rw [show m = 1 by omega, Nat.shiftRight_one]
      rw [finalPush_lz_self, (finalPush_frame updVal _ _).2.2.2]
    · have hhalf := shiftRight_halving q 1
      have hanti : q >>> m ≤ q >>> 2 := shiftRight_antitone q 2 m hm2
      have hhalf2 := shiftRight_halving q 0
      have hq0 : q >>> 0 = q := rfl
      have hne : q >>> m ≠ q / 2 := by
        rw [← Nat.shiftRight_one]
        omega
      rw [finalPush_lz_other _ _ _ _ hne, (finalPush_frame updVal _ _).2.2.2]
      exact hclears m hm2 hq
  · intro j hj hg
    exfalso
    have hpow : 2 ^ (s.LOG + 1) ≤ 2 ^ j := Nat.pow_le_pow_right (by omega) hj
    have hz : q >>> j = 0 := by
      rw [Nat.shiftRight_eq_div_pow]
      exact Nat.div_eq_of_lt (by omega)
    omega

end DenseClear

section DenseFrame

variable {T U : Type} [DecidableEq U]
variable (op : T → T → T) (updVal : T → U → T) (updLazy : U → U → U)

/-- A slot cannot be a covering node of the walk at two different levels:
its lower bound at the smaller level and its upper bound at the larger
level squeeze the range below its own width. -/
theorem no_double_level (N l0 r0 a j k : Nat) (hl0 : N ≤ l0) (hr0 : r0 ≤ 2 * N)
    (hjk : j < k) (h1 : l0 ≤ 2 ^ j * a) (h2 : 2 ^ k * (a + 1) ≤ r0) : False := by
  have e1 : 2 ^ (j + 1) * a = 2 * (2 ^ j * a) := by ring
  have e2 : 2 ^ (j + 1) * a ≤ 2 ^ k * a :=
    Nat.mul_le_mul_right a (Nat.pow_le_pow_right (by omega) (by omega))
  have e3 : 2 ^ k * (a + 1) = 2 ^ k * a + 2 ^ k := by ring
  have e4 := Nat.two_pow_pos k
  omega

/-- The bottom-up Update walk composes the incoming update into each lazy
slot at most once: every slot is either untouched or updLazy-composed
exactly once, and is never cleared. -/
theorem walkU_lz_frame (N l0 r0 : Nat) (hl0 : N ≤ l0) (hr0 : r0 ≤ 2 * N) (v : U) :
    ∀ f k (s0 s : DState T U), 1 ≤ k →
      (∀ a, s.lz a = s0.lz a ∨
        (s.lz a = updLazy (s0.lz a) v ∧
          ∃ j, 1 ≤ j ∧ j < k ∧ l0 ≤ 2 ^ j * a ∧ 2 ^ j * (a + 1) ≤ r0)) →
      ∀ a, (walkU updVal updLazy f (ceilSeq l0 k) (floorSeq r0 k) v s).lz a
            = s0.lz a ∨
        (walkU updVal updLazy f (ceilSeq l0 k) (floorSeq r0 k) v s).lz a
            = updLazy (s0.lz a) v := by
  intro f
  induction f with
  | zero =>
      intro k s0 s hk hacc a
      rcases hacc a with h | h
      · exact Or.inl h
      · exact Or.inr h.1
  | succ f ih =>
      intro k s0 s hk hacc a
      by_cases hlr : ceilSeq l0 k < floorSeq r0 k
      · have hLnext : (if ceilSeq l0 k % 2 = 1 then ceilSeq l0 k + 1
            else ceilSeq l0 k) / 2 = ceilSeq l0 (k + 1) := by
          have he : ceilSeq l0 (k + 1) = (ceilSeq l0 k + 1) / 2 := rfl
          rw [he]
          split_ifs with h <;> omega
        have hRnext : (if floorSeq r0 k % 2 = 1 then floorSeq r0 k - 1
            else floorSeq r0 k) / 2 = floorSeq r0 (k + 1) := by
          have he : floorSeq r0 (k + 1) = floorSeq r0 k / 2 := rfl
          rw [he]
          split_ifs with h <;> omega
        have hLlow : l0 ≤ 2 ^ k * ceilSeq l0 k := ceilSeq_lower l0 k
        have hRhigh : 2 ^ k * floorSeq r0 k ≤ r0 := floorSeq_le r0 k
        have hLup : 2 ^ k * (ceilSeq l0 k + 1) ≤ r0 :=
          le_trans (Nat.mul_le_mul_left _ (by omega)) hRhigh
        have hRlow : l0 ≤ 2 ^ k * (floorSeq r0 k - 1) :=
          le_trans hLlow (Nat.mul_le_mul_left _ (by omega))
        have hRup : 2 ^ k * (floorSeq r0 k - 1 + 1) ≤ r0 := by
          have he : floorSeq r0 k - 1 + 1 = floorSeq r0 k := by omega
          rw [he]
          exact hRhigh
        have hs2 : ∀ b,
            ((if floorSeq r0 k % 2 = 1 then
                tagWrite updVal updLazy
                  (if ceilSeq l0 k % 2 = 1
                    then tagWrite updVal updLazy s (ceilSeq l0 k) v else s)
                  (floorSeq r0 k - 1) v
              else (if ceilSeq l0 k % 2 = 1
                then tagWrite updVal updLazy s (ceilSeq l0 k) v else s)).lz b
                  = s.lz b) ∨
            ((if floorSeq r0 k % 2 = 1 then
                tagWrite updVal updLazy
                  (if ceilSeq l0 k % 2 = 1
                    then tagWrite updVal updLazy s (ceilSeq l0 k) v else s)
                  (floorSeq r0 k - 1) v
              else (if ceilSeq l0 k % 2 = 1
                then tagWrite updVal updLazy s (ceilSeq l0 k) v else s)).lz b
                  = updLazy (s.lz b) v ∧
              l0 ≤ 2 ^ k * b ∧ 2 ^ k * (b + 1) ≤ r0) := by
          intro b
          by_cases hR2 : floorSeq r0 k % 2 = 1
          · rw [if_pos hR2]
            by_cases hL2 : ceilSeq l0 k % 2 = 1
            · rw [if_pos hL2]
              by_cases hbR : b = floorSeq r0 k - 1
              · refine Or.inr ?_
                rw [hbR, tagWrite_lz_self,
                  tagWrite_lz_other updVal updLazy s _ v _ (by omega)]
                exact ⟨rfl, hRlow, hRup⟩
              · rw [tagWrite_lz_other updVal updLazy _ _ v b hbR]
                by_cases hbL : b = ceilSeq l0 k
                · refine Or.inr ?_
                  rw [hbL, tagWrite_lz_self]
                  exact ⟨rfl, hLlow, hLup⟩
                · rw [tagWrite_lz_other updVal updLazy s _ v b hbL]
                  exact Or.inl rfl
            · rw [if_neg hL2]
              by_cases hbR : b = floorSeq r0 k - 1
              · refine Or.inr ?_
                rw [hbR, tagWrite_lz_self]
                exact ⟨rfl, hRlow, hRup⟩
              · rw [tagWrite_lz_other updVal updLazy s _ v b hbR]
                exact Or.inl rfl
          · rw [if_neg hR2]
            by_cases hL2 : ceilSeq l0 k % 2 = 1
            · rw [if_pos hL2]
              by_cases hbL : b = ceilSeq l0 k
              · refine Or.inr ?_
                rw [hbL, tagWrite_lz_self]
                exact ⟨rfl, hLlow, hLup⟩
              · rw [tagWrite_lz_other updVal updLazy s _ v b hbL]
                exact Or.inl rfl
            · rw [if_neg hL2]
              exact Or.inl rfl
        rw [walkU_step updVal updLazy f _ _ v s hlr, hLnext, hRnext]
        refine ih (k + 1) s0 _ (by omega) ?_ a
        intro b
        rcases hs2 b with hb | ⟨hb, hbl, hbr⟩
        · rcases hacc b with h | ⟨h, j, hj1, hjk, hjl, hjr⟩
          · exact Or.inl (hb.trans h)
          · exact Or.inr ⟨hb.trans h, j, hj1, by omega, hjl, hjr⟩
        · rcases hacc b with h | ⟨h, j, hj1, hjk, hjl, hjr⟩
          · rw [h] at hb
            exact Or.inr ⟨hb, k, hk, by omega, hbl, hbr⟩
          · exact (no_double_level N l0 r0 b j k hl0 hr0 hjk hjl hbr).elim
      · rw [walkU_exit updVal updLazy (f + 1) _ _ v s hlr]
        rcases hacc a with h | h
        · exact Or.inl h
        · exact Or.inr h.1

end DenseFrame

section DenseFrame2

variable {T U : Type} [DecidableEq U]
variable (op : T → T → T) (updVal : T → U → T) (updLazy : U → U → U)

/-- Update never propagates: every lazy slot after Update(l, r, v) is
either unchanged or has v composed into it by updLazy; no slot is pushed
down or reset.  The boundary pre-writes and the two recalculation passes
touch only the aggregate vector. -/
theorem dupdate_lz_frame (N : Nat) (hN : 1 ≤ N) (s : DState T U) (hsN : s.N = N)
    (l r : Nat) (v : U) (hrN : r ≤ N) :
    ∀ a, (DUpdate op updVal updLazy s l r v).lz a = s.lz a ∨
      (DUpdate op updVal updLazy s l r v).lz a = updLazy (s.lz a) v := by
  rw [dUpdate_unfold, hsN]
  have hc1 : (if (l + N) % 2 = 1 then l + N + 1 else l + N) / 2
      = ceilSeq (l + N) 1 := by
    have he : ceilSeq (l + N) 1 = (l + N + 1) / 2 := rfl
    rw [he]
    split_ifs with h <;> omega
  have hc2 : (if (r + N) % 2 = 1 then r + N - 1 else r + N) / 2
      = floorSeq (r + N) 1 := by
    have he : floorSeq (r + N) 1 = (r + N) / 2 := rfl
    rw [he]
    split_ifs with h <;> omega
  rw [hc1, hc2]
  have hpre : ∀ s2 : DState T U,
      s2 = (if (r + N) % 2 = 1
          then tstore updVal
            (if (l + N) % 2 = 1 then tstore updVal s (l + N) v else s)
            (r + N - 1) v
          else (if (l + N) % 2 = 1 then tstore updVal s (l + N) v else s)) →
      s2.lz = s.lz := by
    intro s2 h2
    subst h2
    by_cases ho2 : (r + N) % 2 = 1
    · rw [if_pos ho2]
      by_cases ho1 : (l + N) % 2 = 1
      · rw [if_pos ho1]
        rfl
      · rw [if_neg ho1]
        rfl
    · rw [if_neg ho2]
      by_cases ho1 : (l + N) % 2 = 1
      · rw [if_pos ho1]
        rfl
      · rw [if_neg ho1]
  have h2lz := hpre _ rfl
  simp only [drecalc]
  have hr1 := recalcUp_frame op updVal (l + N) ((l + N) / 2)
    (walkU updVal updLazy (r + N + 1) (ceilSeq (l + N) 1) (floorSeq (r + N) 1) v
      (if (r + N) % 2 = 1
        then tstore updVal
          (if (l + N) % 2 = 1 then tstore updVal s (l + N) v else s)
          (r + N - 1) v
        else (if (l + N) % 2 = 1 then tstore updVal s (l + N) v else s)))
  have hr2 := recalcUp_frame op updVal (r + N - 1) ((r + N - 1) / 2)
    (recalcUp op updVal (l + N) ((l + N) / 2)
      (walkU updVal updLazy (r + N + 1) (ceilSeq (l + N) 1) (floorSeq (r + N) 1) v
        (if (r + N) % 2 = 1
          then tstore updVal
            (if (l + N) % 2 = 1 then tstore updVal s (l + N) v else s)
            (r + N - 1) v
          else (if (l + N) % 2 = 1 then tstore updVal s (l + N) v else s))))
  intro a
  rw [hr2.2.2.2.2, hr1.2.2.2.2]
  have hmain := walkU_lz_frame updVal updLazy N (l + N) (r + N)
    (by omega) (by omega) v (r + N + 1) 1 s
    (if (r + N) % 2 = 1
      then tstore updVal
        (if (l + N) % 2 = 1 then tstore updVal s (l + N) v else s)
        (r + N - 1) v
      else (if (l + N) % 2 = 1 then tstore updVal s (l + N) v else s))
    (by omega) (fun b => Or.inl (congrFun h2lz b))
  exact hmain a

end DenseFrame2

/-- C3 amended: on a state whose LOG_ field covers the leaf positions and
that satisfies the tag placement invariant, Query(l, r) (nonempty, in
bounds) propagates pending tags top-down along the two boundary root-to-
leaf paths: in the state it returns, every strict ancestor of boundary
positions l + N and r + N - 1 holds the identity tag.  Update(l, r, v)
performs no propagation at all: every lazy slot after the call is either
unchanged or has v composed into it by updLazy, and is never pushed down or
cleared. -/
theorem c3_amended {T U : Type} [DecidableEq U] (op : T → T → T)
    (updVal : T → U → T) (updLazy : U → U → U)
    (N : Nat) (hN : 1 ≤ N) (s : DState T U) (hsN : s.N = N)
    (hLOG : 2 * N ≤ 2 ^ (s.LOG + 1)) (hL : LzInv s)
    (l r : Nat) (hlr : l < r) (hrN : r ≤ N) (v : U) :
    PathClear ((DQuery op updVal updLazy s l r).2) (l + N) ∧
    PathClear ((DQuery op updVal updLazy s l r).2) (r + N - 1) ∧
    (∀ a, (DUpdate op updVal updLazy s l r v).lz a = s.lz a ∨
      (DUpdate op updVal updLazy s l r v).lz a = updLazy (s.lz a) v) := by
  refine ⟨?_, ?_, dupdate_lz_frame op updVal updLazy N hN s hsN l r v hrN⟩
  · rw [dquery_snd, hsN]
    have h1 := dpropagate_clears updVal updLazy N hN s hsN hL (l + N)
      (by omega) (by omega)
    have hmid := dpropagate_lzinv updVal updLazy N hN s hsN (l + N) (by omega) hL
    exact pathClear_dpropagate updVal updLazy N hN _ hmid.1 hmid.2.2.2.2
      (r + N - 1) (by omega) (l + N) h1
  · rw [dquery_snd, hsN]
    have hmid := dpropagate_lzinv updVal updLazy N hN s hsN (l + N) (by omega) hL
    refine dpropagate_clears updVal updLazy N hN _ hmid.1 hmid.2.2.2.2
      (r + N - 1) (by omega) ?_
    rw [hmid.2.1]
    omega

/-- Witness for C3 on the min/add tree over [1,2,3,4]: the call Query(1,3)
returns a state whose boundary ancestor chains (of positions 5 and 6) are
clear, and Update(1,3,7) only leaves slots unchanged or composes 7 into
them. -/
theorem c3_witness :
    1 ≤ 4 ∧ minAddTree4.N = 4 ∧ 2 * 4 ≤ 2 ^ (minAddTree4.LOG + 1) ∧
    LzInv minAddTree4 ∧ 1 < 3 ∧ 3 ≤ 4 ∧
    (PathClear ((DQuery intMin addOp addOp minAddTree4 1 3).2) (1 + 4) ∧
     PathClear ((DQuery intMin addOp addOp minAddTree4 1 3).2) (3 + 4 - 1) ∧
     (∀ a, (DUpdate intMin addOp addOp minAddTree4 1 3 7).lz a
         = minAddTree4.lz a ∨
       (DUpdate intMin addOp addOp minAddTree4 1 3 7).lz a
         = addOp (minAddTree4.lz a) 7)) := by
  have hLz : LzInv minAddTree4 := by
    intro x hx hne
    exact absurd rfl hne
  exact ⟨by decide, rfl, by decide, hLz, by decide, by decide,
    c3_amended intMin addOp addOp 4 (by decide) minAddTree4 rfl (by decide)
      hLz 1 3 (by decide) (by decide) 7⟩
